import Mathlib

/-!
Verification of the Bao core encoder (`src/encode.rs`): parent-count
arithmetic, the post-order encoder, the in-place flipper state machine and
the incremental writer, embedded shallowly over `Nat` and `List Nat`.

The `hash` module of the repository (constants, the subtree stack
`hash::State`, `largest_power_of_two`, the BLAKE2b primitive) is not among
the sources; those parts are modelled from the spec, as marked on each
definition.  The chunk size `cs` and the hash digest size `hs` are kept as
parameters, since their numeric values are fixed externally to the sources.
-/

set_option maxHeartbeats 1600000

namespace Bao

/-- Finalization flag of the hash primitive (`hash::Finalization`).
Modelled from the spec: `Root` carries the total content length and is used
exactly at the root of the whole tree, `NotRoot` everywhere else. -/
inductive Finalization where
  | Root (contentLen : Nat)
  | NotRoot
deriving DecidableEq

export Finalization (Root NotRoot)

/-- Modelled from the spec: `HEADER_SIZE = 8`, the byte length of the
little-endian u64 content-length header.  The constant lives in the `hash`
module, which is not among the sources. -/
def HEADER_SIZE : Nat := 8

/-- Modelled from the spec: `MAX_DEPTH` is the upper bound on the subtree
stacks, the base-2 logarithm of the maximum supported content length in
chunks; with 64-bit chunk indices that is 64.  The constant lives in the
`hash` module, which is not among the sources. -/
def MAX_DEPTH : Nat := 64

/-- Embedding of `count_chunks` (encode.rs:23-29).  `cs` stands for the
externally fixed `CHUNK_SIZE`.  The u64 arithmetic of the source does not
overflow (proved below for C8), so plain `Nat` arithmetic is faithful. -/
def countChunks (cs L : Nat) : Nat :=
  max 1 (L / cs + (if L % cs ≠ 0 then 1 else 0))

/-- Embedding of `chunk_size` (encode.rs:31-34): size in bytes of chunk
index `c` for content length `L`. -/
def chunkSizeF (cs c L : Nat) : Nat :=
  min cs (L - c * cs)

/-- Embedding of `encoded_subtree_size` (encode.rs:15-21); `PARENT_SIZE`
is `2 * hs` where `hs` is the externally fixed `HASH_SIZE`. -/
def encodedSubtreeSize (cs hs L : Nat) : Nat :=
  L + (countChunks cs L - 1) * (2 * hs)

/-- Embedding of `encoded_size` (encode.rs:11-13). -/
def encodedSize (cs hs L : Nat) : Nat :=
  encodedSubtreeSize cs hs L + HEADER_SIZE

/-! Bit arithmetic used by the parent-count functions. -/

/-- Trailing zeros of a binary numeral; on `0` it returns `0` (the u64
version, which returns the width there, is `u64tz`). -/
def tzPos (n : Nat) : Nat :=
  if h : n = 0 then 0
  else if n % 2 = 1 then 0 else tzPos (n / 2) + 1
termination_by n
decreasing_by exact Nat.div_lt_self (Nat.pos_of_ne_zero h) one_lt_two

/-- u64 `trailing_zeros`: 64 on input 0. -/
def u64tz (n : Nat) : Nat := if n = 0 then 64 else tzPos n

/-- Number of trailing one bits of a natural number. -/
def trailingOnes (n : Nat) : Nat :=
  if h : n % 2 = 1 then trailingOnes (n / 2) + 1 else 0
termination_by n
decreasing_by
  exact Nat.div_lt_self (by omega) one_lt_two

/-- Number of one bits (`count_ones` / popcount). -/
def popCount (n : Nat) : Nat :=
  if h : n = 0 then 0
  else popCount (n / 2) + n % 2
termination_by n
decreasing_by exact Nat.div_lt_self (Nat.pos_of_ne_zero h) one_lt_two

/-- u64 `leading_zeros` of a value below `2 ^ 64`:
`64 - (bit length)`. -/
def u64lz (n : Nat) : Nat := 64 - Nat.size n

/-- Embedding of `post_order_parent_nodes_nonfinal` (encode.rs:129-131):
`(!chunk).trailing_zeros()` over u64, i.e. the trailing zeros of the
bitwise complement `2^64 - 1 - c`. -/
def postOrderParentNodesNonfinal (c : Nat) : Nat :=
  u64tz (2 ^ 64 - 1 - c)

/-- Embedding of `post_order_parent_nodes_final` (encode.rs:136-138):
`chunk.count_ones()`. -/
def postOrderParentNodesFinal (c : Nat) : Nat :=
  popCount c

/-- Embedding of `pre_order_parent_nodes` (encode.rs:162-168):
`min(64 - (remaining - 1).leading_zeros(), chunk.trailing_zeros())`. -/
def preOrderParentNodes (cs c L : Nat) : Nat :=
  min (64 - u64lz (countChunks cs L - c - 1)) (u64tz c)

/-! Basic lemmas about the bit functions. -/

theorem tzPos_odd {n : Nat} (h : n % 2 = 1) : tzPos n = 0 := by
  have h0 : n ≠ 0 := by omega
  rw [tzPos]
  simp [h0, h]

theorem tzPos_even {n : Nat} (h0 : n ≠ 0) (h : n % 2 = 0) :
    tzPos n = tzPos (n / 2) + 1 := by
  rw [tzPos]
  simp [h0, h]

theorem trailingOnes_odd {n : Nat} (h : n % 2 = 1) :
    trailingOnes n = trailingOnes (n / 2) + 1 := by
  rw [trailingOnes]
  simp [h]

theorem trailingOnes_even {n : Nat} (h : n % 2 = 0) : trailingOnes n = 0 := by
  rw [trailingOnes]
  simp [h]

theorem popCount_zero : popCount 0 = 0 := by
  rw [popCount]
  simp

theorem popCount_ne {n : Nat} (h : n ≠ 0) :
    popCount n = popCount (n / 2) + n % 2 := by
  rw [popCount]
  simp [h]

theorem popCount_two_mul_add {b n : Nat} (hb : b < 2) :
    popCount (2 * n + b) = popCount n + b := by
  rcases Nat.eq_zero_or_pos (2 * n + b) with h | h
  · have hn : n = 0 := by omega
    have hb0 : b = 0 := by omega
    subst hn
    subst hb0
    simp [popCount_zero]
  · rw [popCount_ne (show 2 * n + b ≠ 0 by omega)]
    have h2 : (2 * n + b) / 2 = n := by omega
    have h3 : (2 * n + b) % 2 = b := by omega
    rw [h2, h3]

/-- `popCount (2^k - 1) = k`. -/
theorem popCount_pow_sub_one (k : Nat) : popCount (2 ^ k - 1) = k := by
  induction k with
  | zero => simpa using popCount_zero
  | succ k ih =>
    have hp : 0 < 2 ^ k := pow_pos (by norm_num) k
    have he : (2:Nat) ^ (k + 1) = 2 ^ k * 2 := pow_succ 2 k
    have h : 2 ^ (k + 1) - 1 = 2 * (2 ^ k - 1) + 1 := by omega
    rw [h, popCount_two_mul_add (by omega), ih]

/-- `trailingOnes (2^k - 1) = k`. -/
theorem trailingOnes_pow_sub_one (k : Nat) : trailingOnes (2 ^ k - 1) = k := by
  induction k with
  | zero =>
    have h : (2:Nat) ^ 0 - 1 = 0 := rfl
    rw [h]
    exact trailingOnes_even (by norm_num)
  | succ k ih =>
    have hp : 0 < 2 ^ k := pow_pos (by norm_num) k
    have he : (2:Nat) ^ (k + 1) = 2 ^ k * 2 := pow_succ 2 k
    have h : 2 ^ (k + 1) - 1 = 2 * (2 ^ k - 1) + 1 := by omega
    have hodd : (2 * (2 ^ k - 1) + 1) % 2 = 1 := by omega
    have hdiv : (2 * (2 ^ k - 1) + 1) / 2 = 2 ^ k - 1 := by omega
    rw [h, trailingOnes_odd hodd, hdiv, ih]

/-- `popCount (2^B + d) = popCount d + 1` for `d < 2^B`. -/
theorem popCount_pow_add {B d : Nat} (hd : d < 2 ^ B) :
    popCount (2 ^ B + d) = popCount d + 1 := by
  induction B generalizing d with
  | zero =>
    have : d = 0 := by omega
    subst this
    rw [popCount_ne (by norm_num)]
    norm_num [popCount_zero]
  | succ B ih =>
    have hp : 0 < 2 ^ B := pow_pos (by norm_num) B
    have he : (2:Nat) ^ (B + 1) = 2 ^ B * 2 := pow_succ 2 B
    have hne : 2 ^ (B + 1) + d ≠ 0 := by omega
    rw [popCount_ne hne]
    have hd2 : d / 2 < 2 ^ B := by omega
    have hdiv : (2 ^ (B + 1) + d) / 2 = 2 ^ B + d / 2 := by omega
    have hmod : (2 ^ (B + 1) + d) % 2 = d % 2 := by omega
    rw [hdiv, hmod, ih hd2]
    rcases Nat.eq_zero_or_pos d with h | h
    · subst h
      simp [popCount_zero]
    · have hd' : popCount d = popCount (d / 2) + d % 2 :=
        popCount_ne (show d ≠ 0 by omega)
      omega

/-- `trailingOnes (2^B + d) = trailingOnes d` for `d + 1 < 2^B`. -/
theorem trailingOnes_pow_add {B d : Nat} (hd : d + 1 < 2 ^ B) :
    trailingOnes (2 ^ B + d) = trailingOnes d := by
  induction B generalizing d with
  | zero => omega
  | succ B ih =>
    have hp : 0 < 2 ^ B := pow_pos (by norm_num) B
    have he : (2:Nat) ^ (B + 1) = 2 ^ B * 2 := pow_succ 2 B
    rcases Nat.even_or_odd d with hev | ho
    · have hmod : d % 2 = 0 := Nat.even_iff.mp hev
      have h2 : (2 ^ (B + 1) + d) % 2 = 0 := by omega
      rw [trailingOnes_even h2, trailingOnes_even hmod]
    · have hmod : d % 2 = 1 := Nat.odd_iff.mp ho
      have h2 : (2 ^ (B + 1) + d) % 2 = 1 := by omega
      rw [trailingOnes_odd h2, trailingOnes_odd hmod]
      have hdiv : (2 ^ (B + 1) + d) / 2 = 2 ^ B + d / 2 := by omega
      rw [hdiv, ih (by omega)]

/-- `tzPos (2^k * m) = k` for odd `m`. -/
theorem tzPos_pow_mul {k m : Nat} (hm : m % 2 = 1) :
    tzPos (2 ^ k * m) = k := by
  induction k with
  | zero => simpa using tzPos_odd hm
  | succ k ih =>
    have hp : 0 < 2 ^ k := pow_pos (by norm_num) k
    have hrw : 2 ^ (k + 1) * m = 2 * (2 ^ k * m) := by ring
    have hm0 : m ≠ 0 := by omega
    have hprod : 0 < 2 ^ k * m := Nat.mul_pos hp (by omega)
    have hne : 2 ^ (k + 1) * m ≠ 0 := by omega
    have heven : 2 ^ (k + 1) * m % 2 = 0 := by
      rw [hrw]
      exact Nat.mul_mod_right 2 _
    rw [tzPos_even hne heven]
    have hdiv : 2 ^ (k + 1) * m / 2 = 2 ^ k * m := by
      rw [hrw]
      exact Nat.mul_div_cancel_left _ (by norm_num)
    rw [hdiv, ih]

/-- Every positive number is `2^(tzPos n)` times an odd number. -/
theorem tzPos_decomposition {n : Nat} (h : n ≠ 0) :
    ∃ m, m % 2 = 1 ∧ n = 2 ^ tzPos n * m := by
  induction n using Nat.strong_induction_on with
  | _ n ih =>
    rcases Nat.even_or_odd n with he | ho
    · have hmod : n % 2 = 0 := Nat.even_iff.mp he
      have h2 : n / 2 ≠ 0 := by omega
      obtain ⟨m, hm, hrep⟩ := ih (n / 2) (Nat.div_lt_self (by omega) one_lt_two) h2
      refine ⟨m, hm, ?_⟩
      rw [tzPos_even h hmod, pow_succ]
      have hn2 : n = 2 * (n / 2) := by omega
      calc n = 2 * (n / 2) := hn2
        _ = 2 * (2 ^ tzPos (n / 2) * m) := congrArg (fun z => 2 * z) hrep
        _ = 2 ^ tzPos (n / 2) * 2 * m := by ring
    · have hmod : n % 2 = 1 := Nat.odd_iff.mp ho
      exact ⟨n, hmod, by rw [tzPos_odd hmod, pow_zero, one_mul]⟩

/-- `2^(tzPos n)` divides `n`. -/
theorem tzPos_pow_dvd {n : Nat} (h : n ≠ 0) : 2 ^ tzPos n ∣ n := by
  obtain ⟨m, _, hrep⟩ := tzPos_decomposition h
  exact ⟨m, hrep⟩

/-- `2^(tzPos n) ≤ n` for positive `n`. -/
theorem tzPos_pow_le {n : Nat} (h : n ≠ 0) : 2 ^ tzPos n ≤ n :=
  Nat.le_of_dvd (by omega) (tzPos_pow_dvd h)

/-- `tzPos (2^B + d) = tzPos d` for `0 < d < 2^B`. -/
theorem tzPos_pow_add {B d : Nat} (hd0 : d ≠ 0) (hd : d < 2 ^ B) :
    tzPos (2 ^ B + d) = tzPos d := by
  obtain ⟨m, hm, hrep⟩ := tzPos_decomposition hd0
  set t := tzPos d with ht
  have htB : t < B := by
    by_contra hcon
    push_neg at hcon
    have h1 : (2:Nat) ^ B ≤ 2 ^ t := Nat.pow_le_pow_right (by norm_num) hcon
    have h2 : 2 ^ t ≤ d := tzPos_pow_le hd0
    omega
  have hstep : 2 ^ B + d = 2 ^ t * (2 ^ (B - t) + m) := by
    have : (2:Nat) ^ B = 2 ^ t * 2 ^ (B - t) := by
      rw [← pow_add]
      congr 1
      omega
    rw [this, hrep]
    ring
  rw [hstep, tzPos_pow_mul]
  have hBt : B - t ≠ 0 := by omega
  have : (2:Nat) ^ (B - t) % 2 = 0 := by
    obtain ⟨j, hj⟩ : ∃ j, B - t = j + 1 := ⟨B - t - 1, by omega⟩
    rw [hj, pow_succ]
    omega
  omega

/-- `tzPos (2^B) = B`. -/
theorem tzPos_pow (B : Nat) : tzPos (2 ^ B) = B := by
  have := tzPos_pow_mul (k := B) (m := 1) (by norm_num)
  simpa using this

/-- The number that the code calls bit length: `Nat.size (2^k - 1) = k`. -/
theorem size_pow_sub_one (k : Nat) : Nat.size (2 ^ k - 1) = k := by
  rcases Nat.eq_zero_or_pos k with h | h
  · subst h
    simp
  · have h1 : Nat.size (2 ^ k - 1) ≤ k := by
      rw [Nat.size_le]
      have : 0 < (2:Nat) ^ k := pow_pos (by norm_num) k
      omega
    have h2 : k - 1 < Nat.size (2 ^ k - 1) := by
      rw [Nat.lt_size]
      have hle : (2:Nat) ^ (k - 1) * 2 = 2 ^ k := by
        rw [← pow_succ]
        congr 1
        omega
      have : 0 < (2:Nat) ^ (k - 1) := pow_pos (by norm_num) _
      omega
    omega

/-- The bit length of a value in `[2^B, 2^(B+1))` is `B + 1`. -/
theorem size_eq_of_range {B x : Nat} (h1 : 2 ^ B ≤ x) (h2 : x < 2 ^ (B + 1)) :
    Nat.size x = B + 1 := by
  have ha : Nat.size x ≤ B + 1 := Nat.size_le.mpr h2
  have hb : B < Nat.size x := Nat.lt_size.mpr h1
  omega

theorem popCount_le_of_lt_pow {k n : Nat} (h : n < 2 ^ k) : popCount n ≤ k := by
  induction k generalizing n with
  | zero =>
    have : n = 0 := by omega
    subst this
    simp [popCount_zero]
  | succ k ih =>
    rcases Nat.eq_zero_or_pos n with h0 | h0
    · subst h0
      simp [popCount_zero]
    · rw [popCount_ne (by omega)]
      have he : (2:Nat) ^ (k + 1) = 2 ^ k * 2 := pow_succ 2 k
      have := ih (n := n / 2) (by omega)
      omega

theorem popCount_le_size (n : Nat) : popCount n ≤ Nat.size n :=
  popCount_le_of_lt_pow (Nat.lt_size_self n)

theorem trailingOnes_le_of_lt_pow {k n : Nat} (h : n < 2 ^ k) :
    trailingOnes n ≤ k := by
  induction k generalizing n with
  | zero =>
    have : n = 0 := by omega
    subst this
    rw [trailingOnes_even (by norm_num)]
  | succ k ih =>
    rcases Nat.even_or_odd n with hev | ho
    · rw [trailingOnes_even (Nat.even_iff.mp hev)]
      omega
    · rw [trailingOnes_odd (Nat.odd_iff.mp ho)]
      have he : (2:Nat) ^ (k + 1) = 2 ^ k * 2 := pow_succ 2 k
      have := ih (n := n / 2) (by omega)
      omega

/-- The u64 trailing-zero count of the complement `!c` is the number of
trailing ones of `c`, for `c` below the width and not all ones. -/
theorem tzPos_compl {k c : Nat} (hc : c < 2 ^ k) (hne : c ≠ 2 ^ k - 1) :
    tzPos (2 ^ k - 1 - c) = trailingOnes c := by
  induction k generalizing c with
  | zero => omega
  | succ k ih =>
    have hp : 0 < 2 ^ k := pow_pos (by norm_num) k
    have he : (2:Nat) ^ (k + 1) = 2 ^ k * 2 := pow_succ 2 k
    rcases Nat.even_or_odd c with hev | ho
    · have hmod : c % 2 = 0 := Nat.even_iff.mp hev
      have hxodd : (2 ^ (k + 1) - 1 - c) % 2 = 1 := by omega
      rw [tzPos_odd hxodd, trailingOnes_even hmod]
    · have hmod : c % 2 = 1 := Nat.odd_iff.mp ho
      have hxne : 2 ^ (k + 1) - 1 - c ≠ 0 := by omega
      have hxeven : (2 ^ (k + 1) - 1 - c) % 2 = 0 := by omega
      rw [tzPos_even hxne hxeven, trailingOnes_odd hmod]
      have hdiv : (2 ^ (k + 1) - 1 - c) / 2 = 2 ^ k - 1 - c / 2 := by omega
      rw [hdiv, ih (by omega) (by omega)]

/-- The claim of `post_order_parent_nodes_nonfinal`: the u64 complement
trick computes the number of trailing one bits. -/
theorem postOrderParentNodesNonfinal_eq {c : Nat} (hc : c < 2 ^ 64) :
    postOrderParentNodesNonfinal c = trailingOnes c := by
  unfold postOrderParentNodesNonfinal u64tz
  by_cases h : c = 2 ^ 64 - 1
  · subst h
    rw [if_pos (by omega)]
    rw [trailingOnes_pow_sub_one]
  · rw [if_neg (by omega), tzPos_compl hc h]

/-- `trailingOnes n + popCount (n+1) = popCount n + 1`. -/
theorem trailingOnes_add_popCount_succ (n : Nat) :
    trailingOnes n + popCount (n + 1) = popCount n + 1 := by
  induction n using Nat.strong_induction_on with
  | _ n ih =>
    rcases Nat.even_or_odd n with hev | ho
    · have hmod : n % 2 = 0 := Nat.even_iff.mp hev
      rw [trailingOnes_even hmod, popCount_ne (show n + 1 ≠ 0 by omega)]
      have h1 : (n + 1) / 2 = n / 2 := by omega
      have h2 : (n + 1) % 2 = 1 := by omega
      rw [h1, h2]
      rcases Nat.eq_zero_or_pos n with h0 | h0
      · subst h0
        simp [popCount_zero]
      · rw [popCount_ne (show n ≠ 0 by omega)]
        omega
    · have hmod : n % 2 = 1 := Nat.odd_iff.mp ho
      rw [trailingOnes_odd hmod, popCount_ne (show n + 1 ≠ 0 by omega),
        popCount_ne (show n ≠ 0 by omega)]
      have h1 : (n + 1) / 2 = n / 2 + 1 := by omega
      have h2 : (n + 1) % 2 = 0 := by omega
      rw [h1, h2]
      have := ih (n / 2) (by omega)
      omega

/-- Sum of `trailingOnes` over `0, …, m-1`. -/
def sumTO (m : Nat) : Nat :=
  ((List.range m).map trailingOnes).sum

theorem sumTO_succ (m : Nat) : sumTO (m + 1) = sumTO m + trailingOnes m := by
  unfold sumTO
  rw [List.range_succ, List.map_append, List.sum_append]
  simp

/-- `sumTO m + popCount m = m`: the total number of nonfinal post-order
parents below an index. -/
theorem sumTO_add_popCount (m : Nat) : sumTO m + popCount m = m := by
  induction m with
  | zero => simp [sumTO, popCount_zero]
  | succ m ih =>
    rw [sumTO_succ]
    have := trailingOnes_add_popCount_succ m
    omega

/-! The brute-force reference walker for parent counts (the test helper
`make_pre_post_list` in encode.rs:401-416 together with the authoritative
split rule of the spec). -/

/-- Modelled from the spec: the split point of a subtree of `s > 1` chunks
is the largest power of two strictly less than `s`
(`hash::largest_power_of_two(s - 1)`, from the missing `hash` module). -/
def splitPoint (s : Nat) : Nat := 2 ^ Nat.log2 (s - 1)

theorem splitPoint_pos (s : Nat) : 0 < splitPoint s :=
  pow_pos (by norm_num) _

theorem splitPoint_le {s : Nat} (h : 2 ≤ s) : splitPoint s ≤ s - 1 :=
  Nat.log2_self_le (by omega)

theorem splitPoint_lt_two_mul {s : Nat} (h : 2 ≤ s) :
    s - 1 < 2 * splitPoint s := by
  have := Nat.lt_log2_self (n := s - 1)
  unfold splitPoint
  rw [pow_succ] at this
  omega

/-- Reference walker count of non-leaf subtrees of the tree on chunks
`[fst, fst + sz)` whose leftmost chunk is `c` (the `pre` field of
`make_pre_post_list`). -/
def preCount (fst sz c : Nat) : Nat :=
  if h : sz ≤ 1 then 0
  else
    (if c = fst then 1 else 0) +
      preCount fst (splitPoint sz) c +
      preCount (fst + splitPoint sz) (sz - splitPoint sz) c
termination_by sz
decreasing_by
  · have h1 := splitPoint_le (s := sz) (by omega)
    have h2 := splitPoint_pos sz
    omega
  · have h1 := splitPoint_le (s := sz) (by omega)
    have h2 := splitPoint_pos sz
    omega

/-- Reference walker count of non-leaf subtrees whose rightmost chunk is
`c` (the `post` field of `make_pre_post_list`). -/
def postCount (fst sz c : Nat) : Nat :=
  if h : sz ≤ 1 then 0
  else
    (if c = fst + sz - 1 then 1 else 0) +
      postCount fst (splitPoint sz) c +
      postCount (fst + splitPoint sz) (sz - splitPoint sz) c
termination_by sz
decreasing_by
  · have h1 := splitPoint_le (s := sz) (by omega)
    have h2 := splitPoint_pos sz
    omega
  · have h1 := splitPoint_le (s := sz) (by omega)
    have h2 := splitPoint_pos sz
    omega

/-- Number of non-leaf subtrees of the reference decomposition that contain
chunk `c`: the depth of chunk `c` in the tree. -/
def depthCount (fst sz c : Nat) : Nat :=
  if h : sz ≤ 1 then 0
  else
    (if fst ≤ c ∧ c < fst + sz then 1 else 0) +
      depthCount fst (splitPoint sz) c +
      depthCount (fst + splitPoint sz) (sz - splitPoint sz) c
termination_by sz
decreasing_by
  · have h1 := splitPoint_le (s := sz) (by omega)
    have h2 := splitPoint_pos sz
    omega
  · have h1 := splitPoint_le (s := sz) (by omega)
    have h2 := splitPoint_pos sz
    omega

theorem preCount_out {fst sz c : Nat} (h : c < fst ∨ fst + sz ≤ c) :
    preCount fst sz c = 0 := by
  induction sz using Nat.strong_induction_on generalizing fst with
  | _ sz ih =>
    rw [preCount]
    split
    · rfl
    · rename_i hsz
      have h1 := splitPoint_le (s := sz) (by omega)
      have h2 := splitPoint_pos sz
      rw [ih (splitPoint sz) (by omega) (by omega),
        ih (sz - splitPoint sz) (by omega) (by omega)]
      have : ¬ c = fst := by omega
      simp [this]

theorem postCount_out {fst sz c : Nat} (h : c < fst ∨ fst + sz ≤ c) :
    postCount fst sz c = 0 := by
  induction sz using Nat.strong_induction_on generalizing fst with
  | _ sz ih =>
    rw [postCount]
    split
    · rfl
    · rename_i hsz
      have h1 := splitPoint_le (s := sz) (by omega)
      have h2 := splitPoint_pos sz
      rw [ih (splitPoint sz) (by omega) (by omega),
        ih (sz - splitPoint sz) (by omega) (by omega)]
      have : ¬ c = fst + sz - 1 := by omega
      simp [this]

theorem depthCount_out {fst sz c : Nat} (h : c < fst ∨ fst + sz ≤ c) :
    depthCount fst sz c = 0 := by
  induction sz using Nat.strong_induction_on generalizing fst with
  | _ sz ih =>
    rw [depthCount]
    split
    · rfl
    · rename_i hsz
      have h1 := splitPoint_le (s := sz) (by omega)
      have h2 := splitPoint_pos sz
      rw [ih (splitPoint sz) (by omega) (by omega),
        ih (sz - splitPoint sz) (by omega) (by omega)]
      have : ¬ (fst ≤ c ∧ c < fst + sz) := by omega
      simp [this]

theorem preCount_shift (sz f d : Nat) :
    preCount f sz (f + d) = preCount 0 sz d := by
  induction sz using Nat.strong_induction_on generalizing f d with
  | _ sz ih =>
    by_cases hsz : sz ≤ 1
    · rw [preCount, dif_pos hsz, preCount, dif_pos hsz]
    · rw [preCount, dif_neg hsz]
      conv_rhs => rw [preCount, dif_neg hsz]
      simp only [Nat.zero_add]
      have h1 := splitPoint_le (s := sz) (by omega)
      have h2 := splitPoint_pos sz
      have e1 : (if f + d = f then 1 else 0) = (if d = 0 then 1 else 0) := by
        have hiff : f + d = f ↔ d = 0 := by omega
        simp [hiff]
      have e2 : preCount f (splitPoint sz) (f + d) =
          preCount 0 (splitPoint sz) d := ih _ (by omega) f d
      have e3 : preCount (f + splitPoint sz) (sz - splitPoint sz) (f + d) =
          preCount (splitPoint sz) (sz - splitPoint sz) d := by
        rcases Nat.lt_or_ge d (splitPoint sz) with hlt | hge
        · rw [preCount_out (Or.inl (by omega)), preCount_out (Or.inl (by omega))]
        · have ha : f + d = (f + splitPoint sz) + (d - splitPoint sz) := by omega
          have hb : d = splitPoint sz + (d - splitPoint sz) := by omega
          rw [ha, ih _ (by omega) (f + splitPoint sz) (d - splitPoint sz)]
          conv_rhs => rw [hb]
          rw [ih _ (by omega) (splitPoint sz) (d - splitPoint sz)]
      rw [e1, e2, e3]

theorem postCount_shift (sz f d : Nat) :
    postCount f sz (f + d) = postCount 0 sz d := by
  induction sz using Nat.strong_induction_on generalizing f d with
  | _ sz ih =>
    by_cases hsz : sz ≤ 1
    · rw [postCount, dif_pos hsz, postCount, dif_pos hsz]
    · rw [postCount, dif_neg hsz]
      conv_rhs => rw [postCount, dif_neg hsz]
      simp only [Nat.zero_add]
      have h1 := splitPoint_le (s := sz) (by omega)
      have h2 := splitPoint_pos sz
      have e1 : (if f + d = f + sz - 1 then 1 else 0) =
          (if d = sz - 1 then 1 else 0) := by
        have hiff : f + d = f + sz - 1 ↔ d = sz - 1 := by omega
        simp [hiff]
      have e2 : postCount f (splitPoint sz) (f + d) =
          postCount 0 (splitPoint sz) d := ih _ (by omega) f d
      have e3 : postCount (f + splitPoint sz) (sz - splitPoint sz) (f + d) =
          postCount (splitPoint sz) (sz - splitPoint sz) d := by
        rcases Nat.lt_or_ge d (splitPoint sz) with hlt | hge
        · rw [postCount_out (Or.inl (by omega)), postCount_out (Or.inl (by omega))]
        · have ha : f + d = (f + splitPoint sz) + (d - splitPoint sz) := by omega
          have hb : d = splitPoint sz + (d - splitPoint sz) := by omega
          rw [ha, ih _ (by omega) (f + splitPoint sz) (d - splitPoint sz)]
          conv_rhs => rw [hb]
          rw [ih _ (by omega) (splitPoint sz) (d - splitPoint sz)]
      rw [e1, e2, e3]

theorem depthCount_shift (sz f d : Nat) :
    depthCount f sz (f + d) = depthCount 0 sz d := by
  induction sz using Nat.strong_induction_on generalizing f d with
  | _ sz ih =>
    by_cases hsz : sz ≤ 1
    · rw [depthCount, dif_pos hsz, depthCount, dif_pos hsz]
    · rw [depthCount, dif_neg hsz]
      conv_rhs => rw [depthCount, dif_neg hsz]
      simp only [Nat.zero_add, Nat.zero_le, true_and]
      have h1 := splitPoint_le (s := sz) (by omega)
      have h2 := splitPoint_pos sz
      have e1 : (if f ≤ f + d ∧ f + d < f + sz then 1 else 0) =
          (if d < sz then 1 else 0) := by
        have hiff : (f ≤ f + d ∧ f + d < f + sz) ↔ d < sz := by omega
        simp [hiff]
      have e2 : depthCount f (splitPoint sz) (f + d) =
          depthCount 0 (splitPoint sz) d := ih _ (by omega) f d
      have e3 : depthCount (f + splitPoint sz) (sz - splitPoint sz) (f + d) =
          depthCount (splitPoint sz) (sz - splitPoint sz) d := by
        rcases Nat.lt_or_ge d (splitPoint sz) with hlt | hge
        · rw [depthCount_out (Or.inl (by omega)), depthCount_out (Or.inl (by omega))]
        · have ha : f + d = (f + splitPoint sz) + (d - splitPoint sz) := by omega
          have hb : d = splitPoint sz + (d - splitPoint sz) := by omega
          rw [ha, ih _ (by omega) (f + splitPoint sz) (d - splitPoint sz)]
          conv_rhs => rw [hb]
          rw [ih _ (by omega) (splitPoint sz) (d - splitPoint sz)]
      rw [e1, e2, e3]

/-- Closed formula for the pre-order walker count: the first chunk gets the
bit length of the final index, interior chunks the minimum of the
remaining-bound and their trailing-zero count. -/
theorem preCount_formula :
    ∀ sz, 1 ≤ sz → ∀ c, c < sz →
      preCount 0 sz c =
        if c = 0 then Nat.size (sz - 1)
        else min (Nat.size (sz - c - 1)) (tzPos c) := by
  intro sz
  induction sz using Nat.strong_induction_on with
  | _ sz ih =>
    intro hsz c hc
    by_cases h1 : sz ≤ 1
    · have hsz1 : sz = 1 := by omega
      have hc0 : c = 0 := by omega
      subst hsz1
      subst hc0
      rw [preCount, dif_pos (by norm_num)]
      simp
    · have hsple := splitPoint_le (s := sz) (by omega)
      have hsppos := splitPoint_pos sz
      have hsplt := splitPoint_lt_two_mul (s := sz) (by omega)
      have hspB : splitPoint sz = 2 ^ Nat.log2 (sz - 1) := rfl
      have hpow2 : (2:Nat) ^ (Nat.log2 (sz - 1) + 1) = 2 ^ Nat.log2 (sz - 1) * 2 :=
        pow_succ 2 _
      rw [preCount, dif_neg h1]
      simp only [Nat.zero_add]
      rcases Nat.lt_trichotomy c (splitPoint sz) with hcsp | hcsp | hcsp
      · by_cases hc0 : c = 0
        · subst hc0
          have hout3 : preCount (splitPoint sz) (sz - splitPoint sz) 0 = 0 :=
            preCount_out (Or.inl hsppos)
          have hih : preCount 0 (splitPoint sz) 0 = Nat.size (splitPoint sz - 1) := by
            rw [ih (splitPoint sz) (by omega) (by omega) 0 (by omega), if_pos rfl]
          rw [hout3, hih, if_pos rfl, if_pos rfl]
          rw [hspB, size_pow_sub_one]
          have hsize : Nat.size (sz - 1) = Nat.log2 (sz - 1) + 1 :=
            size_eq_of_range (by omega) (by omega)
          omega
        · have hout3 : preCount (splitPoint sz) (sz - splitPoint sz) c = 0 :=
            preCount_out (Or.inl hcsp)
          have hih : preCount 0 (splitPoint sz) c =
              min (Nat.size (splitPoint sz - c - 1)) (tzPos c) := by
            rw [ih (splitPoint sz) (by omega) (by omega) c (by omega), if_neg hc0]
          have ht : tzPos c ≤ Nat.size (splitPoint sz - c - 1) := by
            have hdvd : 2 ^ tzPos c ∣ c := tzPos_pow_dvd hc0
            have hle : 2 ^ tzPos c ≤ c := tzPos_pow_le hc0
            have htB : tzPos c ≤ Nat.log2 (sz - 1) := by
              by_contra hcon
              push_neg at hcon
              have : (2:Nat) ^ Nat.log2 (sz - 1) ≤ 2 ^ tzPos c :=
                Nat.pow_le_pow_right (by norm_num) (by omega)
              omega
            have hdvd2 : 2 ^ tzPos c ∣ splitPoint sz := by
              rw [hspB]
              exact pow_dvd_pow 2 htB
            have hdvd3 : 2 ^ tzPos c ∣ splitPoint sz - c := Nat.dvd_sub' hdvd2 hdvd
            have hle3 : 2 ^ tzPos c ≤ splitPoint sz - c :=
              Nat.le_of_dvd (by omega) hdvd3
            have hmn := Nat.size_le_size
              (show 2 ^ tzPos c - 1 ≤ splitPoint sz - c - 1 by omega)
            rw [size_pow_sub_one] at hmn
            exact hmn
          have hmono : Nat.size (splitPoint sz - c - 1) ≤ Nat.size (sz - c - 1) :=
            Nat.size_le_size (by omega)
          rw [hout3, hih, if_neg hc0, if_neg hc0]
          omega
      · subst hcsp
        have hout2 : preCount 0 (splitPoint sz) (splitPoint sz) = 0 :=
          preCount_out (Or.inr (by omega))
        have hshift := preCount_shift (sz - splitPoint sz) (splitPoint sz) 0
        simp only [Nat.add_zero] at hshift
        have hih : preCount 0 (sz - splitPoint sz) 0 =
            Nat.size (sz - splitPoint sz - 1) := by
          rw [ih (sz - splitPoint sz) (by omega) (by omega) 0 (by omega), if_pos rfl]
        have htz : tzPos (splitPoint sz) = Nat.log2 (sz - 1) := by
          rw [hspB]
          exact tzPos_pow _
        have hsize : Nat.size (sz - splitPoint sz - 1) ≤ Nat.log2 (sz - 1) := by
          rw [Nat.size_le]
          omega
        rw [hout2, hshift, hih, if_neg (show ¬ splitPoint sz = 0 by omega),
          if_neg (show ¬ splitPoint sz = 0 by omega), htz]
        omega
      · have hout2 : preCount 0 (splitPoint sz) c = 0 :=
          preCount_out (Or.inr (by omega))
        have hshift := preCount_shift (sz - splitPoint sz) (splitPoint sz)
          (c - splitPoint sz)
        rw [show splitPoint sz + (c - splitPoint sz) = c by omega] at hshift
        have hih : preCount 0 (sz - splitPoint sz) (c - splitPoint sz) =
            min (Nat.size (sz - c - 1)) (tzPos (c - splitPoint sz)) := by
          rw [ih (sz - splitPoint sz) (by omega) (by omega) (c - splitPoint sz)
            (by omega), if_neg (show ¬ c - splitPoint sz = 0 by omega),
            show sz - splitPoint sz - (c - splitPoint sz) - 1 = sz - c - 1 by omega]
        have htz := tzPos_pow_add (show c - splitPoint sz ≠ 0 by omega)
          (show c - splitPoint sz < 2 ^ Nat.log2 (sz - 1) by omega)
        rw [show (2:Nat) ^ Nat.log2 (sz - 1) + (c - splitPoint sz) = c by omega] at htz
        rw [hout2, hshift, hih, if_neg (show ¬ c = 0 by omega),
          if_neg (show ¬ c = 0 by omega), htz]
        omega

/-- Closed formula for the post-order walker count: trailing ones for a
non-final chunk, popcount for the final chunk. -/
theorem postCount_formula :
    ∀ sz, 1 ≤ sz → ∀ c, c < sz →
      postCount 0 sz c =
        if c = sz - 1 then popCount c else trailingOnes c := by
  intro sz
  induction sz using Nat.strong_induction_on with
  | _ sz ih =>
    intro hsz c hc
    by_cases h1 : sz ≤ 1
    · have hsz1 : sz = 1 := by omega
      have hc0 : c = 0 := by omega
      subst hsz1
      subst hc0
      rw [postCount, dif_pos (by norm_num)]
      rw [if_pos rfl, popCount_zero]
    · have hsple := splitPoint_le (s := sz) (by omega)
      have hsppos := splitPoint_pos sz
      have hsplt := splitPoint_lt_two_mul (s := sz) (by omega)
      have hspB : splitPoint sz = 2 ^ Nat.log2 (sz - 1) := rfl
      have hpow2 : (2:Nat) ^ (Nat.log2 (sz - 1) + 1) = 2 ^ Nat.log2 (sz - 1) * 2 :=
        pow_succ 2 _
      rw [postCount, dif_neg h1]
      simp only [Nat.zero_add]
      rcases Nat.lt_trichotomy c (splitPoint sz) with hcsp | hcsp | hcsp
      · have hout3 : postCount (splitPoint sz) (sz - splitPoint sz) c = 0 :=
          postCount_out (Or.inl hcsp)
        by_cases hlast : c = splitPoint sz - 1
        · have hih : postCount 0 (splitPoint sz) c = popCount c := by
            rw [ih (splitPoint sz) (by omega) (by omega) c (by omega),
              if_pos (by omega)]
          rw [hout3, hih, if_neg (show ¬ c = sz - 1 by omega),
            if_neg (show ¬ c = sz - 1 by omega)]
          subst hlast
          rw [hspB, popCount_pow_sub_one, trailingOnes_pow_sub_one]
          omega
        · have hih : postCount 0 (splitPoint sz) c = trailingOnes c := by
            rw [ih (splitPoint sz) (by omega) (by omega) c (by omega),
              if_neg (by omega)]
          rw [hout3, hih, if_neg (show ¬ c = sz - 1 by omega),
            if_neg (show ¬ c = sz - 1 by omega)]
          omega
      · subst hcsp
        have hout2 : postCount 0 (splitPoint sz) (splitPoint sz) = 0 :=
          postCount_out (Or.inr (by omega))
        have hshift := postCount_shift (sz - splitPoint sz) (splitPoint sz) 0
        simp only [Nat.add_zero] at hshift
        by_cases hone : sz - splitPoint sz = 1
        · have hih : postCount 0 (sz - splitPoint sz) 0 = 0 := by
            rw [ih (sz - splitPoint sz) (by omega) (by omega) 0 (by omega),
              if_pos (by omega), popCount_zero]
          rw [hout2, hshift, hih, if_pos (by omega), if_pos (by omega)]
          have hval : splitPoint sz = 2 ^ Nat.log2 (sz - 1) + 0 := by omega
          rw [hval, popCount_pow_add (by positivity), popCount_zero]
        · have hih : postCount 0 (sz - splitPoint sz) 0 = trailingOnes 0 := by
            rw [ih (sz - splitPoint sz) (by omega) (by omega) 0 (by omega),
              if_neg (by omega)]
          rw [hout2, hshift, hih, if_neg (show ¬ splitPoint sz = sz - 1 by omega),
            if_neg (show ¬ splitPoint sz = sz - 1 by omega),
            trailingOnes_even (show (0:Nat) % 2 = 0 by norm_num)]
          have heven : splitPoint sz % 2 = 0 := by
            have hlog : Nat.log2 (sz - 1) ≠ 0 := by
              intro hz
              rw [hspB, hz] at hsplt
              simp at hsplt
              omega
            obtain ⟨j, hj⟩ : ∃ j, Nat.log2 (sz - 1) = j + 1 :=
              ⟨Nat.log2 (sz - 1) - 1, by omega⟩
            have : (2:Nat) ^ (j + 1) = 2 ^ j * 2 := pow_succ 2 j
            rw [hspB, hj]
            omega
          rw [trailingOnes_even heven]
      · have hout2 : postCount 0 (splitPoint sz) c = 0 :=
          postCount_out (Or.inr (by omega))
        have hshift := postCount_shift (sz - splitPoint sz) (splitPoint sz)
          (c - splitPoint sz)
        rw [show splitPoint sz + (c - splitPoint sz) = c by omega] at hshift
        by_cases hlast : c = sz - 1
        · have hih : postCount 0 (sz - splitPoint sz) (c - splitPoint sz) =
              popCount (c - splitPoint sz) := by
            rw [ih (sz - splitPoint sz) (by omega) (by omega) (c - splitPoint sz)
              (by omega), if_pos (by omega)]
          have hpc := popCount_pow_add
            (show c - splitPoint sz < 2 ^ Nat.log2 (sz - 1) by omega)
          rw [show (2:Nat) ^ Nat.log2 (sz - 1) + (c - splitPoint sz) = c by omega]
            at hpc
          rw [hout2, hshift, hih, if_pos hlast, if_pos hlast]
          omega
        · have hih : postCount 0 (sz - splitPoint sz) (c - splitPoint sz) =
              trailingOnes (c - splitPoint sz) := by
            rw [ih (sz - splitPoint sz) (by omega) (by omega) (c - splitPoint sz)
              (by omega), if_neg (by omega)]
          have hto := trailingOnes_pow_add
            (show c - splitPoint sz + 1 < 2 ^ Nat.log2 (sz - 1) by omega)
          rw [show (2:Nat) ^ Nat.log2 (sz - 1) + (c - splitPoint sz) = c by omega]
            at hto
          rw [hout2, hshift, hih, if_neg hlast, if_neg hlast, hto]
          omega

theorem countChunks_pos (cs L : Nat) : 1 ≤ countChunks cs L :=
  le_max_left _ _

/-- The chunk count never exceeds `max 1 L` (for a positive chunk size). -/
theorem countChunks_le (cs L : Nat) (hcs : 0 < cs) :
    countChunks cs L ≤ max 1 L := by
  unfold countChunks
  by_cases h : L % cs ≠ 0
  · have hcs2 : 2 ≤ cs := by
      rcases Nat.lt_or_ge cs 2 with h2 | h2
      · interval_cases cs
        · omega
      · exact h2
    have hdd : L / cs ≤ L / 2 := Nat.div_le_div_left hcs2 (by norm_num)
    have hL1 : 1 ≤ L := by
      rcases Nat.eq_zero_or_pos L with h0 | h0
      · subst h0
        simp at h
      · exact h0
    simp only [if_pos h]
    omega
  · have hdd : L / cs ≤ L := Nat.div_le_self L cs
    simp only [if_neg h]
    omega

theorem countChunks_lt_u64 (cs L : Nat) (hcs : 0 < cs) (hL : L < 2 ^ 64) :
    countChunks cs L < 2 ^ 64 := by
  have := countChunks_le cs L hcs
  have h64 : (1:Nat) < 2 ^ 64 := by norm_num
  omega

/-- C4: for every content length `L` with `N = count_chunks(L)` and every
chunk index `c < N`, `pre_order_parent_nodes(c, L)` equals the count of the
reference recursive walker, and it equals
`min(bit_length(remaining - 1), trailing_zeros(c))` with `remaining = N - c`,
where for `c = 0` the unbounded u64 `trailing_zeros(0) = 64` makes the result
`bit_length(remaining - 1)` itself. -/
theorem c4_pre_order_parent_nodes (cs L c : Nat) (hcs : 0 < cs)
    (hL : L < 2 ^ 64) (hc : c < countChunks cs L) :
    preOrderParentNodes cs c L = preCount 0 (countChunks cs L) c ∧
    (c = 0 → preOrderParentNodes cs c L = Nat.size (countChunks cs L - 1)) ∧
    (c ≠ 0 → preOrderParentNodes cs c L =
      min (Nat.size (countChunks cs L - c - 1)) (tzPos c)) := by
  have hN1 : 1 ≤ countChunks cs L := countChunks_pos cs L
  have hNlt : countChunks cs L < 2 ^ 64 := countChunks_lt_u64 cs L hcs hL
  have hsz : Nat.size (countChunks cs L - c - 1) ≤ 64 :=
    Nat.size_le.mpr (by omega)
  have hpre := preCount_formula (countChunks cs L) hN1 c hc
  have hval : preOrderParentNodes cs c L =
      if c = 0 then Nat.size (countChunks cs L - 1)
      else min (Nat.size (countChunks cs L - c - 1)) (tzPos c) := by
    unfold preOrderParentNodes u64lz u64tz
    by_cases hc0 : c = 0
    · subst hc0
      rw [if_pos rfl, if_pos rfl]
      simp only [Nat.sub_zero] at hsz ⊢
      omega
    · rw [if_neg hc0, if_neg hc0]
      omega
  refine ⟨by rw [hval, hpre], ?_, ?_⟩
  · intro hc0
    rw [hval, if_pos hc0]
  · intro hc0
    rw [hval, if_neg hc0]

/-- Witness for C4 at `CHUNK_SIZE = 4096`, `L = 7` full chunks, `c = 4`. -/
theorem c4_pre_order_parent_nodes_witness :
    0 < 4096 ∧ 28672 < 2 ^ 64 ∧ 4 < countChunks 4096 28672 ∧
      preOrderParentNodes 4096 4 28672 = preCount 0 (countChunks 4096 28672) 4 :=
  ⟨by decide, by decide, by decide,
    (c4_pre_order_parent_nodes 4096 28672 4 (by decide) (by decide)
      (by decide)).1⟩

/-- C5: `post_order_parent_nodes_nonfinal(c)` is the number of trailing one
bits of `c` and `post_order_parent_nodes_final(c)` is the popcount of `c`;
for `c < N` they agree with the reference recursive walker (nonfinal for
`c < N - 1`, final for `c = N - 1`). -/
theorem c5_post_order_parent_nodes (cs L c : Nat) (hcs : 0 < cs)
    (hL : L < 2 ^ 64) (hc : c < countChunks cs L) :
    postOrderParentNodesNonfinal c = trailingOnes c ∧
    postOrderParentNodesFinal c = popCount c ∧
    (c < countChunks cs L - 1 →
      postOrderParentNodesNonfinal c = postCount 0 (countChunks cs L) c) ∧
    (c = countChunks cs L - 1 →
      postOrderParentNodesFinal c = postCount 0 (countChunks cs L) c) := by
  have hN1 : 1 ≤ countChunks cs L := countChunks_pos cs L
  have hNlt : countChunks cs L < 2 ^ 64 := countChunks_lt_u64 cs L hcs hL
  have hcu : c < 2 ^ 64 := by omega
  have hpost := postCount_formula (countChunks cs L) hN1 c hc
  refine ⟨postOrderParentNodesNonfinal_eq hcu, rfl, ?_, ?_⟩
  · intro hlt
    rw [hpost, if_neg (by omega)]
    exact postOrderParentNodesNonfinal_eq hcu
  · intro heq
    rw [hpost, if_pos heq]
    rfl

/-- Witness for C5 at `CHUNK_SIZE = 4096`, `L = 7` full chunks, `c = 3`. -/
theorem c5_post_order_parent_nodes_witness :
    0 < 4096 ∧ 28672 < 2 ^ 64 ∧ 3 < countChunks 4096 28672 ∧
      postOrderParentNodesFinal 3 = popCount 3 :=
  ⟨by decide, by decide, by decide,
    (c5_post_order_parent_nodes 4096 28672 3 (by decide) (by decide)
      (by decide)).2.1⟩

/-! The flipper state machine (encode.rs:170-246). -/

/-- Embedding of `FlipperState` (encode.rs:170-177).  Parent payloads are
byte lists; the stack top is the list head (`ArrayVec` pushes and pops at
the same end). -/
structure FlipperState where
  parents : List (List Nat)
  contentLen : Nat
  chunkMoved : Nat
  parentsNeeded : Nat
  parentsAvailable : Nat
deriving DecidableEq

/-- Embedding of `FlipperNext` (encode.rs:240-246). -/
inductive FlipperNext where
  | FeedParent
  | TakeParent
  | Chunk (sz : Nat)
  | Done
deriving DecidableEq

/-- Embedding of `FlipperState::new` (encode.rs:180-189). -/
def FlipperState.new (cs L : Nat) : FlipperState where
  parents := []
  contentLen := L
  chunkMoved := countChunks cs L
  parentsNeeded := postOrderParentNodesFinal (countChunks cs L - 1)
  parentsAvailable := 0

/-- Embedding of `FlipperState::next` (encode.rs:191-203). -/
def FlipperState.next (cs : Nat) (fs : FlipperState) : FlipperNext :=
  if 0 < fs.parentsAvailable then .TakeParent
  else if 0 < fs.parentsNeeded then .FeedParent
  else if 0 < fs.chunkMoved then
    .Chunk (chunkSizeF cs (fs.chunkMoved - 1) fs.contentLen)
  else .Done

/-- Embedding of `FlipperState::chunk_moved` (encode.rs:205-216); the
source updates `parents_needed` only when the decremented `chunk_moved` is
positive. -/
def FlipperState.chunkMovedFn (cs : Nat) (fs : FlipperState) : FlipperState :=
  { fs with
    chunkMoved := fs.chunkMoved - 1
    parentsAvailable := preOrderParentNodes cs (fs.chunkMoved - 1) fs.contentLen
    parentsNeeded :=
      if 0 < fs.chunkMoved - 1 then
        postOrderParentNodesNonfinal (fs.chunkMoved - 1 - 1)
      else fs.parentsNeeded }

/-- Embedding of `FlipperState::feed_parent` (encode.rs:218-224). -/
def FlipperState.feedParent (fs : FlipperState) (p : List Nat) : FlipperState :=
  { fs with
    parentsNeeded := fs.parentsNeeded - 1
    parents := p :: fs.parents }

/-- Embedding of `FlipperState::take_parent` (encode.rs:226-231); popping
an empty stack is the `expect` panic of the source, modelled by a junk
empty payload (C10 proves the stack is never empty there). -/
def FlipperState.takeParent (fs : FlipperState) : List Nat × FlipperState :=
  (fs.parents.headD [],
    { fs with
      parentsAvailable := fs.parentsAvailable - 1
      parents := fs.parents.tail })

theorem next_take_inv {cs : Nat} {fs : FlipperState}
    (h : FlipperState.next cs fs = .TakeParent) : 0 < fs.parentsAvailable := by
  unfold FlipperState.next at h
  split_ifs at h with h1 h2 h3
  · exact h1
  all_goals simp at h

theorem next_feed_inv {cs : Nat} {fs : FlipperState}
    (h : FlipperState.next cs fs = .FeedParent) :
    fs.parentsAvailable = 0 ∧ 0 < fs.parentsNeeded := by
  unfold FlipperState.next at h
  split_ifs at h with h1 h2 h3
  all_goals first
    | exact ⟨by omega, by omega⟩
    | simp at h

theorem next_chunk_inv {cs : Nat} {fs : FlipperState} {sz : Nat}
    (h : FlipperState.next cs fs = .Chunk sz) :
    fs.parentsAvailable = 0 ∧ fs.parentsNeeded = 0 ∧ 0 < fs.chunkMoved ∧
      sz = chunkSizeF cs (fs.chunkMoved - 1) fs.contentLen := by
  unfold FlipperState.next at h
  split_ifs at h with h1 h2 h3
  refine ⟨by omega, by omega, h3, ?_⟩
  injection h with h4
  omega

theorem next_done_inv {cs : Nat} {fs : FlipperState}
    (h : FlipperState.next cs fs = .Done) :
    fs.parentsAvailable = 0 ∧ fs.parentsNeeded = 0 ∧ fs.chunkMoved = 0 := by
  unfold FlipperState.next at h
  split_ifs at h with h1 h2 h3
  all_goals first
    | exact ⟨by omega, by omega, by omega⟩
    | simp at h

theorem preCount_unfold (f n c : Nat) (h : ¬ n ≤ 1) :
    preCount f n c = (if c = f then 1 else 0) +
      preCount f (splitPoint n) c +
      preCount (f + splitPoint n) (n - splitPoint n) c := by
  rw [preCount, dif_neg h]

theorem postCount_unfold (f n c : Nat) (h : ¬ n ≤ 1) :
    postCount f n c = (if c = f + n - 1 then 1 else 0) +
      postCount f (splitPoint n) c +
      postCount (f + splitPoint n) (n - splitPoint n) c := by
  rw [postCount, dif_neg h]

theorem depthCount_unfold (f n c : Nat) (h : ¬ n ≤ 1) :
    depthCount f n c = (if f ≤ c ∧ c < f + n then 1 else 0) +
      depthCount f (splitPoint n) c +
      depthCount (f + splitPoint n) (n - splitPoint n) c := by
  rw [depthCount, dif_neg h]

/-- The leftmost chunk of a subtree lies in every non-leaf subtree that it
opens: its depth equals its pre-order parent count. -/
theorem depthCount_leftmost (f n : Nat) :
    depthCount f n f = preCount f n f := by
  induction n using Nat.strong_induction_on generalizing f with
  | _ n ih =>
    by_cases h1 : n ≤ 1
    · rw [depthCount, dif_pos h1, preCount, dif_pos h1]
    · have hsple := splitPoint_le (s := n) (by omega)
      have hsppos := splitPoint_pos n
      rw [depthCount_unfold f n f (by omega), preCount_unfold f n f (by omega)]
      rw [depthCount_out (Or.inl (show f < f + splitPoint n by omega)),
        preCount_out (Or.inl (show f < f + splitPoint n by omega)),
        ih (splitPoint n) (by omega) f,
        if_pos (show f ≤ f ∧ f < f + n by omega), if_pos rfl]

/-- The rightmost chunk of a subtree closes every subtree it lies in: its
depth equals its post-order parent count. -/
theorem depthCount_rightmost (f n : Nat) :
    depthCount f n (f + n - 1) = postCount f n (f + n - 1) := by
  induction n using Nat.strong_induction_on generalizing f with
  | _ n ih =>
    by_cases h1 : n ≤ 1
    · rw [depthCount, dif_pos h1, postCount, dif_pos h1]
    · have hsple := splitPoint_le (s := n) (by omega)
      have hsppos := splitPoint_pos n
      rw [depthCount_unfold f n (f + n - 1) (by omega),
        postCount_unfold f n (f + n - 1) (by omega)]
      rw [depthCount_out (Or.inr (show f + splitPoint n ≤ f + n - 1 by omega)),
        postCount_out (Or.inr (show f + splitPoint n ≤ f + n - 1 by omega))]
      have hih := ih (n - splitPoint n) (by omega) (f + splitPoint n)
      rw [show f + splitPoint n + (n - splitPoint n) - 1 = f + n - 1 by omega]
        at hih
      rw [hih, if_pos (show f ≤ f + n - 1 ∧ f + n - 1 < f + n by omega),
        if_pos rfl]

/-- A chunk opens at most as many subtrees as it lies in. -/
theorem preCount_le_depthCount (f n c : Nat) :
    preCount f n c ≤ depthCount f n c := by
  induction n using Nat.strong_induction_on generalizing f with
  | _ n ih =>
    by_cases h1 : n ≤ 1
    · rw [depthCount, dif_pos h1, preCount, dif_pos h1]
    · have hsple := splitPoint_le (s := n) (by omega)
      have hsppos := splitPoint_pos n
      rw [depthCount_unfold f n c (by omega), preCount_unfold f n c (by omega)]
      have hroot : (if c = f then 1 else 0) ≤
          (if f ≤ c ∧ c < f + n then 1 else 0) := by
        by_cases hcf : c = f
        · rw [if_pos hcf, if_pos (by omega)]
        · rw [if_neg hcf]
          omega
      have hl := ih (splitPoint n) (by omega) f
      have hr := ih (n - splitPoint n) (by omega) (f + splitPoint n)
      omega

/-- Moving from chunk `c` to chunk `c - 1`: the depth changes by the
subtrees opened at `c` and closed at `c - 1`. -/
theorem depth_step (n : Nat) :
    ∀ f c, f + 1 ≤ c → c ≤ f + n - 1 →
      depthCount f n (c - 1) + preCount f n c
        = depthCount f n c + postCount f n (c - 1) := by
  induction n using Nat.strong_induction_on with
  | _ n ih =>
    intro f c h1 h2
    have hn2 : 2 ≤ n := by omega
    have hsple := splitPoint_le (s := n) (by omega)
    have hsppos := splitPoint_pos n
    rw [depthCount_unfold f n (c - 1) (by omega),
      depthCount_unfold f n c (by omega),
      preCount_unfold f n c (by omega),
      postCount_unfold f n (c - 1) (by omega)]
    rw [if_pos (show f ≤ c - 1 ∧ c - 1 < f + n by omega),
      if_pos (show f ≤ c ∧ c < f + n by omega),
      if_neg (show ¬ c = f by omega),
      if_neg (show ¬ c - 1 = f + n - 1 by omega)]
    rcases Nat.lt_trichotomy c (f + splitPoint n) with hc | hc | hc
    · have hz1 : depthCount (f + splitPoint n) (n - splitPoint n) (c - 1) = 0 :=
        depthCount_out (Or.inl (by omega))
      have hz2 : depthCount (f + splitPoint n) (n - splitPoint n) c = 0 :=
        depthCount_out (Or.inl (by omega))
      have hz3 : preCount (f + splitPoint n) (n - splitPoint n) c = 0 :=
        preCount_out (Or.inl (by omega))
      have hz4 : postCount (f + splitPoint n) (n - splitPoint n) (c - 1) = 0 :=
        postCount_out (Or.inl (by omega))
      have hih := ih (splitPoint n) (by omega) f c (by omega) (by omega)
      omega
    · rw [hc]
      have hz1 : depthCount f (splitPoint n) (f + splitPoint n) = 0 :=
        depthCount_out (Or.inr (by omega))
      have hz2 : preCount f (splitPoint n) (f + splitPoint n) = 0 :=
        preCount_out (Or.inr (by omega))
      have hz3 : depthCount (f + splitPoint n) (n - splitPoint n)
          (f + splitPoint n - 1) = 0 :=
        depthCount_out (Or.inl (by omega))
      have hz4 : postCount (f + splitPoint n) (n - splitPoint n)
          (f + splitPoint n - 1) = 0 :=
        postCount_out (Or.inl (by omega))
      have hlm := depthCount_leftmost (f + splitPoint n) (n - splitPoint n)
      have hrm := depthCount_rightmost f (splitPoint n)
      omega
    · have hz1 : depthCount f (splitPoint n) (c - 1) = 0 :=
        depthCount_out (Or.inr (by omega))
      have hz2 : depthCount f (splitPoint n) c = 0 :=
        depthCount_out (Or.inr (by omega))
      have hz3 : preCount f (splitPoint n) c = 0 :=
        preCount_out (Or.inr (by omega))
      have hz4 : postCount f (splitPoint n) (c - 1) = 0 :=
        postCount_out (Or.inr (by omega))
      have hih := ih (n - splitPoint n) (by omega) (f + splitPoint n) c
        (by omega) (by omega)
      omega

/-- The depth of any chunk is bounded by the height `bit_length (n - 1)` of
the tree. -/
theorem depthCount_le_size (n : Nat) :
    ∀ f c, depthCount f n c ≤ Nat.size (n - 1) := by
  induction n using Nat.strong_induction_on with
  | _ n ih =>
    intro f c
    by_cases h1 : n ≤ 1
    · rw [depthCount, dif_pos h1]
      omega
    · have hsple := splitPoint_le (s := n) (by omega)
      have hsppos := splitPoint_pos n
      have hsplt := splitPoint_lt_two_mul (s := n) (by omega)
      have hspB : splitPoint n = 2 ^ Nat.log2 (n - 1) := rfl
      have hpow2 : (2:Nat) ^ (Nat.log2 (n - 1) + 1) = 2 ^ Nat.log2 (n - 1) * 2 :=
        pow_succ 2 _
      have hsize : Nat.size (n - 1) = Nat.log2 (n - 1) + 1 :=
        size_eq_of_range (by omega) (by omega)
      rw [depthCount_unfold f n c (by omega)]
      by_cases hcl : c < f + splitPoint n
      · have hz : depthCount (f + splitPoint n) (n - splitPoint n) c = 0 :=
          depthCount_out (Or.inl hcl)
        have hl := ih (splitPoint n) (by omega) f c
        rw [show splitPoint n - 1 = 2 ^ Nat.log2 (n - 1) - 1 by omega,
          size_pow_sub_one] at hl
        have hroot : (if f ≤ c ∧ c < f + n then 1 else 0) ≤ 1 := by
          split <;> omega
        omega
      · have hz : depthCount f (splitPoint n) c = 0 :=
          depthCount_out (Or.inr (by omega))
        have hr := ih (n - splitPoint n) (by omega) (f + splitPoint n) c
        have hrb : Nat.size (n - splitPoint n - 1) ≤ Nat.log2 (n - 1) := by
          rw [Nat.size_le]
          omega
        have hroot : (if f ≤ c ∧ c < f + n then 1 else 0) ≤ 1 := by
          split <;> omega
        omega

/-- Number of parent nodes that the flipper feeds between the chunk at
index `m` and the chunk to its left (0 at the leftmost chunk). -/
def needBelow (m : Nat) : Nat :=
  if m = 0 then 0 else postOrderParentNodesNonfinal (m - 1)

theorem needBelow_eq {m : Nat} (hm : 0 < m) (hmu : m - 1 < 2 ^ 64) :
    needBelow m = trailingOnes (m - 1) := by
  unfold needBelow
  rw [if_neg (by omega)]
  exact postOrderParentNodesNonfinal_eq hmu

/-- Reachability invariant of the flipper state machine for chunk size `cs`
and content length `L`: between the initial feeds and between chunk moves,
the buffered parent stack holds exactly the parents that were fed and not
yet taken, and its size is tied to the depth of the current chunk in the
reference tree. -/
def Inv (cs L : Nat) (fs : FlipperState) : Prop :=
  fs.contentLen = L ∧
  fs.chunkMoved ≤ countChunks cs L ∧
  (if fs.chunkMoved = countChunks cs L then
    fs.parentsAvailable = 0 ∧
    fs.parentsNeeded ≤ popCount (countChunks cs L - 1) ∧
    fs.parents.length + fs.parentsNeeded = popCount (countChunks cs L - 1)
  else
    fs.parentsAvailable ≤ preOrderParentNodes cs fs.chunkMoved L ∧
    fs.parentsNeeded ≤ needBelow fs.chunkMoved ∧
    (0 < fs.parentsAvailable → fs.parentsNeeded = needBelow fs.chunkMoved) ∧
    fs.parents.length + preOrderParentNodes cs fs.chunkMoved L +
        fs.parentsNeeded
      = depthCount 0 (countChunks cs L) fs.chunkMoved + fs.parentsAvailable
        + needBelow fs.chunkMoved)

theorem inv_new (cs L : Nat) : Inv cs L (FlipperState.new cs L) := by
  unfold Inv FlipperState.new postOrderParentNodesFinal
  simp

/-- Depth of the final chunk equals the popcount of its index. -/
theorem depth_last (cs L : Nat) (hcs : 0 < cs) (hL : L < 2 ^ 64) :
    depthCount 0 (countChunks cs L) (countChunks cs L - 1)
      = popCount (countChunks cs L - 1) := by
  have hN1 : 1 ≤ countChunks cs L := countChunks_pos cs L
  have hrm := depthCount_rightmost 0 (countChunks cs L)
  rw [Nat.zero_add] at hrm
  rw [hrm, postCount_formula (countChunks cs L) hN1 (countChunks cs L - 1)
    (by omega), if_pos rfl]

/-- Stack-size identity for a state below the initial chunk count:
the stack size equals the depth of the chunk just moved once its takes and
the next feeds are accounted for. -/
theorem inv_take {cs L : Nat} {fs : FlipperState} (hcs : 0 < cs)
    (hL : L < 2 ^ 64) (hinv : Inv cs L fs)
    (h : FlipperState.next cs fs = .TakeParent) :
    fs.parents ≠ [] ∧ Inv cs L fs.takeParent.2 := by
  obtain ⟨hcl, hmN, hrest⟩ := hinv
  have ha := next_take_inv h
  have hN1 : 1 ≤ countChunks cs L := countChunks_pos cs L
  have hNlt : countChunks cs L < 2 ^ 64 := countChunks_lt_u64 cs L hcs hL
  by_cases hmEq : fs.chunkMoved = countChunks cs L
  · rw [if_pos hmEq] at hrest
    omega
  · rw [if_neg hmEq] at hrest
    obtain ⟨h1, h2, h3, h4⟩ := hrest
    have hm : fs.chunkMoved < countChunks cs L := by omega
    have hpe : preOrderParentNodes cs fs.chunkMoved L
        = preCount 0 (countChunks cs L) fs.chunkMoved :=
      (c4_pre_order_parent_nodes cs L fs.chunkMoved hcs hL hm).1
    have hpd := preCount_le_depthCount 0 (countChunks cs L) fs.chunkMoved
    have hp3 := h3 ha
    have hlen : 0 < fs.parents.length := by omega
    constructor
    · intro hnil
      rw [hnil] at hlen
      simp at hlen
    · unfold Inv FlipperState.takeParent
      simp only [List.length_tail]
      refine ⟨hcl, hmN, ?_⟩
      rw [if_neg hmEq]
      exact ⟨by omega, h2, fun hcon => h3 (by omega), by omega⟩

theorem inv_feed {cs L : Nat} {fs : FlipperState} (p : List Nat) (hcs : 0 < cs)
    (hL : L < 2 ^ 64) (hinv : Inv cs L fs)
    (h : FlipperState.next cs fs = .FeedParent) :
    fs.parents.length + 1 ≤ MAX_DEPTH ∧ Inv cs L (fs.feedParent p) := by
  obtain ⟨hcl, hmN, hrest⟩ := hinv
  obtain ⟨ha0, hpneed⟩ := next_feed_inv h
  have hN1 : 1 ≤ countChunks cs L := countChunks_pos cs L
  have hNlt : countChunks cs L < 2 ^ 64 := countChunks_lt_u64 cs L hcs hL
  have hszb : Nat.size (countChunks cs L - 1) ≤ 64 := Nat.size_le.mpr (by omega)
  by_cases hmEq : fs.chunkMoved = countChunks cs L
  · rw [if_pos hmEq] at hrest
    obtain ⟨h1, h2, h3⟩ := hrest
    have hpcs : popCount (countChunks cs L - 1) ≤ Nat.size (countChunks cs L - 1) :=
      popCount_le_size _
    constructor
    · unfold MAX_DEPTH
      omega
    · unfold Inv FlipperState.feedParent
      simp only [List.length_cons]
      refine ⟨hcl, hmN, ?_⟩
      rw [if_pos hmEq]
      exact ⟨ha0, by omega, by omega⟩
  · rw [if_neg hmEq] at hrest
    obtain ⟨h1, h2, h3, h4⟩ := hrest
    have hm : fs.chunkMoved < countChunks cs L := by omega
    have hm1 : 1 ≤ fs.chunkMoved := by
      by_contra hcon
      push_neg at hcon
      have : fs.chunkMoved = 0 := by omega
      rw [this] at h2
      unfold needBelow at h2
      rw [if_pos rfl] at h2
      omega
    have hpe : preOrderParentNodes cs fs.chunkMoved L
        = preCount 0 (countChunks cs L) fs.chunkMoved :=
      (c4_pre_order_parent_nodes cs L fs.chunkMoved hcs hL hm).1
    have hpd := preCount_le_depthCount 0 (countChunks cs L) fs.chunkMoved
    have hrec := depth_step (countChunks cs L) 0 fs.chunkMoved (by omega)
      (by omega)
    have hpostm1 : postCount 0 (countChunks cs L) (fs.chunkMoved - 1)
        = trailingOnes (fs.chunkMoved - 1) := by
      rw [postCount_formula (countChunks cs L) hN1 (fs.chunkMoved - 1) (by omega),
        if_neg (by omega)]
    have hnb : needBelow fs.chunkMoved = trailingOnes (fs.chunkMoved - 1) :=
      needBelow_eq (by omega) (by omega)
    have hdb := depthCount_le_size (countChunks cs L) 0 (fs.chunkMoved - 1)
    constructor
    · unfold MAX_DEPTH
      omega
    · unfold Inv FlipperState.feedParent
      simp only [List.length_cons]
      refine ⟨hcl, hmN, ?_⟩
      rw [if_neg hmEq]
      exact ⟨by omega, by omega, fun hcon => by omega, by omega⟩

theorem inv_chunk {cs L : Nat} {fs : FlipperState} {sz : Nat} (hcs : 0 < cs)
    (hL : L < 2 ^ 64) (hinv : Inv cs L fs)
    (h : FlipperState.next cs fs = .Chunk sz) :
    Inv cs L (FlipperState.chunkMovedFn cs fs) := by
  obtain ⟨hcl, hmN, hrest⟩ := hinv
  obtain ⟨ha0, hp0, hm1, hszv⟩ := next_chunk_inv h
  have hN1 : 1 ≤ countChunks cs L := countChunks_pos cs L
  have hNlt : countChunks cs L < 2 ^ 64 := countChunks_lt_u64 cs L hcs hL
  have hp' : (FlipperState.chunkMovedFn cs fs).parentsNeeded
      = needBelow (fs.chunkMoved - 1) := by
    unfold FlipperState.chunkMovedFn needBelow
    by_cases h0 : 0 < fs.chunkMoved - 1
    · simp only []
      rw [if_pos h0, if_neg (by omega)]
    · simp only []
      rw [if_neg h0, if_pos (by omega)]
      omega
  have hlen : fs.parents.length
      = depthCount 0 (countChunks cs L) (fs.chunkMoved - 1) := by
    by_cases hmEq : fs.chunkMoved = countChunks cs L
    · rw [if_pos hmEq] at hrest
      obtain ⟨h1, h2, h3⟩ := hrest
      rw [hmEq, depth_last cs L hcs hL]
      omega
    · rw [if_neg hmEq] at hrest
      obtain ⟨h1, h2, h3, h4⟩ := hrest
      have hm : fs.chunkMoved < countChunks cs L := by omega
      have hpe : preOrderParentNodes cs fs.chunkMoved L
          = preCount 0 (countChunks cs L) fs.chunkMoved :=
        (c4_pre_order_parent_nodes cs L fs.chunkMoved hcs hL hm).1
      have hrec := depth_step (countChunks cs L) 0 fs.chunkMoved (by omega)
        (by omega)
      have hpostm1 : postCount 0 (countChunks cs L) (fs.chunkMoved - 1)
          = trailingOnes (fs.chunkMoved - 1) := by
        rw [postCount_formula (countChunks cs L) hN1 (fs.chunkMoved - 1)
          (by omega), if_neg (by omega)]
      have hnb : needBelow fs.chunkMoved = trailingOnes (fs.chunkMoved - 1) :=
        needBelow_eq (by omega) (by omega)
      omega
  unfold Inv
  refine ⟨hcl, ?_, ?_⟩
  · unfold FlipperState.chunkMovedFn
    simp only []
    omega
  · have hmc : (FlipperState.chunkMovedFn cs fs).chunkMoved
        = fs.chunkMoved - 1 := rfl
    have hac : (FlipperState.chunkMovedFn cs fs).parentsAvailable
        = preOrderParentNodes cs (fs.chunkMoved - 1) fs.contentLen := rfl
    have hpc : (FlipperState.chunkMovedFn cs fs).parents = fs.parents := rfl
    rw [hmc, hac, hpc, hp', hcl, if_neg (by omega)]
    exact ⟨le_refl _, le_refl _, fun hcon => rfl, by omega⟩

theorem inv_done {cs L : Nat} {fs : FlipperState} (hcs : 0 < cs)
    (hL : L < 2 ^ 64) (hinv : Inv cs L fs)
    (h : FlipperState.next cs fs = .Done) :
    fs.parents = [] ∧ fs.chunkMoved = 0 ∧ fs.parentsNeeded = 0 ∧
      fs.parentsAvailable = 0 := by
  obtain ⟨hcl, hmN, hrest⟩ := hinv
  obtain ⟨ha0, hp0, hm0⟩ := next_done_inv h
  have hN1 : 1 ≤ countChunks cs L := countChunks_pos cs L
  have hNlt : countChunks cs L < 2 ^ 64 := countChunks_lt_u64 cs L hcs hL
  rw [if_neg (by omega)] at hrest
  obtain ⟨h1, h2, h3, h4⟩ := hrest
  have hpe : preOrderParentNodes cs fs.chunkMoved L
      = preCount 0 (countChunks cs L) fs.chunkMoved :=
    (c4_pre_order_parent_nodes cs L fs.chunkMoved hcs hL (by omega)).1
  have hlm := depthCount_leftmost 0 (countChunks cs L)
  rw [hm0] at h4 hpe
  unfold needBelow at h4
  rw [if_pos rfl] at h4
  have hlen : fs.parents.length = 0 := by omega
  exact ⟨List.length_eq_zero.mp hlen, hm0, hp0, ha0⟩

/-- Events of one flipper run. -/
inductive FlipEvent where
  | feed
  | take
  | chunk (sz : Nat)
deriving DecidableEq

/-- The full event sequence of the flipper from a given state.  The control
flow never depends on the fed payload, so an empty payload is used. -/
def flipTrace (cs : Nat) (fs : FlipperState) : List FlipEvent :=
  match h : FlipperState.next cs fs with
  | .TakeParent => .take :: flipTrace cs fs.takeParent.2
  | .FeedParent => .feed :: flipTrace cs (fs.feedParent [])
  | .Chunk sz => .chunk sz :: flipTrace cs (FlipperState.chunkMovedFn cs fs)
  | .Done => []
termination_by (fs.chunkMoved, fs.parentsNeeded + fs.parentsAvailable)
decreasing_by
  · have ht := next_take_inv h
    simp only [FlipperState.takeParent]
    apply Prod.Lex.right
    omega
  · have hf := next_feed_inv h
    simp only [FlipperState.feedParent]
    apply Prod.Lex.right
    omega
  · have hc := next_chunk_inv h
    simp only [FlipperState.chunkMovedFn]
    apply Prod.Lex.left
    omega

theorem flipTrace_take {cs : Nat} {fs : FlipperState}
    (h : FlipperState.next cs fs = .TakeParent) :
    flipTrace cs fs = .take :: flipTrace cs fs.takeParent.2 := by
  rw [flipTrace]
  split <;> simp_all

theorem flipTrace_feed {cs : Nat} {fs : FlipperState}
    (h : FlipperState.next cs fs = .FeedParent) :
    flipTrace cs fs = .feed :: flipTrace cs (fs.feedParent []) := by
  rw [flipTrace]
  split <;> simp_all

theorem flipTrace_chunk {cs : Nat} {fs : FlipperState} {sz : Nat}
    (h : FlipperState.next cs fs = .Chunk sz) :
    flipTrace cs fs = .chunk sz :: flipTrace cs (FlipperState.chunkMovedFn cs fs) := by
  rw [flipTrace]
  split <;> simp_all

theorem flipTrace_done {cs : Nat} {fs : FlipperState}
    (h : FlipperState.next cs fs = .Done) :
    flipTrace cs fs = [] := by
  rw [flipTrace]
  split <;> simp_all

/-- Bytes consumed by the read cursor at an event (`PARENT_SIZE = 2 * hs`
for a feed, the chunk size for a chunk move). -/
def evRead (hs : Nat) : FlipEvent → Nat
  | .feed => 2 * hs
  | .take => 0
  | .chunk sz => sz

/-- Bytes consumed by the write cursor at an event. -/
def evWrite (hs : Nat) : FlipEvent → Nat
  | .feed => 0
  | .take => 2 * hs
  | .chunk sz => sz

def readBytes (hs : Nat) (tr : List FlipEvent) : Nat :=
  (tr.map (evRead hs)).sum

def writtenBytes (hs : Nat) (tr : List FlipEvent) : Nat :=
  (tr.map (evWrite hs)).sum

def countFeeds (tr : List FlipEvent) : Nat := tr.count .feed

def countTakes (tr : List FlipEvent) : Nat := tr.count .take

def chunkSizes (tr : List FlipEvent) : List Nat :=
  tr.filterMap (fun e => match e with | .chunk sz => some sz | _ => none)

/-- Total bytes of the first `m` chunks. -/
def chunkBytes (cs L m : Nat) : Nat :=
  ((List.range m).map (fun k => chunkSizeF cs k L)).sum

/-- Parents still to be fed from the current state onward. -/
def remFeeds (fs : FlipperState) : Nat :=
  fs.parentsNeeded + sumTO (fs.chunkMoved - 1)

theorem chunkBytes_succ (cs L m : Nat) :
    chunkBytes cs L (m + 1) = chunkBytes cs L m + chunkSizeF cs m L := by
  unfold chunkBytes
  rw [List.range_succ, List.map_append, List.sum_append]
  simp

theorem chunkBytes_eq_min (cs L m : Nat) :
    chunkBytes cs L m = min (m * cs) L := by
  induction m with
  | zero => simp [chunkBytes]
  | succ m ih =>
    rw [chunkBytes_succ, ih]
    unfold chunkSizeF
    have hdist : (m + 1) * cs = m * cs + cs := by ring
    omega

theorem le_countChunks_mul (cs L : Nat) (hcs : 0 < cs) :
    L ≤ countChunks cs L * cs := by
  unfold countChunks
  have hlt : L < L / cs * cs + cs := Nat.lt_div_mul_add hcs
  have hle : L / cs * cs ≤ L := Nat.div_mul_le_self L cs
  obtain ⟨q, hq⟩ : ∃ q, L / cs = q := ⟨_, rfl⟩
  rw [hq] at hlt hle ⊢
  by_cases h : L % cs ≠ 0
  · rw [if_pos h]
    have hmax : max 1 (q + 1) = q + 1 := by omega
    rw [hmax]
    have hdist : (q + 1) * cs = q * cs + cs := by ring
    rw [hdist]
    omega
  · rw [if_neg h]
    push_neg at h
    have hdvd : q * cs = L := by
      rw [← hq]
      exact Nat.div_mul_cancel (Nat.dvd_of_mod_eq_zero h)
    by_cases hq0 : q = 0
    · rw [hq0] at hdvd
      simp at hdvd
      rw [← hdvd]
      exact Nat.zero_le _
    · have hmax : max 1 (q + 0) = q := by omega
      rw [hmax]
      omega

/-- All chunks together hold exactly the content bytes. -/
theorem chunkBytes_total (cs L : Nat) (hcs : 0 < cs) :
    chunkBytes cs L (countChunks cs L) = L := by
  rw [chunkBytes_eq_min]
  have := le_countChunks_mul cs L hcs
  omega

theorem readBytes_eq (hs : Nat) (tr : List FlipEvent) :
    readBytes hs tr = 2 * hs * countFeeds tr + (chunkSizes tr).sum := by
  induction tr with
  | nil => simp [readBytes, countFeeds, chunkSizes]
  | cons e tr ih =>
    have hr : readBytes hs (e :: tr) = evRead hs e + readBytes hs tr := by
      simp [readBytes]
    cases e with
    | feed =>
      have h1 : countFeeds (FlipEvent.feed :: tr) = countFeeds tr + 1 := by
        simp [countFeeds, List.count_cons]
      have h2 : chunkSizes (FlipEvent.feed :: tr) = chunkSizes tr := by
        simp [chunkSizes]
      rw [hr, h1, h2, ih, Nat.mul_succ]
      simp [evRead]
      ring
    | take =>
      have h1 : countFeeds (FlipEvent.take :: tr) = countFeeds tr := by
        simp [countFeeds, List.count_cons]
      have h2 : chunkSizes (FlipEvent.take :: tr) = chunkSizes tr := by
        simp [chunkSizes]
      rw [hr, h1, h2, ih]
      simp [evRead]
    | chunk sz =>
      have h1 : countFeeds (FlipEvent.chunk sz :: tr) = countFeeds tr := by
        simp [countFeeds, List.count_cons]
      have h2 : chunkSizes (FlipEvent.chunk sz :: tr) = sz :: chunkSizes tr := by
        simp [chunkSizes]
      rw [hr, h1, h2, ih]
      simp [evRead]
      ring

theorem writtenBytes_eq (hs : Nat) (tr : List FlipEvent) :
    writtenBytes hs tr = 2 * hs * countTakes tr + (chunkSizes tr).sum := by
  induction tr with
  | nil => simp [writtenBytes, countTakes, chunkSizes]
  | cons e tr ih =>
    have hr : writtenBytes hs (e :: tr) = evWrite hs e + writtenBytes hs tr := by
      simp [writtenBytes]
    cases e with
    | feed =>
      have h1 : countTakes (FlipEvent.feed :: tr) = countTakes tr := by
        simp [countTakes, List.count_cons]
      have h2 : chunkSizes (FlipEvent.feed :: tr) = chunkSizes tr := by
        simp [chunkSizes]
      rw [hr, h1, h2, ih]
      simp [evWrite]
    | take =>
      have h1 : countTakes (FlipEvent.take :: tr) = countTakes tr + 1 := by
        simp [countTakes, List.count_cons]
      have h2 : chunkSizes (FlipEvent.take :: tr) = chunkSizes tr := by
        simp [chunkSizes]
      rw [hr, h1, h2, ih, Nat.mul_succ]
      simp [evWrite]
      ring
    | chunk sz =>
      have h1 : countTakes (FlipEvent.chunk sz :: tr) = countTakes tr := by
        simp [countTakes, List.count_cons]
      have h2 : chunkSizes (FlipEvent.chunk sz :: tr) = sz :: chunkSizes tr := by
        simp [chunkSizes]
      rw [hr, h1, h2, ih]
      simp [evWrite]
      ring

theorem countFeeds_cons_feed (tr : List FlipEvent) :
    countFeeds (.feed :: tr) = countFeeds tr + 1 := by
  simp [countFeeds, List.count_cons]

theorem countFeeds_cons_take (tr : List FlipEvent) :
    countFeeds (.take :: tr) = countFeeds tr := by
  simp [countFeeds, List.count_cons]

theorem countFeeds_cons_chunk (sz : Nat) (tr : List FlipEvent) :
    countFeeds (.chunk sz :: tr) = countFeeds tr := by
  simp [countFeeds, List.count_cons]

theorem countTakes_cons_feed (tr : List FlipEvent) :
    countTakes (.feed :: tr) = countTakes tr := by
  simp [countTakes, List.count_cons]

theorem countTakes_cons_take (tr : List FlipEvent) :
    countTakes (.take :: tr) = countTakes tr + 1 := by
  simp [countTakes, List.count_cons]

theorem countTakes_cons_chunk (sz : Nat) (tr : List FlipEvent) :
    countTakes (.chunk sz :: tr) = countTakes tr := by
  simp [countTakes, List.count_cons]

theorem chunkSizes_cons_feed (tr : List FlipEvent) :
    chunkSizes (.feed :: tr) = chunkSizes tr := by
  simp [chunkSizes]

theorem chunkSizes_cons_take (tr : List FlipEvent) :
    chunkSizes (.take :: tr) = chunkSizes tr := by
  simp [chunkSizes]

theorem chunkSizes_cons_chunk (sz : Nat) (tr : List FlipEvent) :
    chunkSizes (.chunk sz :: tr) = sz :: chunkSizes tr := by
  simp [chunkSizes]

/-- Master accounting of the flipper run: the counts of feeds and takes and
the sizes of the moved chunks, from any state satisfying the invariant. -/
theorem flipTrace_spec (cs L : Nat) (hcs : 0 < cs) (hL : L < 2 ^ 64) :
    ∀ n fs, (flipTrace cs fs).length ≤ n → Inv cs L fs →
      countFeeds (flipTrace cs fs) = remFeeds fs ∧
      countTakes (flipTrace cs fs) = remFeeds fs + fs.parents.length ∧
      chunkSizes (flipTrace cs fs)
        = ((List.range fs.chunkMoved).map (fun k => chunkSizeF cs k L)).reverse := by
  intro n
  induction n with
  | zero =>
    intro fs hlen hinv
    rcases hnext : FlipperState.next cs fs with _ | _ | sz | _
    · rw [flipTrace_feed hnext] at hlen
      simp at hlen
    · rw [flipTrace_take hnext] at hlen
      simp at hlen
    · rw [flipTrace_chunk hnext] at hlen
      simp at hlen
    · obtain ⟨hpar, hm0, hp0, ha0⟩ := inv_done hcs hL hinv hnext
      rw [flipTrace_done hnext]
      simp only [countFeeds, countTakes, chunkSizes, remFeeds]
      rw [hm0, hp0, hpar]
      simp [sumTO]
  | succ n ih =>
    intro fs hlen hinv
    rcases hnext : FlipperState.next cs fs with _ | _ | sz | _
    · rw [flipTrace_feed hnext] at hlen ⊢
      obtain ⟨hbd, hinv'⟩ := inv_feed [] hcs hL hinv hnext
      obtain ⟨hA, hB, hD⟩ := ih (fs.feedParent []) (by simpa using hlen) hinv'
      obtain ⟨ha0, hp1⟩ := next_feed_inv hnext
      have e1 : (fs.feedParent []).parents.length = fs.parents.length + 1 := by
        simp [FlipperState.feedParent]
      have e2 : (fs.feedParent []).chunkMoved = fs.chunkMoved := rfl
      have e3 : (fs.feedParent []).parentsNeeded = fs.parentsNeeded - 1 := rfl
      simp only [remFeeds] at hA hB ⊢
      rw [e2, e3] at hA
      rw [e1, e2, e3] at hB
      rw [e2] at hD
      refine ⟨?_, ?_, ?_⟩
      · rw [countFeeds_cons_feed]
        omega
      · rw [countTakes_cons_feed]
        omega
      · rw [chunkSizes_cons_feed, hD]
    · rw [flipTrace_take hnext] at hlen ⊢
      obtain ⟨hne, hinv'⟩ := inv_take hcs hL hinv hnext
      obtain ⟨hA, hB, hD⟩ := ih fs.takeParent.2 (by simpa using hlen) hinv'
      have hlp : 0 < fs.parents.length := by
        cases hp : fs.parents
        · exact absurd hp hne
        · simp [hp]
      have e1 : fs.takeParent.2.parents.length = fs.parents.length - 1 := by
        simp [FlipperState.takeParent]
      have e2 : fs.takeParent.2.chunkMoved = fs.chunkMoved := rfl
      have e3 : fs.takeParent.2.parentsNeeded = fs.parentsNeeded := rfl
      simp only [remFeeds] at hA hB ⊢
      rw [e2, e3] at hA
      rw [e1, e2, e3] at hB
      rw [e2] at hD
      refine ⟨?_, ?_, ?_⟩
      · rw [countFeeds_cons_take]
        omega
      · rw [countTakes_cons_take]
        omega
      · rw [chunkSizes_cons_take, hD]
    · rw [flipTrace_chunk hnext] at hlen ⊢
      have hinv' := inv_chunk hcs hL hinv hnext
      obtain ⟨hA, hB, hD⟩ := ih (FlipperState.chunkMovedFn cs fs)
        (by simpa using hlen) hinv'
      obtain ⟨ha0, hp0, hm1, hszv⟩ := next_chunk_inv hnext
      have hcl : fs.contentLen = L := hinv.1
      have hNlt : countChunks cs L < 2 ^ 64 := countChunks_lt_u64 cs L hcs hL
      have hmN : fs.chunkMoved ≤ countChunks cs L := hinv.2.1
      have hp' : (FlipperState.chunkMovedFn cs fs).parentsNeeded
          = needBelow (fs.chunkMoved - 1) := by
        unfold FlipperState.chunkMovedFn needBelow
        by_cases h0 : 0 < fs.chunkMoved - 1
        · simp only []
          rw [if_pos h0, if_neg (by omega)]
        · simp only []
          rw [if_neg h0, if_pos (by omega)]
          omega
      have hrf : remFeeds (FlipperState.chunkMovedFn cs fs) = remFeeds fs := by
        unfold remFeeds
        rw [hp']
        have hmc : (FlipperState.chunkMovedFn cs fs).chunkMoved
            = fs.chunkMoved - 1 := rfl
        rw [hmc, hp0]
        by_cases h0 : 0 < fs.chunkMoved - 1
        · have hnb : needBelow (fs.chunkMoved - 1)
              = trailingOnes (fs.chunkMoved - 1 - 1) :=
            needBelow_eq h0 (by omega)
          rw [hnb]
          have hsucc := sumTO_succ (fs.chunkMoved - 1 - 1)
          rw [show fs.chunkMoved - 1 - 1 + 1 = fs.chunkMoved - 1 by omega] at hsucc
          omega
        · have hm0 : fs.chunkMoved - 1 = 0 := by omega
          rw [hm0]
          simp [needBelow, sumTO]
      have hpar : (FlipperState.chunkMovedFn cs fs).parents = fs.parents := rfl
      rw [hpar] at hB
      have hmc : (FlipperState.chunkMovedFn cs fs).chunkMoved
          = fs.chunkMoved - 1 := rfl
      rw [hmc] at hD
      refine ⟨?_, ?_, ?_⟩
      · rw [countFeeds_cons_chunk, hA]
        exact hrf
      · rw [countTakes_cons_chunk, hB]
        rw [hrf]
      · rw [chunkSizes_cons_chunk, hD]
        obtain ⟨m1, hm1e⟩ : ∃ m1, fs.chunkMoved - 1 = m1 := ⟨_, rfl⟩
        have hms : fs.chunkMoved = m1 + 1 := by omega
        rw [hm1e, hms, List.range_succ, List.map_append, List.reverse_append]
        rw [hszv, hcl, hm1e]
        simp
    · obtain ⟨hpar, hm0, hp0, ha0⟩ := inv_done hcs hL hinv hnext
      rw [flipTrace_done hnext]
      simp only [countFeeds, countTakes, chunkSizes, remFeeds]
      rw [hm0, hp0, hpar]
      simp [sumTO]

theorem readBytes_cons (hs : Nat) (e : FlipEvent) (tr : List FlipEvent) :
    readBytes hs (e :: tr) = evRead hs e + readBytes hs tr := by
  simp [readBytes]

theorem writtenBytes_cons (hs : Nat) (e : FlipEvent) (tr : List FlipEvent) :
    writtenBytes hs (e :: tr) = evWrite hs e + writtenBytes hs tr := by
  simp [writtenBytes]

theorem readBytes_take_le (hs k : Nat) (tr : List FlipEvent) :
    readBytes hs (tr.take k) ≤ readBytes hs tr := by
  conv_rhs => rw [← List.take_append_drop k tr]
  unfold readBytes
  rw [List.map_append, List.sum_append]
  omega

/-- Along every prefix of the flipper run, the write cursor has moved at
most as many bytes as the read cursor, up to the parents still buffered. -/
theorem flip_prefix_bound (cs hs L : Nat) (hcs : 0 < cs) (hL : L < 2 ^ 64) :
    ∀ n fs, (flipTrace cs fs).length ≤ n → Inv cs L fs → ∀ k,
      writtenBytes hs ((flipTrace cs fs).take k)
        ≤ readBytes hs ((flipTrace cs fs).take k)
          + 2 * hs * fs.parents.length := by
  intro n
  induction n with
  | zero =>
    intro fs hlen hinv k
    rcases hnext : FlipperState.next cs fs with _ | _ | sz | _
    · rw [flipTrace_feed hnext] at hlen
      simp at hlen
    · rw [flipTrace_take hnext] at hlen
      simp at hlen
    · rw [flipTrace_chunk hnext] at hlen
      simp at hlen
    · rw [flipTrace_done hnext]
      simp [writtenBytes, readBytes]
  | succ n ih =>
    intro fs hlen hinv k
    rcases hnext : FlipperState.next cs fs with _ | _ | sz | _
    · rw [flipTrace_feed hnext] at hlen ⊢
      obtain ⟨hbd, hinv'⟩ := inv_feed [] hcs hL hinv hnext
      cases k with
      | zero => simp [writtenBytes, readBytes]
      | succ k =>
        rw [List.take_succ_cons, writtenBytes_cons, readBytes_cons]
        have hih := ih (fs.feedParent []) (by simpa using hlen) hinv' k
        have e1 : (fs.feedParent []).parents.length = fs.parents.length + 1 := by
          simp [FlipperState.feedParent]
        rw [e1, Nat.mul_succ] at hih
        simp only [evRead, evWrite]
        omega
    · rw [flipTrace_take hnext] at hlen ⊢
      obtain ⟨hne, hinv'⟩ := inv_take hcs hL hinv hnext
      have hlp : 0 < fs.parents.length := by
        cases hp : fs.parents
        · exact absurd hp hne
        · simp [hp]
      cases k with
      | zero => simp [writtenBytes, readBytes]
      | succ k =>
        rw [List.take_succ_cons, writtenBytes_cons, readBytes_cons]
        have hih := ih fs.takeParent.2 (by simpa using hlen) hinv' k
        have e1 : fs.takeParent.2.parents.length = fs.parents.length - 1 := by
          simp [FlipperState.takeParent]
        rw [e1] at hih
        have hmul : 2 * hs * fs.parents.length
            = 2 * hs * (fs.parents.length - 1) + 2 * hs := by
          conv_lhs => rw [show fs.parents.length = fs.parents.length - 1 + 1
            by omega]
          rw [Nat.mul_succ]
        simp only [evRead, evWrite]
        omega
    · rw [flipTrace_chunk hnext] at hlen ⊢
      have hinv' := inv_chunk hcs hL hinv hnext
      cases k with
      | zero => simp [writtenBytes, readBytes]
      | succ k =>
        rw [List.take_succ_cons, writtenBytes_cons, readBytes_cons]
        have hih := ih (FlipperState.chunkMovedFn cs fs)
          (by simpa using hlen) hinv' k
        have e1 : (FlipperState.chunkMovedFn cs fs).parents = fs.parents := rfl
        rw [e1] at hih
        simp only [evRead, evWrite]
        omega
    · rw [flipTrace_done hnext]
      simp [writtenBytes, readBytes]

/-- Total reads and writes of a full flipper run from the initial state. -/
theorem flip_totals (cs hs L : Nat) (hcs : 0 < cs) (hL : L < 2 ^ 64) :
    countFeeds (flipTrace cs (FlipperState.new cs L)) = countChunks cs L - 1 ∧
    countTakes (flipTrace cs (FlipperState.new cs L)) = countChunks cs L - 1 ∧
    chunkSizes (flipTrace cs (FlipperState.new cs L))
      = ((List.range (countChunks cs L)).map (fun k => chunkSizeF cs k L)).reverse ∧
    readBytes hs (flipTrace cs (FlipperState.new cs L))
      = 2 * hs * (countChunks cs L - 1) + L ∧
    writtenBytes hs (flipTrace cs (FlipperState.new cs L))
      = 2 * hs * (countChunks cs L - 1) + L := by
  obtain ⟨hA, hB, hD⟩ := flipTrace_spec cs L hcs hL
    (flipTrace cs (FlipperState.new cs L)).length (FlipperState.new cs L)
    (le_refl _) (inv_new cs L)
  have hrm : remFeeds (FlipperState.new cs L) = countChunks cs L - 1 := by
    unfold remFeeds FlipperState.new postOrderParentNodesFinal
    simp only []
    have := sumTO_add_popCount (countChunks cs L - 1)
    omega
  have hlen0 : (FlipperState.new cs L).parents.length = 0 := rfl
  have hmc : (FlipperState.new cs L).chunkMoved = countChunks cs L := rfl
  rw [hmc] at hD
  have hsum : (chunkSizes (flipTrace cs (FlipperState.new cs L))).sum = L := by
    rw [hD, List.sum_reverse]
    have hcb : ((List.range (countChunks cs L)).map
        (fun k => chunkSizeF cs k L)).sum = chunkBytes cs L (countChunks cs L) :=
      rfl
    rw [hcb, chunkBytes_total cs L hcs]
  rw [hrm] at hA hB
  rw [hlen0] at hB
  simp only [Nat.add_zero] at hB
  refine ⟨hA, hB, hD, ?_, ?_⟩
  · rw [readBytes_eq, hA, hsum]
  · rw [writtenBytes_eq, hB, hsum]

/-- C7: the flipper event loop from `FlipperState::new(L)` terminates with
exactly `count_chunks(L)` chunk events whose sizes are
`chunk_size(chunk_moved - 1, L)` in order, `count_chunks(L) - 1` feeds and
`count_chunks(L) - 1` takes; at `Done` the write cursor, which started at
`encoded_size(L)`, has come down exactly to `HEADER_SIZE`. -/
theorem c7_flipper_termination (cs hs L : Nat) (hcs : 0 < cs)
    (hL : L < 2 ^ 64) :
    countFeeds (flipTrace cs (FlipperState.new cs L)) = countChunks cs L - 1 ∧
    countTakes (flipTrace cs (FlipperState.new cs L)) = countChunks cs L - 1 ∧
    chunkSizes (flipTrace cs (FlipperState.new cs L))
      = ((List.range (countChunks cs L)).map (fun k => chunkSizeF cs k L)).reverse ∧
    (chunkSizes (flipTrace cs (FlipperState.new cs L))).length
      = countChunks cs L ∧
    encodedSize cs hs L - writtenBytes hs (flipTrace cs (FlipperState.new cs L))
      = HEADER_SIZE := by
  obtain ⟨hA, hB, hD, hR, hW⟩ := flip_totals cs hs L hcs hL
  refine ⟨hA, hB, hD, ?_, ?_⟩
  · rw [hD]
    simp
  · rw [hW]
    unfold encodedSize encodedSubtreeSize HEADER_SIZE
    have hco : (countChunks cs L - 1) * (2 * hs)
        = 2 * hs * (countChunks cs L - 1) := Nat.mul_comm _ _
    omega

/-- Witness for C7 at `CHUNK_SIZE = 4096`, `HASH_SIZE = 32`, `L = 10000`. -/
theorem c7_flipper_termination_witness :
    0 < 4096 ∧ 10000 < 2 ^ 64 ∧
      encodedSize 4096 32 10000
          - writtenBytes 32 (flipTrace 4096 (FlipperState.new 4096 10000))
        = HEADER_SIZE :=
  ⟨by decide, by decide, (c7_flipper_termination 4096 32 10000 (by decide)
    (by decide)).2.2.2.2⟩

/-- C6: along every prefix of the in-place flip, the bytes written never
exceed the bytes read, the read cursor stays at or above `HEADER_SIZE`, and
therefore the read cursor `encoded_size(L) - HEADER_SIZE - read` never
exceeds the write cursor `encoded_size(L) - written`: the rewrite never
overwrites a byte that has not been read yet. -/
theorem c6_flip_cursor_safety (cs hs L : Nat) (hcs : 0 < cs)
    (hL : L < 2 ^ 64) (k : Nat) :
    writtenBytes hs ((flipTrace cs (FlipperState.new cs L)).take k)
        ≤ readBytes hs ((flipTrace cs (FlipperState.new cs L)).take k) ∧
    readBytes hs ((flipTrace cs (FlipperState.new cs L)).take k) + HEADER_SIZE
        ≤ encodedSize cs hs L ∧
    encodedSize cs hs L - HEADER_SIZE
        - readBytes hs ((flipTrace cs (FlipperState.new cs L)).take k)
      ≤ encodedSize cs hs L
        - writtenBytes hs ((flipTrace cs (FlipperState.new cs L)).take k) := by
  have hpre := flip_prefix_bound cs hs L hcs hL
    (flipTrace cs (FlipperState.new cs L)).length (FlipperState.new cs L)
    (le_refl _) (inv_new cs L) k
  have hlen0 : (FlipperState.new cs L).parents.length = 0 := rfl
  rw [hlen0] at hpre
  obtain ⟨hA, hB, hD, hR, hW⟩ := flip_totals cs hs L hcs hL
  have htk := readBytes_take_le hs k (flipTrace cs (FlipperState.new cs L))
  rw [hR] at htk
  have hco : (countChunks cs L - 1) * (2 * hs)
      = 2 * hs * (countChunks cs L - 1) := Nat.mul_comm _ _
  unfold encodedSize encodedSubtreeSize HEADER_SIZE at *
  refine ⟨by omega, by omega, by omega⟩

/-- Witness for C6 at `CHUNK_SIZE = 4096`, `HASH_SIZE = 32`, `L = 10000`,
prefix length 3. -/
theorem c6_flip_cursor_safety_witness :
    0 < 4096 ∧ 10000 < 2 ^ 64 ∧
      writtenBytes 32 ((flipTrace 4096 (FlipperState.new 4096 10000)).take 3)
        ≤ readBytes 32 ((flipTrace 4096 (FlipperState.new 4096 10000)).take 3) :=
  ⟨by decide, by decide,
    (c6_flip_cursor_safety 4096 32 10000 (by decide) (by decide) 3).1⟩

/-- States reachable from `FlipperState::new` by events permitted by
`next()`; a fed parent payload may be arbitrary. -/
inductive Reachable (cs L : Nat) : FlipperState → Prop where
  | init : Reachable cs L (FlipperState.new cs L)
  | take {fs : FlipperState} : Reachable cs L fs →
      FlipperState.next cs fs = .TakeParent → Reachable cs L fs.takeParent.2
  | feed {fs : FlipperState} (p : List Nat) : Reachable cs L fs →
      FlipperState.next cs fs = .FeedParent → Reachable cs L (fs.feedParent p)
  | chunk {fs : FlipperState} {sz : Nat} : Reachable cs L fs →
      FlipperState.next cs fs = .Chunk sz →
      Reachable cs L (FlipperState.chunkMovedFn cs fs)

theorem reachable_inv {cs L : Nat} {fs : FlipperState} (hcs : 0 < cs)
    (hL : L < 2 ^ 64) (hre : Reachable cs L fs) : Inv cs L fs := by
  induction hre with
  | init => exact inv_new cs L
  | take hre hnext ih => exact (inv_take hcs hL ih hnext).2
  | feed p hre hnext ih => exact (inv_feed p hcs hL ih hnext).2
  | chunk hre hnext ih => exact inv_chunk hcs hL ih hnext

/-- From the invariant: the stack holds at least `parents_available`
entries and at most `MAX_DEPTH`. -/
theorem inv_stack_bounds {cs L : Nat} {fs : FlipperState} (hcs : 0 < cs)
    (hL : L < 2 ^ 64) (hinv : Inv cs L fs) :
    fs.parentsAvailable ≤ fs.parents.length ∧
      fs.parents.length ≤ MAX_DEPTH := by
  obtain ⟨hcl, hmN, hrest⟩ := hinv
  have hN1 : 1 ≤ countChunks cs L := countChunks_pos cs L
  have hNlt : countChunks cs L < 2 ^ 64 := countChunks_lt_u64 cs L hcs hL
  have hszb : Nat.size (countChunks cs L - 1) ≤ 64 := Nat.size_le.mpr (by omega)
  unfold MAX_DEPTH
  by_cases hmEq : fs.chunkMoved = countChunks cs L
  · rw [if_pos hmEq] at hrest
    have hpcs : popCount (countChunks cs L - 1)
        ≤ Nat.size (countChunks cs L - 1) := popCount_le_size _
    omega
  · rw [if_neg hmEq] at hrest
    obtain ⟨h1, h2, h3, h4⟩ := hrest
    have hm : fs.chunkMoved < countChunks cs L := by omega
    have hpe : preOrderParentNodes cs fs.chunkMoved L
        = preCount 0 (countChunks cs L) fs.chunkMoved :=
      (c4_pre_order_parent_nodes cs L fs.chunkMoved hcs hL hm).1
    have hpd := preCount_le_depthCount 0 (countChunks cs L) fs.chunkMoved
    have hdm := depthCount_le_size (countChunks cs L) 0 fs.chunkMoved
    by_cases hm0 : fs.chunkMoved = 0
    · rw [hm0] at h1 h2 h4 hpe hpd hdm
      unfold needBelow at h2 h4
      rw [if_pos rfl] at h2 h4
      omega
    · have hrec := depth_step (countChunks cs L) 0 fs.chunkMoved (by omega)
        (by omega)
      have hpostm1 : postCount 0 (countChunks cs L) (fs.chunkMoved - 1)
          = trailingOnes (fs.chunkMoved - 1) := by
        rw [postCount_formula (countChunks cs L) hN1 (fs.chunkMoved - 1)
          (by omega), if_neg (by omega)]
      have hnb : needBelow fs.chunkMoved = trailingOnes (fs.chunkMoved - 1) :=
        needBelow_eq (by omega) (by omega)
      have hdm1 := depthCount_le_size (countChunks cs L) 0 (fs.chunkMoved - 1)
      rcases Nat.eq_zero_or_pos fs.parentsAvailable with ha | ha
      · omega
      · have hp3 := h3 ha
        omega

/-- C10: in every state reachable from `FlipperState::new(L)` by events
permitted by `next()`, the buffered parent stack holds at least
`parents_available` and at most `MAX_DEPTH` entries; consequently
`take_parent` never pops an empty stack and `feed_parent` never pushes past
the fixed `MAX_DEPTH` capacity. -/
theorem c10_flipper_stack_safety (cs L : Nat) {fs : FlipperState}
    (hcs : 0 < cs) (hL : L < 2 ^ 64) (hre : Reachable cs L fs) :
    fs.parentsAvailable ≤ fs.parents.length ∧
    fs.parents.length ≤ MAX_DEPTH ∧
    (FlipperState.next cs fs = .TakeParent → fs.parents ≠ []) ∧
    (FlipperState.next cs fs = .FeedParent →
      fs.parents.length + 1 ≤ MAX_DEPTH) := by
  have hinv := reachable_inv hcs hL hre
  obtain ⟨hab, hlb⟩ := inv_stack_bounds hcs hL hinv
  exact ⟨hab, hlb, fun hnext => (inv_take hcs hL hinv hnext).1,
    fun hnext => (inv_feed [] hcs hL hinv hnext).1⟩

/-- Witness for C10 at `CHUNK_SIZE = 4096`, `L = 10000`, at the initial
state. -/
theorem c10_flipper_stack_safety_witness :
    0 < 4096 ∧ 10000 < 2 ^ 64 ∧
      (FlipperState.new 4096 10000).parentsAvailable
        ≤ (FlipperState.new 4096 10000).parents.length :=
  ⟨by decide, by decide,
    (c10_flipper_stack_safety 4096 10000 (by decide) (by decide)
      Reachable.init).1⟩

/-! Byte-level model of the encoder (encode.rs:36-119) over the
spec-modelled hash primitive and subtree stack. -/

/-- Little-endian byte expansion, `k` bytes long. -/
def leBytes : Nat → Nat → List Nat
  | 0, _ => []
  | k + 1, L => L % 256 :: leBytes k (L / 256)

/-- Modelled from the spec: `hash::encode_len`, the 8-byte little-endian
u64 length header; the function lives in the missing `hash` module. -/
def encodeLen (L : Nat) : List Nat := leBytes 8 L

/-- Modelled from the spec: `hash::decode_len`, the inverse of
`encode_len`. -/
def decodeLen (b : List Nat) : Nat := b.foldr (fun x acc => x + 256 * acc) 0

theorem leBytes_length (k L : Nat) : (leBytes k L).length = k := by
  induction k generalizing L with
  | zero => rfl
  | succ k ih => simp [leBytes, ih]

theorem decodeLen_leBytes (k : Nat) : ∀ L, decodeLen (leBytes k L) = L % 256 ^ k := by
  induction k with
  | zero =>
    intro L
    simp [leBytes, decodeLen, Nat.mod_one]
  | succ k ih =>
    intro L
    have hfold : decodeLen (leBytes (k + 1) L)
        = L % 256 + 256 * decodeLen (leBytes k (L / 256)) := rfl
    rw [hfold, ih]
    have hlt : L / 256 % 256 ^ k < 256 ^ k := Nat.mod_lt _ (by positivity)
    have hmodlt : L % 256 < 256 := Nat.mod_lt _ (by norm_num)
    have hpows : (256:Nat) ^ (k + 1) = 256 ^ k * 256 := pow_succ 256 k
    have hgen : L % 256 ^ (k + 1) = 256 * (L / 256 % 256 ^ k) + L % 256 := by
      have h1 : L = 256 * (L / 256) + L % 256 := (Nat.div_add_mod L 256).symm
      have h2 : L / 256 = 256 ^ k * (L / 256 / 256 ^ k) + L / 256 % 256 ^ k :=
        (Nat.div_add_mod _ _).symm
      calc L % 256 ^ (k + 1)
          = (256 * (256 ^ k * (L / 256 / 256 ^ k) + L / 256 % 256 ^ k)
              + L % 256) % 256 ^ (k + 1) := by
            rw [← h2, ← h1]
        _ = (256 * (L / 256 % 256 ^ k) + L % 256
              + 256 ^ (k + 1) * (L / 256 / 256 ^ k)) % 256 ^ (k + 1) := by
            congr 1
            ring
        _ = (256 * (L / 256 % 256 ^ k) + L % 256) % 256 ^ (k + 1) :=
            Nat.add_mul_mod_self_left _ _ _
        _ = 256 * (L / 256 % 256 ^ k) + L % 256 := Nat.mod_eq_of_lt (by omega)
    omega

/-- For a u64 content length the header decodes back exactly. -/
theorem decodeLen_encodeLen {L : Nat} (hL : L < 2 ^ 64) :
    decodeLen (encodeLen L) = L := by
  unfold encodeLen
  rw [decodeLen_leBytes]
  have h : (256:Nat) ^ 8 = 2 ^ 64 := by norm_num
  rw [h]
  exact Nat.mod_eq_of_lt hL

theorem encodeLen_length (L : Nat) : (encodeLen L).length = HEADER_SIZE :=
  leBytes_length 8 L

/-- Read of `buf[p..p+n)` (an `array_ref!` / slice read; the drivers only
read in bounds). -/
def getRange (buf : List Nat) (p n : Nat) : List Nat := (buf.drop p).take n

/-- Overwrite of `buf[p..p+b.length)` with `b` (`copy_from_slice`; the
drivers only write in bounds). -/
def setRange (buf : List Nat) (p : Nat) (b : List Nat) : List Nat :=
  buf.take p ++ b ++ buf.drop (p + b.length)

theorem getRange_length {buf : List Nat} {p n : Nat} (h : p + n ≤ buf.length) :
    (getRange buf p n).length = n := by
  unfold getRange
  rw [List.length_take, List.length_drop]
  omega

theorem setRange_length {buf b : List Nat} {p : Nat}
    (h : p + b.length ≤ buf.length) :
    (setRange buf p b).length = buf.length := by
  unfold setRange
  rw [List.length_append, List.length_append, List.length_take,
    List.length_drop]
  omega

/-- Modelled from the spec: one entry of the `hash::State` subtree stack —
a subtree hash together with the number of chunks the subtree covers
(§4.B: merging is driven by equal implied subtree sizes). -/
structure SEntry where
  hsh : List Nat
  csz : Nat
deriving DecidableEq

/-- Modelled from the spec: the `merge_parent` loop of `hash::State` — while
the top two stack entries cover equally many chunks, pop them, emit the
payload `left_hash || right_hash`, and push `hash_parent(payload, NotRoot)`.
Returns the emitted payload bytes and the remaining stack; the stack top is
the list head. -/
def drainM (hashParent : List Nat → Finalization → List Nat) :
    List SEntry → List Nat × List SEntry
  | b :: a :: r =>
    if b.csz = a.csz then
      let payload := a.hsh ++ b.hsh
      let rest := drainM hashParent (⟨hashParent payload NotRoot, a.csz + b.csz⟩ :: r)
      (payload ++ rest.1, rest.2)
    else ([], b :: a :: r)
  | st => ([], st)
termination_by st => st.length
decreasing_by
  simp only [List.length_cons]
  omega

/-- Modelled from the spec: the `merge_finish` loop of `hash::State` — pop
the top two entries unconditionally and emit the payload; once nothing
remains below them the payload is hashed with the given (Root)
finalization and returned as the root, otherwise the `NotRoot` parent is
pushed back and the loop continues.  A stack of fewer than two entries is
unreachable in the drivers (the general path always finishes on at least
two). -/
def finishM (hashParent : List Nat → Finalization → List Nat)
    (fin : Finalization) : List SEntry → List Nat × List Nat
  | b :: a :: r =>
    let payload := a.hsh ++ b.hsh
    if r.isEmpty then (payload, hashParent payload fin)
    else
      let rest := finishM hashParent fin (⟨hashParent payload NotRoot, a.csz + b.csz⟩ :: r)
      (payload ++ rest.1, rest.2)
  | [e] => ([], e.hsh)
  | [] => ([], [])
termination_by st => st.length
decreasing_by
  simp only [List.length_cons]
  omega

/-- Embedding of the loop of `encode_post_order` (encode.rs:57-83): append
each chunk, push its `NotRoot` hash, drain `merge_parent` payloads while
more input remains, and on the final chunk drain `merge_finish` and append
the length header captured at the start. -/
def epoLoop (cs : Nat) (hashChunk hashParent : List Nat → Finalization → List Nat)
    (fin : Finalization) (elen : List Nat) (hcs : 0 < cs) :
    List Nat → List SEntry → List Nat → List Nat × List Nat
  | input, st, acc =>
    let c := input.take cs
    let st1 : List SEntry := ⟨hashChunk c NotRoot, 1⟩ :: st
    if h : input.drop cs = [] then
      let fr := finishM hashParent fin st1
      (acc ++ c ++ fr.1 ++ elen, fr.2)
    else
      let d := drainM hashParent st1
      epoLoop cs hashChunk hashParent fin elen hcs (input.drop cs) d.2
        (acc ++ c ++ d.1)
termination_by input => input.length
decreasing_by
  have hd : (input.drop cs).length = input.length - cs := List.length_drop cs input
  have hne : (input.drop cs).length ≠ 0 := by
    intro hz
    exact h (List.length_eq_zero.mp hz)
  omega

/-- Embedding of `encode_post_order` (encode.rs:43-84): the post-order byte
stream together with the root hash. -/
def encodePostOrder (cs : Nat)
    (hashChunk hashParent : List Nat → Finalization → List Nat)
    (hcs : 0 < cs) (input : List Nat) : List Nat × List Nat :=
  if input.length ≤ cs then
    (input ++ encodeLen input.length, hashChunk input (Root input.length))
  else
    epoLoop cs hashChunk hashParent (Root input.length)
      (encodeLen input.length) hcs input [] []

/-- Embedding of the loop of `flip_in_place` (encode.rs:92-118) over a byte
list; `header` is the 8-byte tail captured before the loop, written to the
front at `Done`.  The chunk move reads into a scratch buffer before
writing, exactly as modelled by reading `getRange` of the unmodified list
first. -/
def flipLoop (cs hs : Nat) (header : List Nat) (fs : FlipperState)
    (buf : List Nat) (rc wc : Nat) : List Nat × Nat :=
  match h : FlipperState.next cs fs with
  | .FeedParent =>
    flipLoop cs hs header
      (fs.feedParent (getRange buf (rc - 2 * hs) (2 * hs))) buf
      (rc - 2 * hs) wc
  | .TakeParent =>
    flipLoop cs hs header fs.takeParent.2
      (setRange buf (wc - 2 * hs) fs.takeParent.1) rc (wc - 2 * hs)
  | .Chunk sz =>
    flipLoop cs hs header (FlipperState.chunkMovedFn cs fs)
      (setRange buf (wc - sz) (getRange buf (rc - sz) sz)) (rc - sz) (wc - sz)
  | .Done => (setRange buf 0 header, wc)
termination_by (fs.chunkMoved, fs.parentsNeeded + fs.parentsAvailable)
decreasing_by
  · have hf := next_feed_inv h
    simp only [FlipperState.feedParent]
    apply Prod.Lex.right
    omega
  · have ht := next_take_inv h
    simp only [FlipperState.takeParent]
    apply Prod.Lex.right
    omega
  · have hc := next_chunk_inv h
    simp only [FlipperState.chunkMovedFn]
    apply Prod.Lex.left
    omega

/-- Embedding of `flip_in_place` (encode.rs:86-119); `header` is read off
the buffer tail before the loop starts. -/
def flipInPlace (cs hs : Nat) (encoded : List Nat) : List Nat :=
  (flipLoop cs hs (getRange encoded (encoded.length - HEADER_SIZE) HEADER_SIZE)
    (FlipperState.new cs
      (decodeLen (getRange encoded (encoded.length - HEADER_SIZE) HEADER_SIZE)))
    encoded (encoded.length - HEADER_SIZE) encoded.length).1

/-- Embedding of `encode` (encode.rs:37-41): post-order encode, then flip
in place; returns the root hash and the pre-order buffer. -/
def encode (cs hs : Nat)
    (hashChunk hashParent : List Nat → Finalization → List Nat)
    (hcs : 0 < cs) (input : List Nat) : List Nat × List Nat :=
  ((encodePostOrder cs hashChunk hashParent hcs input).2,
    flipInPlace cs hs (encodePostOrder cs hashChunk hashParent hcs input).1)

theorem countChunks_le_cs {cs L : Nat} (hcs : 0 < cs) (h : L ≤ cs) :
    countChunks cs L = 1 := by
  unfold countChunks
  rcases Nat.lt_or_ge L cs with hlt | hge
  · rw [Nat.div_eq_of_lt hlt, Nat.mod_eq_of_lt hlt]
    by_cases h0 : L = 0
    · rw [h0]
      simp
    · rw [if_pos h0]
      simp
  · have hEq : L = cs := by omega
    rw [hEq, Nat.div_self hcs, Nat.mod_self]
    simp

theorem countChunks_add {cs : Nat} (M : Nat) (hM : 1 ≤ M) (hcs : 0 < cs) :
    countChunks cs (M + cs) = countChunks cs M + 1 := by
  unfold countChunks
  rw [Nat.add_div_right M hcs, Nat.add_mod_right]
  have hdm := Nat.div_add_mod M cs
  obtain ⟨q, hq⟩ : ∃ q, M / cs = q := ⟨_, rfl⟩
  rw [hq] at hdm ⊢
  by_cases hr : M % cs ≠ 0
  · rw [if_pos hr]
    omega
  · rw [if_neg hr]
    push_neg at hr
    rcases Nat.eq_zero_or_pos q with hq0 | hq0
    · rw [hq0] at hdm
      simp at hdm
      omega
    · omega

theorem drainM_nil (hP : List Nat → Finalization → List Nat) :
    drainM hP [] = ([], []) := by
  rw [drainM]
  simp

theorem drainM_one (hP : List Nat → Finalization → List Nat) (e : SEntry) :
    drainM hP [e] = ([], [e]) := by
  rw [drainM]
  simp

theorem drainM_cons_eq (hP : List Nat → Finalization → List Nat)
    (b a : SEntry) (r : List SEntry) (h : b.csz = a.csz) :
    drainM hP (b :: a :: r)
      = ((a.hsh ++ b.hsh)
            ++ (drainM hP
              (⟨hP (a.hsh ++ b.hsh) NotRoot, a.csz + b.csz⟩ :: r)).1,
          (drainM hP
            (⟨hP (a.hsh ++ b.hsh) NotRoot, a.csz + b.csz⟩ :: r)).2) := by
  rw [drainM]
  rw [if_pos h]

theorem drainM_cons_ne (hP : List Nat → Finalization → List Nat)
    (b a : SEntry) (r : List SEntry) (h : ¬ b.csz = a.csz) :
    drainM hP (b :: a :: r) = ([], b :: a :: r) := by
  rw [drainM]
  rw [if_neg h]

/-- Length accounting of a `merge_parent` drain: every merge removes one
stack entry and emits one `PARENT_SIZE` payload; the stack never empties,
and all remaining entries keep `HASH_SIZE` hashes. -/
theorem drainM_spec (hs : Nat) (hP : List Nat → Finalization → List Nat)
    (HP : ∀ b f, (hP b f).length = hs) :
    ∀ n st, st.length ≤ n → (∀ e ∈ st, e.hsh.length = hs) →
      ∃ j, st.length = (drainM hP st).2.length + j ∧
        (drainM hP st).1.length = 2 * hs * j ∧
        (st ≠ [] → (drainM hP st).2 ≠ []) ∧
        (∀ e ∈ (drainM hP st).2, e.hsh.length = hs) := by
  intro n
  induction n with
  | zero =>
    intro st hlen hent
    have hst : st = [] := List.length_eq_zero.mp (by omega)
    rw [hst, drainM_nil]
    exact ⟨0, by simp, by simp, fun h => absurd rfl h, by simp⟩
  | succ n ih =>
    intro st hlen hent
    rcases st with _ | ⟨b, _ | ⟨a, r⟩⟩
    · rw [drainM_nil]
      exact ⟨0, by simp, by simp, fun h => absurd rfl h, by simp⟩
    · rw [drainM_one]
      exact ⟨0, by simp, by simp, fun _ => by simp, hent⟩
    · by_cases h : b.csz = a.csz
      · rw [drainM_cons_eq hP b a r h]
        have hbl : b.hsh.length = hs := hent b (by simp)
        have hal : a.hsh.length = hs := hent a (by simp)
        have hent' : ∀ e ∈ (⟨hP (a.hsh ++ b.hsh) NotRoot,
            a.csz + b.csz⟩ : SEntry) :: r, e.hsh.length = hs := by
          intro e he
          rcases List.mem_cons.mp he with he | he
          · rw [he]
            exact HP _ _
          · exact hent e (by simp [he])
        have hlen' : ((⟨hP (a.hsh ++ b.hsh) NotRoot,
            a.csz + b.csz⟩ : SEntry) :: r).length ≤ n := by
          simp at hlen ⊢
          omega
        obtain ⟨j, hj1, hj2, hj3, hj4⟩ := ih _ hlen' hent'
        refine ⟨j + 1, ?_, ?_, ?_, hj4⟩
        · simp at hj1 ⊢
          omega
        · rw [List.length_append, hj2, List.length_append, hal, hbl]
          ring
        · intro _
          exact hj3 (by simp)
      · rw [drainM_cons_ne hP b a r h]
        exact ⟨0, by simp, by simp, fun _ => by simp, hent⟩

theorem finishM_nil (hP : List Nat → Finalization → List Nat)
    (fin : Finalization) : finishM hP fin [] = ([], []) := by
  rw [finishM]

theorem finishM_one (hP : List Nat → Finalization → List Nat)
    (fin : Finalization) (e : SEntry) : finishM hP fin [e] = ([], e.hsh) := by
  rw [finishM]

theorem finishM_two (hP : List Nat → Finalization → List Nat)
    (fin : Finalization) (b a : SEntry) :
    finishM hP fin [b, a]
      = (a.hsh ++ b.hsh, hP (a.hsh ++ b.hsh) fin) := by
  rw [finishM]
  rfl

theorem finishM_cons (hP : List Nat → Finalization → List Nat)
    (fin : Finalization) (b a : SEntry) (r : List SEntry) (h : r ≠ []) :
    finishM hP fin (b :: a :: r)
      = ((a.hsh ++ b.hsh)
            ++ (finishM hP fin
              (⟨hP (a.hsh ++ b.hsh) NotRoot, a.csz + b.csz⟩ :: r)).1,
          (finishM hP fin
            (⟨hP (a.hsh ++ b.hsh) NotRoot, a.csz + b.csz⟩ :: r)).2) := by
  rw [finishM]
  rw [if_neg (by simpa [List.isEmpty_iff] using h)]

/-- Length accounting of the `merge_finish` loop: a stack of `k ≥ 1`
entries emits exactly `k - 1` parent payloads. -/
theorem finishM_spec (hs : Nat) (hP : List Nat → Finalization → List Nat)
    (HP : ∀ b f, (hP b f).length = hs) (fin : Finalization) :
    ∀ n st, st.length ≤ n → st ≠ [] → (∀ e ∈ st, e.hsh.length = hs) →
      (finishM hP fin st).1.length + 2 * hs = 2 * hs * st.length := by
  intro n
  induction n with
  | zero =>
    intro st hlen hne _
    exact absurd (List.length_eq_zero.mp (by omega)) hne
  | succ n ih =>
    intro st hlen hne hent
    rcases st with _ | ⟨b, _ | ⟨a, r⟩⟩
    · exact absurd rfl hne
    · rw [finishM_one]
      simp
    · have hbl : b.hsh.length = hs := hent b (by simp)
      have hal : a.hsh.length = hs := hent a (by simp)
      rcases r with _ | ⟨c, r'⟩
      · rw [finishM_two]
        simp only [List.length_append, hal, hbl]
        simp [List.length_cons]
        ring
      · rw [finishM_cons hP fin b a (c :: r') (by simp)]
        have hent' : ∀ e ∈ (⟨hP (a.hsh ++ b.hsh) NotRoot,
            a.csz + b.csz⟩ : SEntry) :: c :: r', e.hsh.length = hs := by
          intro e he
          rcases List.mem_cons.mp he with he | he
          · rw [he]
            exact HP _ _
          · exact hent e (by simp [he])
        have hlen' : ((⟨hP (a.hsh ++ b.hsh) NotRoot,
            a.csz + b.csz⟩ : SEntry) :: c :: r').length ≤ n := by
          simp at hlen ⊢
          omega
        have hih := ih _ hlen' (by simp) hent'
        simp only [List.length_cons] at hih ⊢
        obtain ⟨ρ, hρ⟩ : ∃ ρ, r'.length = ρ := ⟨_, rfl⟩
        rw [hρ] at hih ⊢
        have e1 : 2 * hs * (ρ + 1 + 1 + 1) = 2 * hs * (ρ + 1 + 1) + 2 * hs := by
          ring
        rw [List.length_append, List.length_append, hal, hbl]
        omega

theorem epoLoop_last (cs : Nat)
    (hC hP : List Nat → Finalization → List Nat) (fin : Finalization)
    (elen : List Nat) (hcs : 0 < cs) (input : List Nat) (st : List SEntry)
    (acc : List Nat) (h : input.drop cs = []) :
    epoLoop cs hC hP fin elen hcs input st acc
      = (acc ++ input.take cs
            ++ (finishM hP fin
              (⟨hC (input.take cs) NotRoot, 1⟩ :: st)).1 ++ elen,
          (finishM hP fin (⟨hC (input.take cs) NotRoot, 1⟩ :: st)).2) := by
  rw [epoLoop]
  rw [dif_pos h]

theorem epoLoop_step (cs : Nat)
    (hC hP : List Nat → Finalization → List Nat) (fin : Finalization)
    (elen : List Nat) (hcs : 0 < cs) (input : List Nat) (st : List SEntry)
    (acc : List Nat) (h : ¬ input.drop cs = []) :
    epoLoop cs hC hP fin elen hcs input st acc
      = epoLoop cs hC hP fin elen hcs (input.drop cs)
          (drainM hP (⟨hC (input.take cs) NotRoot, 1⟩ :: st)).2
          (acc ++ input.take cs
            ++ (drainM hP (⟨hC (input.take cs) NotRoot, 1⟩ :: st)).1) := by
  rw [epoLoop]
  rw [dif_neg h]

/-- Output structure of the `encode_post_order` chunk loop: the bytes
already emitted, then every remaining chunk interleaved with one
`PARENT_SIZE` payload per parent node, then the length header. -/
theorem epoLoop_struct (cs hs : Nat)
    (hC hP : List Nat → Finalization → List Nat)
    (HC : ∀ b f, (hC b f).length = hs) (HP : ∀ b f, (hP b f).length = hs)
    (fin : Finalization) (elen : List Nat) (hcs : 0 < cs) :
    ∀ n input st acc, input.length ≤ n → input ≠ [] →
      (∀ e ∈ st, e.hsh.length = hs) →
      ∃ body, (epoLoop cs hC hP fin elen hcs input st acc).1
          = acc ++ body ++ elen ∧
        body.length = input.length
          + 2 * hs * (st.length + (countChunks cs input.length - 1)) := by
  intro n
  induction n with
  | zero =>
    intro input st acc hlen hne _
    exact absurd (List.length_eq_zero.mp (by omega)) hne
  | succ n ih =>
    intro input st acc hlen hne hent
    have hent1 : ∀ e ∈ (⟨hC (input.take cs) NotRoot, 1⟩ : SEntry) :: st,
        e.hsh.length = hs := by
      intro e he
      rcases List.mem_cons.mp he with he | he
      · rw [he]
        exact HC _ _
      · exact hent e he
    by_cases h : input.drop cs = []
    · rw [epoLoop_last cs hC hP fin elen hcs input st acc h]
      have hle : input.length ≤ cs := by
        have := List.length_drop cs input
        rw [h] at this
        simp at this
        omega
      have htk : input.take cs = input := List.take_of_length_le hle
      have hcc : countChunks cs input.length = 1 :=
        countChunks_le_cs hcs hle
      have hfin := finishM_spec hs hP HP fin
        ((⟨hC (input.take cs) NotRoot, 1⟩ : SEntry) :: st).length _
        (le_refl _) (by simp) hent1
      refine ⟨input.take cs
        ++ (finishM hP fin (⟨hC (input.take cs) NotRoot, 1⟩ :: st)).1,
        by simp, ?_⟩
      rw [List.length_append, htk, hcc]
      simp only [List.length_cons] at hfin
      rw [htk] at hfin
      obtain ⟨s, hse⟩ : ∃ s, st.length = s := ⟨_, rfl⟩
      rw [hse] at hfin ⊢
      have e1 : 2 * hs * (s + 1) = 2 * hs * s + 2 * hs := by ring
      simp only [Nat.sub_self, Nat.add_zero]
      omega
    · rw [epoLoop_step cs hC hP fin elen hcs input st acc h]
      have hgt : cs < input.length := by
        have := List.length_drop cs input
        rcases Nat.lt_or_ge cs input.length with h1 | h1
        · exact h1
        · rw [List.drop_eq_nil_of_le h1] at h
          exact absurd rfl h
      have htk : (input.take cs).length = cs := by
        rw [List.length_take]
        omega
      obtain ⟨j, hj1, hj2, hj3, hj4⟩ := drainM_spec hs hP HP
        ((⟨hC (input.take cs) NotRoot, 1⟩ : SEntry) :: st).length _
        (le_refl _) hent1
      have hdne : (drainM hP (⟨hC (input.take cs) NotRoot, 1⟩ :: st)).2
          ≠ [] := hj3 (by simp)
      have hlen' : (input.drop cs).length ≤ n := by
        rw [List.length_drop]
        omega
      have hne' : input.drop cs ≠ [] := h
      obtain ⟨body', hb1, hb2⟩ := ih (input.drop cs) _ _ hlen' hne' hj4
      refine ⟨input.take cs
        ++ (drainM hP (⟨hC (input.take cs) NotRoot, 1⟩ :: st)).1 ++ body',
        by rw [hb1]; simp, ?_⟩
      have hdl : (input.drop cs).length = input.length - cs :=
        List.length_drop cs input
      have hccM : countChunks cs input.length
          = countChunks cs (input.length - cs) + 1 := by
        have := countChunks_add (M := input.length - cs) (by omega) hcs
        rw [show input.length - cs + cs = input.length by omega] at this
        exact this
      obtain ⟨k, hk⟩ : ∃ k,
          ((drainM hP (⟨hC (input.take cs) NotRoot, 1⟩ :: st)).2).length
            = k := ⟨_, rfl⟩
      have hk1 : 1 ≤ k := by
        rw [← hk]
        cases hdd : (drainM hP (⟨hC (input.take cs) NotRoot, 1⟩ :: st)).2
        · exact absurd hdd hdne
        · simp [hdd]
      obtain ⟨M1, hM1⟩ : ∃ M1, countChunks cs (input.length - cs) - 1 = M1 :=
        ⟨_, rfl⟩
      have hM1pos := countChunks_pos cs (input.length - cs)
      simp only [List.length_cons] at hj1
      rw [hk] at hj1 hb2
      rw [List.length_append, List.length_append, htk, hj2, hb2, hdl, hM1]
      rw [show countChunks cs input.length - 1
        = countChunks cs (input.length - cs) - 1 + 1 by omega, hM1]
      obtain ⟨u, hu⟩ : ∃ u, k = u + 1 := ⟨k - 1, by omega⟩
      obtain ⟨s, hse⟩ : ∃ s, st.length = s := ⟨_, rfl⟩
      rw [hse] at hj1 ⊢
      rw [hu] at hj1 hb2 ⊢
      have hsj : s + 1 = u + 1 + j := hj1
      have e1 : 2 * hs * (u + 1 + M1) = 2 * hs * u + 2 * hs + 2 * hs * M1 := by
        ring
      have e2 : 2 * hs * (s + (M1 + 1))
          = 2 * hs * s + 2 * hs + 2 * hs * M1 := by ring
      have e3 : 2 * hs * s = 2 * hs * u + 2 * hs * j := by
        have : s = u + j := by omega
        rw [this]
        ring
      omega

/-- Output structure of `encode_post_order`: a body of exactly
`encoded_subtree_size` bytes followed by the 8-byte length header. -/
theorem encodePostOrder_struct (cs hs : Nat)
    (hC hP : List Nat → Finalization → List Nat)
    (HC : ∀ b f, (hC b f).length = hs) (HP : ∀ b f, (hP b f).length = hs)
    (hcs : 0 < cs) (input : List Nat) :
    ∃ body, (encodePostOrder cs hC hP hcs input).1
        = body ++ encodeLen input.length ∧
      body.length = encodedSubtreeSize cs hs input.length := by
  unfold encodePostOrder
  by_cases h : input.length ≤ cs
  · rw [if_pos h]
    refine ⟨input, rfl, ?_⟩
    unfold encodedSubtreeSize
    rw [countChunks_le_cs hcs h]
    simp
  · rw [if_neg h]
    have hne : input ≠ [] := by
      intro hnil
      rw [hnil] at h
      simp at h
    obtain ⟨body, hb1, hb2⟩ := epoLoop_struct cs hs hC hP HC HP
      (Root input.length) (encodeLen input.length) hcs input.length input []
      [] (le_refl _) hne (by simp)
    refine ⟨body, by rw [hb1]; simp, ?_⟩
    rw [hb2]
    unfold encodedSubtreeSize
    simp only [List.length_nil, Nat.zero_add]
    exact congrArg (fun t => input.length + t)
      (Nat.mul_comm (2 * hs) (countChunks cs input.length - 1))

theorem next_ext {cs : Nat} {fs1 fs2 : FlipperState}
    (h1 : fs1.contentLen = fs2.contentLen)
    (h2 : fs1.chunkMoved = fs2.chunkMoved)
    (h3 : fs1.parentsNeeded = fs2.parentsNeeded)
    (h4 : fs1.parentsAvailable = fs2.parentsAvailable) :
    FlipperState.next cs fs1 = FlipperState.next cs fs2 := by
  unfold FlipperState.next
  rw [h1, h2, h3, h4]

/-- The flipper's control flow ignores the buffered payload bytes: the
event trace depends only on the four counters. -/
theorem flipTrace_ext (cs : Nat) :
    ∀ n fs1 fs2, (flipTrace cs fs1).length ≤ n →
      fs1.contentLen = fs2.contentLen → fs1.chunkMoved = fs2.chunkMoved →
      fs1.parentsNeeded = fs2.parentsNeeded →
      fs1.parentsAvailable = fs2.parentsAvailable →
      flipTrace cs fs1 = flipTrace cs fs2 := by
  intro n
  induction n with
  | zero =>
    intro fs1 fs2 hlen h1 h2 h3 h4
    rcases hnext : FlipperState.next cs fs1 with _ | _ | sz | _
    · rw [flipTrace_feed hnext] at hlen
      simp at hlen
    · rw [flipTrace_take hnext] at hlen
      simp at hlen
    · rw [flipTrace_chunk hnext] at hlen
      simp at hlen
    · rw [flipTrace_done hnext,
        flipTrace_done ((next_ext h1 h2 h3 h4).symm.trans hnext)]
  | succ n ih =>
    intro fs1 fs2 hlen h1 h2 h3 h4
    have hnn : FlipperState.next cs fs2 = FlipperState.next cs fs1 :=
      (next_ext h1 h2 h3 h4).symm
    rcases hnext : FlipperState.next cs fs1 with _ | _ | sz | _
    · rw [flipTrace_feed hnext, flipTrace_feed (hnn.trans hnext)]
      rw [flipTrace_feed hnext] at hlen
      refine congrArg (List.cons _) (ih _ _ (by simpa using hlen) ?_ ?_ ?_ ?_)
        <;> simp [FlipperState.feedParent, h1, h2, h3, h4]
    · rw [flipTrace_take hnext, flipTrace_take (hnn.trans hnext)]
      rw [flipTrace_take hnext] at hlen
      refine congrArg (List.cons _) (ih _ _ (by simpa using hlen) ?_ ?_ ?_ ?_)
        <;> simp [FlipperState.takeParent, h1, h2, h3, h4]
    · have hnext2 : FlipperState.next cs fs2 = .Chunk sz := hnn.trans hnext
      rw [flipTrace_chunk hnext, flipTrace_chunk hnext2]
      rw [flipTrace_chunk hnext] at hlen
      refine congrArg (List.cons _) (ih _ _ (by simpa using hlen) ?_ ?_ ?_ ?_)
        <;> simp [FlipperState.chunkMovedFn, h1, h2, h3, h4]
    · rw [flipTrace_done hnext, flipTrace_done (hnn.trans hnext)]

theorem flipLoop_feed {cs hs : Nat} {header : List Nat} {fs : FlipperState}
    {buf : List Nat} {rc wc : Nat}
    (h : FlipperState.next cs fs = .FeedParent) :
    flipLoop cs hs header fs buf rc wc
      = flipLoop cs hs header
          (fs.feedParent (getRange buf (rc - 2 * hs) (2 * hs))) buf
          (rc - 2 * hs) wc := by
  rw [flipLoop]
  split <;> simp_all

theorem flipLoop_take {cs hs : Nat} {header : List Nat} {fs : FlipperState}
    {buf : List Nat} {rc wc : Nat}
    (h : FlipperState.next cs fs = .TakeParent) :
    flipLoop cs hs header fs buf rc wc
      = flipLoop cs hs header fs.takeParent.2
          (setRange buf (wc - 2 * hs) fs.takeParent.1) rc (wc - 2 * hs) := by
  rw [flipLoop]
  split <;> simp_all

theorem flipLoop_chunk {cs hs : Nat} {header : List Nat} {fs : FlipperState}
    {buf : List Nat} {rc wc : Nat} {sz : Nat}
    (h : FlipperState.next cs fs = .Chunk sz) :
    flipLoop cs hs header fs buf rc wc
      = flipLoop cs hs header (FlipperState.chunkMovedFn cs fs)
          (setRange buf (wc - sz) (getRange buf (rc - sz) sz)) (rc - sz)
          (wc - sz) := by
  rw [flipLoop]
  split <;> simp_all

theorem flipLoop_done {cs hs : Nat} {header : List Nat} {fs : FlipperState}
    {buf : List Nat} {rc wc : Nat}
    (h : FlipperState.next cs fs = .Done) :
    flipLoop cs hs header fs buf rc wc = (setRange buf 0 header, wc) := by
  rw [flipLoop]
  split <;> simp_all

/-- From any invariant state, the bytes the flipper will still write exceed
the bytes it will still read by exactly the buffered parents. -/
theorem written_read_gap (cs hs L : Nat) (hcs : 0 < cs) (hL : L < 2 ^ 64)
    (fs : FlipperState) (hinv : Inv cs L fs) :
    writtenBytes hs (flipTrace cs fs)
      = readBytes hs (flipTrace cs fs) + 2 * hs * fs.parents.length := by
  obtain ⟨hA, hB, hD⟩ := flipTrace_spec cs L hcs hL (flipTrace cs fs).length
    fs (le_refl _) hinv
  rw [readBytes_eq, writtenBytes_eq, hA, hB]
  ring

/-- Master lemma for the in-place flip loop: whenever the cursors equal the
bytes the remaining trace will read and write (plus the header room), every
buffer access stays in bounds, the buffer keeps its length, the final
buffer starts with the 8-byte header, and the loop returns the write
cursor at exactly `HEADER_SIZE`. -/
theorem flipLoop_master (cs hs L : Nat) (hcs : 0 < cs) (hL : L < 2 ^ 64)
    (header : List Nat) (hh : header.length = HEADER_SIZE) :
    ∀ n fs buf rc wc, (flipTrace cs fs).length ≤ n → Inv cs L fs →
      rc = readBytes hs (flipTrace cs fs) →
      wc = writtenBytes hs (flipTrace cs fs) + HEADER_SIZE →
      wc ≤ buf.length →
      (∀ p ∈ fs.parents, p.length = 2 * hs) →
      (flipLoop cs hs header fs buf rc wc).1.length = buf.length ∧
      (flipLoop cs hs header fs buf rc wc).1.take HEADER_SIZE = header ∧
      (flipLoop cs hs header fs buf rc wc).2 = HEADER_SIZE := by
  intro n
  induction n with
  | zero =>
    intro fs buf rc wc hlen hinv hrc hwc hb hpar
    rcases hnext : FlipperState.next cs fs with _ | _ | sz | _
    · rw [flipTrace_feed hnext] at hlen
      simp at hlen
    · rw [flipTrace_take hnext] at hlen
      simp at hlen
    · rw [flipTrace_chunk hnext] at hlen
      simp at hlen
    · rw [flipTrace_done hnext] at hrc hwc
      simp only [writtenBytes, List.map_nil, List.sum_nil, Nat.zero_add]
        at hwc
      rw [flipLoop_done hnext]
      have hsetlen : (setRange buf 0 header).length = buf.length :=
        setRange_length (by omega)
      refine ⟨hsetlen, ?_, hwc⟩
      have hset : setRange buf 0 header
          = header ++ buf.drop (0 + header.length) := by
        simp [setRange]
      rw [hset, ← hh, List.take_left]
  | succ n ih =>
    intro fs buf rc wc hlen hinv hrc hwc hb hpar
    have hgap := written_read_gap cs hs L hcs hL fs hinv
    have hrcwc : rc ≤ wc := by
      rw [hrc, hwc, hgap]
      omega
    rcases hnext : FlipperState.next cs fs with _ | _ | sz | _
    · -- FeedParent
      rw [flipTrace_feed hnext] at hlen hrc hwc
      rw [readBytes_cons] at hrc
      rw [writtenBytes_cons] at hwc
      simp only [evRead, evWrite, Nat.zero_add] at hrc hwc
      have hrc2 : 2 * hs ≤ rc := by omega
      have hpl : (getRange buf (rc - 2 * hs) (2 * hs)).length = 2 * hs :=
        getRange_length (by omega)
      have htr' : flipTrace cs
            (fs.feedParent (getRange buf (rc - 2 * hs) (2 * hs)))
          = flipTrace cs (fs.feedParent []) :=
        flipTrace_ext cs
          (flipTrace cs
            (fs.feedParent (getRange buf (rc - 2 * hs) (2 * hs)))).length
          _ _ (le_refl _) rfl rfl rfl rfl
      have hinv' : Inv cs L
          (fs.feedParent (getRange buf (rc - 2 * hs) (2 * hs))) :=
        (inv_feed _ hcs hL hinv hnext).2
      have hpar' : ∀ p ∈
          (fs.feedParent (getRange buf (rc - 2 * hs) (2 * hs))).parents,
          p.length = 2 * hs := by
        intro p hp
        rcases List.mem_cons.mp hp with hp | hp
        · rw [hp]
          exact hpl
        · exact hpar p hp
      rw [flipLoop_feed hnext]
      exact ih _ buf (rc - 2 * hs) wc
        (by rw [htr']; simp at hlen; omega) hinv'
        (by rw [htr']; omega) (by rw [htr']; omega) hb hpar'
    · -- TakeParent
      rw [flipTrace_take hnext] at hlen hrc hwc
      rw [readBytes_cons] at hrc
      rw [writtenBytes_cons] at hwc
      simp only [evRead, evWrite, Nat.zero_add] at hrc hwc
      obtain ⟨hne, hinv'⟩ := inv_take hcs hL hinv hnext
      have hwc2 : 2 * hs + HEADER_SIZE ≤ wc := by
        unfold HEADER_SIZE at hwc ⊢
        omega
      have hplen : fs.takeParent.1.length = 2 * hs := by
        cases hps : fs.parents with
        | nil => exact absurd hps hne
        | cons q qs =>
          have : fs.takeParent.1 = q := by
            simp [FlipperState.takeParent, hps]
          rw [this]
          exact hpar q (by rw [hps]; simp)
      have hblen : (setRange buf (wc - 2 * hs) fs.takeParent.1).length
          = buf.length := by
        apply setRange_length
        rw [hplen]
        omega
      have hpar' : ∀ p ∈ fs.takeParent.2.parents, p.length = 2 * hs := by
        intro p hp
        have hmem : p ∈ fs.parents := by
          have : fs.takeParent.2.parents = fs.parents.tail := rfl
          rw [this] at hp
          exact List.mem_of_mem_tail hp
        exact hpar p hmem
      rw [flipLoop_take hnext]
      have hres := ih fs.takeParent.2
        (setRange buf (wc - 2 * hs) fs.takeParent.1) rc (wc - 2 * hs)
        (by simp at hlen; omega) hinv' (by omega)
        (by unfold HEADER_SIZE at hwc ⊢; omega)
        (by rw [hblen]; omega) hpar'
      rw [hblen] at hres
      exact hres
    · -- Chunk
      rw [flipTrace_chunk hnext] at hlen hrc hwc
      rw [readBytes_cons] at hrc
      rw [writtenBytes_cons] at hwc
      simp only [evRead, evWrite] at hrc hwc
      have hszrc : sz ≤ rc := by omega
      have hdl : (getRange buf (rc - sz) sz).length = sz :=
        getRange_length (by omega)
      have hblen : (setRange buf (wc - sz)
          (getRange buf (rc - sz) sz)).length = buf.length := by
        apply setRange_length
        rw [hdl]
        unfold HEADER_SIZE at hwc
        omega
      have hinv' := inv_chunk hcs hL hinv hnext
      have hpar' : ∀ p ∈ (FlipperState.chunkMovedFn cs fs).parents,
          p.length = 2 * hs := by
        intro p hp
        exact hpar p hp
      rw [flipLoop_chunk hnext]
      have hres := ih (FlipperState.chunkMovedFn cs fs)
        (setRange buf (wc - sz) (getRange buf (rc - sz) sz)) (rc - sz)
        (wc - sz) (by simp at hlen; omega) hinv' (by omega)
        (by unfold HEADER_SIZE at hwc ⊢; omega)
        (by rw [hblen]; unfold HEADER_SIZE at hwc; omega) hpar'
      rw [hblen] at hres
      exact hres
    · rw [flipTrace_done hnext] at hrc hwc
      simp only [writtenBytes, List.map_nil, List.sum_nil, Nat.zero_add]
        at hwc
      rw [flipLoop_done hnext]
      have hsetlen : (setRange buf 0 header).length = buf.length :=
        setRange_length (by omega)
      refine ⟨hsetlen, ?_, hwc⟩
      have hset : setRange buf 0 header
          = header ++ buf.drop (0 + header.length) := by
        simp [setRange]
      rw [hset, ← hh, List.take_left]

/-- `flip_in_place` on a well-formed post-order buffer (body of
`encoded_subtree_size` bytes plus the length header) keeps the buffer
length and moves the header to the front. -/
theorem flipInPlace_spec (cs hs L : Nat) (hcs : 0 < cs) (hL : L < 2 ^ 64)
    (body : List Nat) (hbl : body.length = encodedSubtreeSize cs hs L) :
    (flipInPlace cs hs (body ++ encodeLen L)).length
        = (body ++ encodeLen L).length ∧
    (flipInPlace cs hs (body ++ encodeLen L)).take HEADER_SIZE
      = encodeLen L := by
  have hel : (encodeLen L).length = HEADER_SIZE := encodeLen_length L
  have hlen : (body ++ encodeLen L).length
      = encodedSubtreeSize cs hs L + HEADER_SIZE := by
    rw [List.length_append, hbl, hel]
  have hsub : (body ++ encodeLen L).length - HEADER_SIZE = body.length := by
    omega
  have hheader : getRange (body ++ encodeLen L)
      ((body ++ encodeLen L).length - HEADER_SIZE) HEADER_SIZE
      = encodeLen L := by
    rw [hsub]
    unfold getRange
    rw [List.drop_left, ← hel, List.take_length]
  have hdec : decodeLen (encodeLen L) = L := decodeLen_encodeLen hL
  obtain ⟨hA, hB, hD, hR, hW⟩ := flip_totals cs hs L hcs hL
  have hml := flipLoop_master cs hs L hcs hL (encodeLen L) hel
    (flipTrace cs (FlipperState.new cs L)).length (FlipperState.new cs L)
    (body ++ encodeLen L) ((body ++ encodeLen L).length - HEADER_SIZE)
    (body ++ encodeLen L).length (le_refl _) (inv_new cs L)
    (by
      rw [hR, hsub, hbl]
      unfold encodedSubtreeSize
      have : (countChunks cs L - 1) * (2 * hs)
          = 2 * hs * (countChunks cs L - 1) := Nat.mul_comm _ _
      omega)
    (by
      rw [hW, hlen]
      unfold encodedSubtreeSize
      have : (countChunks cs L - 1) * (2 * hs)
          = 2 * hs * (countChunks cs L - 1) := Nat.mul_comm _ _
      omega)
    (le_refl _) (by simp [FlipperState.new])
  unfold flipInPlace
  rw [hheader, hdec]
  exact ⟨hml.1, hml.2.1⟩

/-- C2: for every input, `encode` returns an output buffer of exactly
`encoded_size(L)` bytes whose first `HEADER_SIZE` bytes are the
little-endian encoding of the content length `L`, so decoding them yields
`L` back. -/
theorem c2_encode_size_and_header (cs hs : Nat)
    (hC hP : List Nat → Finalization → List Nat)
    (HC : ∀ b f, (hC b f).length = hs) (HP : ∀ b f, (hP b f).length = hs)
    (hcs : 0 < cs) (input : List Nat) (hL : input.length < 2 ^ 64) :
    (encode cs hs hC hP hcs input).2.length = encodedSize cs hs input.length ∧
    (encode cs hs hC hP hcs input).2.take HEADER_SIZE
        = encodeLen input.length ∧
    decodeLen ((encode cs hs hC hP hcs input).2.take HEADER_SIZE)
        = input.length := by
  obtain ⟨body, hb1, hb2⟩ :=
    encodePostOrder_struct cs hs hC hP HC HP hcs input
  have henc : (encode cs hs hC hP hcs input).2
      = flipInPlace cs hs (body ++ encodeLen input.length) := by
    unfold encode
    rw [hb1]
  obtain ⟨hf1, hf2⟩ := flipInPlace_spec cs hs input.length hcs hL body hb2
  rw [henc]
  refine ⟨?_, hf2, by rw [hf2]; exact decodeLen_encodeLen hL⟩
  rw [hf1, List.length_append, hb2, encodeLen_length]
  rfl

/-- Witness for C2 at `CHUNK_SIZE = 2`, `HASH_SIZE = 1`, constant hash
functions, on the 3-byte input `[1, 2, 3]`. -/
theorem c2_encode_size_and_header_witness :
    0 < 2 ∧ ([1, 2, 3] : List Nat).length < 2 ^ 64 ∧
      (encode 2 1 (fun _ _ => [0]) (fun _ _ => [0]) (Nat.succ_pos 1)
          [1, 2, 3]).2.length = encodedSize 2 1 3 :=
  ⟨by decide, by decide,
    (c2_encode_size_and_header 2 1 (fun _ _ => [0]) (fun _ _ => [0])
      (fun _ _ => rfl) (fun _ _ => rfl) (Nat.succ_pos 1) [1, 2, 3]
      (by decide)).1⟩

theorem log2_eq_of_range {b x : Nat} (h1 : 2 ^ b ≤ x) (h2 : x < 2 ^ (b + 1)) :
    Nat.log2 x = b := by
  have hbp : (0:Nat) < 2 ^ b := pow_pos (by norm_num) b
  have hx : x ≠ 0 := by omega
  have ha := Nat.log2_self_le hx
  have hb := Nat.lt_log2_self (n := x)
  have h3 : (2:Nat) ^ Nat.log2 x < 2 ^ (b + 1) := lt_of_le_of_lt ha h2
  have h4 : (2:Nat) ^ b < 2 ^ (Nat.log2 x + 1) := lt_of_le_of_lt h1 hb
  have h5 := (Nat.pow_lt_pow_iff_right (by norm_num : 1 < 2)).mp h3
  have h6 := (Nat.pow_lt_pow_iff_right (by norm_num : 1 < 2)).mp h4
  omega

/-- The bao split rule picks the leading complete power: when `2^b` chunks
are followed by `1 ≤ R ≤ 2^b` more, the split is at `2^b`. -/
theorem splitPoint_pow_add {b R : Nat} (h1 : 1 ≤ R) (h2 : R ≤ 2 ^ b) :
    splitPoint (2 ^ b + R) = 2 ^ b := by
  unfold splitPoint
  have hbp : (0:Nat) < 2 ^ b := pow_pos (by norm_num) b
  have he : (2:Nat) ^ (b + 1) = 2 ^ b + 2 ^ b := by
    rw [pow_succ]
    omega
  have hlog : Nat.log2 (2 ^ b + R - 1) = b :=
    log2_eq_of_range (by omega) (by omega)
  rw [hlog]

theorem countChunks_mul_cs {cs m : Nat} (hcs : 0 < cs) (hm : 1 ≤ m) :
    countChunks cs (m * cs) = m := by
  unfold countChunks
  have hdiv : m * cs / cs = m := Nat.mul_div_left m hcs
  have hmod : m * cs % cs = 0 := Nat.mul_mod_left m cs
  rw [hdiv, hmod, if_neg (by simp)]
  omega

theorem countChunks_pred_mul_lt {cs L : Nat} (hcs : 0 < cs) (hL : 1 ≤ L) :
    (countChunks cs L - 1) * cs < L := by
  unfold countChunks
  have hdm := Nat.div_add_mod L cs
  obtain ⟨q, hq⟩ : ∃ q, L / cs = q := ⟨_, rfl⟩
  rw [hq] at hdm ⊢
  by_cases hr : L % cs ≠ 0
  · rw [if_pos hr]
    have hmax : max 1 (q + 1) = q + 1 := by omega
    rw [hmax]
    simp only [Nat.add_sub_cancel]
    have hco : q * cs = cs * q := Nat.mul_comm q cs
    omega
  · rw [if_neg hr]
    push_neg at hr
    rcases Nat.eq_zero_or_pos q with hq0 | hq0
    · rw [hq0] at hdm
      simp at hdm
      omega
    · have hmax : max 1 (q + 0) = q := by omega
      rw [hmax]
      obtain ⟨p, hp⟩ : ∃ p, q = p + 1 := ⟨q - 1, by omega⟩
      rw [hp] at hdm ⊢
      simp only [Nat.add_sub_cancel]
      have hco : p * cs = cs * p := Nat.mul_comm p cs
      have hcm : cs * (p + 1) = cs * p + cs := by ring
      omega

theorem countChunks_sub_mul {cs L : Nat} (hcs : 0 < cs) :
    ∀ c, c < countChunks cs L → 1 ≤ L →
      countChunks cs (L - c * cs) = countChunks cs L - c := by
  intro c
  induction c with
  | zero => intro _ _; simp
  | succ c ih =>
    intro hc hL
    have hlt : c < countChunks cs L := by omega
    have hih := ih hlt hL
    have hge2 : 2 ≤ countChunks cs (L - c * cs) := by omega
    have hgtcs : cs < L - c * cs := by
      by_contra hcon
      push_neg at hcon
      rw [countChunks_le_cs hcs hcon] at hge2
      omega
    have hstep := countChunks_add (M := L - c * cs - cs)
      (by omega) hcs
    rw [show L - c * cs - cs + cs = L - c * cs by omega] at hstep
    have hsm : (c + 1) * cs = c * cs + cs := by ring
    rw [show L - (c + 1) * cs = L - c * cs - cs by omega]
    omega

/-- If `2^t` divides a positive number, `t` is at most its trailing-zero
count. -/
theorem le_tzPos_of_pow_dvd {t m : Nat} (hm : m ≠ 0) (hdvd : 2 ^ t ∣ m) :
    t ≤ tzPos m := by
  obtain ⟨o, ho, hrep⟩ := tzPos_decomposition hm
  by_contra hcon
  push_neg at hcon
  obtain ⟨w, hw⟩ := hdvd
  have hsplit : (2:Nat) ^ t = 2 ^ tzPos m * 2 ^ (t - tzPos m) := by
    rw [← pow_add]
    congr 1
    omega
  rw [hsplit, Nat.mul_assoc] at hw
  have hpos : 0 < (2:Nat) ^ tzPos m := pow_pos (by norm_num) _
  have hcancel : o = 2 ^ (t - tzPos m) * w :=
    Nat.eq_of_mul_eq_mul_left hpos (hrep.symm.trans hw)
  obtain ⟨j, hj⟩ : ∃ j, t - tzPos m = j + 1 := ⟨t - tzPos m - 1, by omega⟩
  rw [hj, pow_succ] at hcancel
  have he : 2 ^ j * 2 * w = 2 * (2 ^ j * w) := by ring
  omega

/-- Adding `2^j` below the lowest set bit makes `j` the new lowest bit. -/
theorem tzPos_add_pow_lt {c j : Nat} (hc : c ≠ 0) (hj : j < tzPos c) :
    tzPos (c + 2 ^ j) = j := by
  obtain ⟨o, ho, hrep⟩ := tzPos_decomposition hc
  obtain ⟨t, ht⟩ : ∃ t, tzPos c = t := ⟨_, rfl⟩
  rw [ht] at hj hrep
  have hsplit : (2:Nat) ^ t = 2 ^ j * 2 ^ (t - j) := by
    rw [← pow_add]
    congr 1
    omega
  have he : c + 2 ^ j = 2 ^ j * (2 ^ (t - j) * o + 1) := by
    rw [hrep, hsplit]
    ring
  rw [he, tzPos_pow_mul]
  obtain ⟨i, hi⟩ : ∃ i, t - j = i + 1 := ⟨t - j - 1, by omega⟩
  rw [hi, pow_succ]
  have he2 : 2 ^ i * 2 * o = 2 * (2 ^ i * o) := by ring
  omega

/-- Clearing the lowest set bit leaves a multiple of the next power. -/
theorem pow_succ_dvd_sub_pow {c : Nat} (hc : c ≠ 0) :
    2 ^ (tzPos c + 1) ∣ c - 2 ^ tzPos c := by
  obtain ⟨o, ho, hrep⟩ := tzPos_decomposition hc
  obtain ⟨u, hu⟩ : ∃ u, o = 2 * u + 1 := ⟨o / 2, by omega⟩
  obtain ⟨t, ht⟩ : ∃ t, tzPos c = t := ⟨_, rfl⟩
  rw [ht] at hrep ⊢
  refine ⟨u, ?_⟩
  rw [hrep, hu]
  have he : 2 ^ t * (2 * u + 1) = 2 ^ (t + 1) * u + 2 ^ t := by ring
  omega

theorem two_le_countChunks {cs L : Nat} (hcs : 0 < cs) (h : cs < L) :
    2 ≤ countChunks cs L := by
  have hub := le_countChunks_mul cs L hcs
  have h1 := countChunks_pos cs L
  by_contra hcon
  push_neg at hcon
  have h2 : countChunks cs L = 1 := by omega
  rw [h2] at hub
  simp at hub
  omega

/-- The brute-force reference hash from the spec: a subtree of one chunk is
`hash_chunk`; a larger subtree splits its chunk count at the largest power
of two strictly below it (left child complete, `NotRoot` on both children)
and hashes `left_hash || right_hash` with `hash_parent`; the requested
finalization is used only at the top node. -/
def bruteHash (cs : Nat) (hC hP : List Nat → Finalization → List Nat)
    (hcs : 0 < cs) (input : List Nat) (fin : Finalization) : List Nat :=
  if h : input.length ≤ cs then hC input fin
  else
    hP (bruteHash cs hC hP hcs
          (input.take (splitPoint (countChunks cs input.length) * cs)) NotRoot
        ++ bruteHash cs hC hP hcs
          (input.drop (splitPoint (countChunks cs input.length) * cs)) NotRoot)
      fin
termination_by input.length
decreasing_by
  · have hN : 2 ≤ countChunks cs input.length :=
      two_le_countChunks hcs (by omega)
    have hsp := splitPoint_le hN
    have hpred := countChunks_pred_mul_lt (L := input.length) hcs
      (by omega)
    have hmul : splitPoint (countChunks cs input.length) * cs
        ≤ (countChunks cs input.length - 1) * cs :=
      Nat.mul_le_mul_right cs hsp
    rw [List.length_take]
    omega
  · have hsppos := splitPoint_pos (countChunks cs input.length)
    rw [List.length_drop]
    have : 0 < splitPoint (countChunks cs input.length) * cs :=
      Nat.mul_pos hsppos hcs
    omega

theorem bruteHash_leaf {cs : Nat} {hC hP : List Nat → Finalization → List Nat}
    {hcs : 0 < cs} {input : List Nat} {fin : Finalization}
    (h : input.length ≤ cs) :
    bruteHash cs hC hP hcs input fin = hC input fin := by
  conv_lhs => rw [bruteHash]
  rw [dif_pos h]

theorem bruteHash_node {cs : Nat} {hC hP : List Nat → Finalization → List Nat}
    {hcs : 0 < cs} {input : List Nat} {fin : Finalization}
    (h : ¬ input.length ≤ cs) :
    bruteHash cs hC hP hcs input fin
      = hP (bruteHash cs hC hP hcs
            (input.take (splitPoint (countChunks cs input.length) * cs)) NotRoot
          ++ bruteHash cs hC hP hcs
            (input.drop (splitPoint (countChunks cs input.length) * cs)) NotRoot)
        fin := by
  conv_lhs => rw [bruteHash]
  rw [dif_neg h]

/-- The subtree stack contents after `c` full chunks have been pushed and
merged: one complete subtree per set bit of `c`, lowest bit (rightmost
chunks) on top. -/
def idealStack (cs : Nat) (hC hP : List Nat → Finalization → List Nat)
    (hcs : 0 < cs) (input : List Nat) (c : Nat) : List SEntry :=
  if h : c = 0 then [] else
    ⟨bruteHash cs hC hP hcs
        (getRange input ((c - 2 ^ tzPos c) * cs) (2 ^ tzPos c * cs)) NotRoot,
      2 ^ tzPos c⟩
      :: idealStack cs hC hP hcs input (c - 2 ^ tzPos c)
termination_by c
decreasing_by
  have h1 : 0 < 2 ^ tzPos c := pow_pos (by norm_num) _
  have h2 := tzPos_pow_le (n := c) h
  omega

theorem idealStack_zero (cs : Nat)
    (hC hP : List Nat → Finalization → List Nat) (hcs : 0 < cs)
    (input : List Nat) : idealStack cs hC hP hcs input 0 = [] := by
  rw [idealStack]
  simp

theorem idealStack_pos (cs : Nat)
    (hC hP : List Nat → Finalization → List Nat) (hcs : 0 < cs)
    (input : List Nat) {c : Nat} (h : c ≠ 0) :
    idealStack cs hC hP hcs input c
      = ⟨bruteHash cs hC hP hcs
            (getRange input ((c - 2 ^ tzPos c) * cs) (2 ^ tzPos c * cs))
            NotRoot,
          2 ^ tzPos c⟩
        :: idealStack cs hC hP hcs input (c - 2 ^ tzPos c) := by
  conv_lhs => rw [idealStack]
  rw [dif_neg h]

theorem getRange_take {buf : List Nat} {p n m : Nat} (h : m ≤ n) :
    (getRange buf p n).take m = getRange buf p m := by
  unfold getRange
  rw [List.take_take]
  rw [Nat.min_eq_left h]

theorem getRange_drop (buf : List Nat) (p n m : Nat) :
    (getRange buf p n).drop m = getRange buf (p + m) (n - m) := by
  unfold getRange
  rw [List.drop_take, List.drop_drop]

theorem getRange_zero (buf : List Nat) (n : Nat) :
    getRange buf 0 n = buf.take n := by
  unfold getRange
  rw [List.drop_zero]

theorem idealStack_pow (cs : Nat)
    (hC hP : List Nat → Finalization → List Nat) (hcs : 0 < cs)
    (input : List Nat) (j : Nat) :
    idealStack cs hC hP hcs input (2 ^ j)
      = [⟨bruteHash cs hC hP hcs (getRange input (0 * cs) (2 ^ j * cs))
            NotRoot, 2 ^ j⟩] := by
  have hne : (2:Nat) ^ j ≠ 0 := by positivity
  rw [idealStack_pos cs hC hP hcs input hne, tzPos_pow]
  rw [Nat.sub_self, idealStack_zero]

/-- Pushing the hash of a complete subtree of `2^j` chunks ending at chunk
`c + 2^j` onto the stack for `c` and running the `merge_parent` drain
yields exactly the stack for `c + 2^j`, provided `2^j` divides `c`. -/
theorem drain_general (cs : Nat)
    (hC hP : List Nat → Finalization → List Nat) (hcs : 0 < cs)
    (input0 : List Nat) :
    ∀ n c j, c ≤ n → 2 ^ j ∣ c → (c + 2 ^ j) * cs ≤ input0.length →
      (drainM hP
          (⟨bruteHash cs hC hP hcs (getRange input0 (c * cs) (2 ^ j * cs))
              NotRoot, 2 ^ j⟩ :: idealStack cs hC hP hcs input0 c)).2
        = idealStack cs hC hP hcs input0 (c + 2 ^ j) := by
  intro n
  induction n with
  | zero =>
    intro c j hcn _ _
    have hc0 : c = 0 := by omega
    subst hc0
    rw [idealStack_zero, drainM_one, Nat.zero_add, idealStack_pow]
  | succ n ih =>
    intro c j hcn hdvd hbound
    by_cases hc0 : c = 0
    · subst hc0
      rw [idealStack_zero, drainM_one, Nat.zero_add, idealStack_pow]
    · obtain ⟨t, ht⟩ : ∃ t, tzPos c = t := ⟨_, rfl⟩
      have hjt : j ≤ t := ht ▸ le_tzPos_of_pow_dvd hc0 hdvd
      have hkle : 2 ^ t ≤ c := ht ▸ tzPos_pow_le hc0
      have hjp : (0:Nat) < 2 ^ j := pow_pos (by norm_num) j
      have htp : (0:Nat) < 2 ^ t := pow_pos (by norm_num) t
      rw [idealStack_pos cs hC hP hcs input0 hc0, ht]
      rcases Nat.lt_or_ge j t with hlt | hge
      · -- no merge: the new lowest bit sits strictly below the old one
        rw [drainM_cons_ne]
        · have hne2 : c + 2 ^ j ≠ 0 := by omega
          rw [idealStack_pos cs hC hP hcs input0 hne2,
            tzPos_add_pow_lt hc0 (by omega), Nat.add_sub_cancel,
            idealStack_pos cs hC hP hcs input0 hc0, ht]
        · simp only []
          intro hcon
          have := Nat.pow_right_injective (le_refl 2) hcon
          omega
      · -- merge: equal sizes, combine and recurse one power higher
        have hjt2 : j = t := by omega
        subst hjt2
        rw [drainM_cons_eq hP
          ⟨bruteHash cs hC hP hcs (getRange input0 (c * cs) (2 ^ j * cs))
              NotRoot, 2 ^ j⟩
          ⟨bruteHash cs hC hP hcs
              (getRange input0 ((c - 2 ^ j) * cs) (2 ^ j * cs)) NotRoot,
            2 ^ j⟩
          (idealStack cs hC hP hcs input0 (c - 2 ^ j)) rfl]
        dsimp only
        have hsz : 2 ^ j + 2 ^ j = 2 ^ (j + 1) := by
          rw [pow_succ]
          omega
        have hpos1 : (c - 2 ^ j) + 2 ^ (j + 1) = c + 2 ^ j := by
          rw [pow_succ]
          omega
        have hposmul : (c - 2 ^ j) * cs + 2 ^ (j + 1) * cs
            = (c + 2 ^ j) * cs := by
          rw [← Nat.add_mul, hpos1]
        have hSlen : (getRange input0 ((c - 2 ^ j) * cs)
            (2 ^ (j + 1) * cs)).length = 2 ^ (j + 1) * cs :=
          getRange_length (by omega)
        have hmerge : bruteHash cs hC hP hcs
            (getRange input0 ((c - 2 ^ j) * cs) (2 ^ (j + 1) * cs)) NotRoot
            = hP (bruteHash cs hC hP hcs
                  (getRange input0 ((c - 2 ^ j) * cs) (2 ^ j * cs)) NotRoot
                ++ bruteHash cs hC hP hcs
                  (getRange input0 (c * cs) (2 ^ j * cs)) NotRoot)
              NotRoot := by
          have hcs2 : cs < 2 ^ (j + 1) * cs := by
            have h2 : (2:Nat) ^ 1 ≤ 2 ^ (j + 1) :=
              Nat.pow_le_pow_right (by norm_num) (by omega)
            have h3 : 1 < 2 ^ (j + 1) := by
              simp at h2
              omega
            have h4 := (Nat.mul_lt_mul_right hcs).mpr h3
            simpa using h4
          rw [bruteHash_node (by rw [hSlen]; omega)]
          rw [hSlen, countChunks_mul_cs hcs (by omega)]
          rw [show splitPoint (2 ^ (j + 1)) = 2 ^ j by
            rw [← hsz]
            exact splitPoint_pow_add (by omega) (le_refl _)]
          rw [getRange_take (Nat.mul_le_mul_right cs
            (Nat.pow_le_pow_right (by norm_num) (by omega)))]
          rw [getRange_drop]
          rw [show (c - 2 ^ j) * cs + 2 ^ j * cs = c * cs by
            rw [← Nat.add_mul]
            congr 1
            omega]
          rw [show 2 ^ (j + 1) * cs - 2 ^ j * cs = 2 ^ j * cs by
            have he : 2 ^ (j + 1) * cs = 2 ^ j * cs + 2 ^ j * cs := by
              rw [pow_succ]
              ring
            omega]
      -- apply the induction hypothesis at c - 2^j with exponent j + 1
        have hdvd' : 2 ^ (j + 1) ∣ c - 2 ^ j := by
          have := pow_succ_dvd_sub_pow hc0
          rw [ht] at this
          exact this
        have hih := ih (c - 2 ^ j) (j + 1) (by omega) hdvd'
          (by rw [hpos1]; exact hbound)
        rw [hpos1] at hih
        rw [hmerge, ← hsz] at hih
        exact hih

theorem drop_drop_mul {l : List Nat} (a b cs : Nat) (h : b ≤ a) :
    (l.drop ((a - b) * cs)).drop (b * cs) = l.drop (a * cs) := by
  rw [List.drop_drop, ← Nat.add_mul]
  congr 2
  omega

/-- The split of a bao subtree made of a complete left part of `2^t`
chunks and a right part of `1 ≤ R ≤ 2^t` chunks is exactly between them:
its hash is `hash_parent` of the two children's hashes. -/
theorem brute_merge (cs : Nat) (hC hP : List Nat → Finalization → List Nat)
    (hcs : 0 < cs) (input0 : List Nat) (fin : Finalization)
    (a t R : Nat) (hR1 : 1 ≤ R) (hRk : R ≤ 2 ^ t)
    (hcc : countChunks cs (input0.length - a * cs) = 2 ^ t + R)
    (habound : a * cs ≤ input0.length) :
    bruteHash cs hC hP hcs (input0.drop (a * cs)) fin
      = hP (bruteHash cs hC hP hcs
            (getRange input0 (a * cs) (2 ^ t * cs)) NotRoot
          ++ bruteHash cs hC hP hcs
            (input0.drop ((a + 2 ^ t) * cs)) NotRoot) fin := by
  have htp : (0:Nat) < 2 ^ t := pow_pos (by norm_num) t
  have hSlen : (input0.drop (a * cs)).length = input0.length - a * cs :=
    List.length_drop _ _
  have hgtcs : cs < input0.length - a * cs := by
    by_contra hcon
    push_neg at hcon
    rw [countChunks_le_cs hcs hcon] at hcc
    omega
  rw [bruteHash_node (by rw [hSlen]; omega)]
  rw [hSlen, hcc, splitPoint_pow_add hR1 hRk]
  have htake : (input0.drop (a * cs)).take (2 ^ t * cs)
      = getRange input0 (a * cs) (2 ^ t * cs) := rfl
  have hdrop : (input0.drop (a * cs)).drop (2 ^ t * cs)
      = input0.drop ((a + 2 ^ t) * cs) := by
    have := drop_drop_mul (l := input0) (a + 2 ^ t) (2 ^ t) cs (by omega)
    rw [Nat.add_sub_cancel] at this
    exact this
  rw [htake, hdrop]

/-- Pushing the hash of the final (possibly short) right subtree onto the
stack and running the `merge_finish` loop rolls everything up into the
bao root hash with the requested finalization. -/
theorem finish_general (cs : Nat)
    (hC hP : List Nat → Finalization → List Nat) (hcs : 0 < cs)
    (input0 : List Nat) (fin : Finalization) :
    ∀ n c R, c ≤ n → 1 ≤ c → 1 ≤ R → R ≤ 2 ^ tzPos c →
      c * cs < input0.length →
      countChunks cs input0.length = c + R →
      (finishM hP fin
          (⟨bruteHash cs hC hP hcs (input0.drop (c * cs)) NotRoot, R⟩
            :: idealStack cs hC hP hcs input0 c)).2
        = bruteHash cs hC hP hcs input0 fin := by
  intro n
  induction n with
  | zero =>
    intro c R hcn hc1 _ _ _ _
    omega
  | succ n ih =>
    intro c R hcn hc1 hR1 hRk hclt hN
    have hc0 : c ≠ 0 := by omega
    obtain ⟨t, ht⟩ : ∃ t, tzPos c = t := ⟨_, rfl⟩
    rw [ht] at hRk
    have hkle : 2 ^ t ≤ c := ht ▸ tzPos_pow_le hc0
    have htp : (0:Nat) < 2 ^ t := pow_pos (by norm_num) t
    have hL1 : 1 ≤ input0.length := by omega
    have hclt' : (c - 2 ^ t) < countChunks cs input0.length := by omega
    have hccS : countChunks cs (input0.length - (c - 2 ^ t) * cs)
        = 2 ^ t + R := by
      rw [countChunks_sub_mul hcs (c - 2 ^ t) hclt' hL1, hN]
      omega
    have hmulle : (c - 2 ^ t) * cs ≤ c * cs :=
      Nat.mul_le_mul_right cs (by omega)
    have hmerge := brute_merge cs hC hP hcs input0 NotRoot (c - 2 ^ t) t R
      hR1 hRk hccS (by omega)
    rw [show c - 2 ^ t + 2 ^ t = c by omega] at hmerge
    rw [idealStack_pos cs hC hP hcs input0 hc0, ht]
    by_cases hck : c - 2 ^ t = 0
    · -- the whole prefix is one complete subtree: this is the root merge
      rw [hck, idealStack_zero, finishM_two]
      dsimp only
      have hmergeR := brute_merge cs hC hP hcs input0 fin (c - 2 ^ t) t R
        hR1 hRk hccS (by omega)
      rw [show c - 2 ^ t + 2 ^ t = c by omega, hck] at hmergeR
      rw [Nat.zero_mul] at hmergeR
      rw [List.drop_zero] at hmergeR
      rw [hck, Nat.zero_mul] at *
      rw [← hmergeR]
    · -- interior merge: fold into the next segment and recurse
      have hik : idealStack cs hC hP hcs input0 (c - 2 ^ t) ≠ [] := by
        rw [idealStack_pos cs hC hP hcs input0 hck]
        simp
      rw [finishM_cons hP fin _ _ _ hik]
      dsimp only
      have hdvd' : 2 ^ (t + 1) ∣ c - 2 ^ t := by
        have := pow_succ_dvd_sub_pow hc0
        rw [ht] at this
        exact this
      have htz' : t + 1 ≤ tzPos (c - 2 ^ t) :=
        le_tzPos_of_pow_dvd hck hdvd'
      have hih := ih (c - 2 ^ t) (2 ^ t + R) (by omega) (by omega)
        (by omega)
        (by
          have h1 : 2 ^ t + R ≤ 2 ^ (t + 1) := by
            rw [pow_succ]
            omega
          have h2 : (2:Nat) ^ (t + 1) ≤ 2 ^ tzPos (c - 2 ^ t) :=
            Nat.pow_le_pow_right (by norm_num) htz'
          omega)
        (by omega) (by omega)
      rw [hmerge] at hih
      exact hih

/-- Invariant of the `encode_post_order` loop: after `c` full chunks the
stack is the ideal binary-decomposition stack, and running the loop to the
end produces the bao root hash. -/
theorem epoLoop_hash (cs : Nat) (hC hP : List Nat → Finalization → List Nat)
    (hcs : 0 < cs) (input0 : List Nat) (fin : Finalization)
    (elen : List Nat) :
    ∀ n c acc, input0.length - c * cs ≤ n → 1 ≤ c →
      c * cs < input0.length →
      (epoLoop cs hC hP fin elen hcs (input0.drop (c * cs))
          (idealStack cs hC hP hcs input0 c) acc).2
        = bruteHash cs hC hP hcs input0 fin := by
  intro n
  induction n with
  | zero =>
    intro c acc h1 _ h3
    omega
  | succ n ih =>
    intro c acc hn hc1 hclt
    have hrl : (input0.drop (c * cs)).length = input0.length - c * cs :=
      List.length_drop _ _
    have hsm : (c + 1) * cs = c * cs + cs := by ring
    by_cases hlast : (input0.drop (c * cs)).drop cs = []
    · rw [epoLoop_last cs hC hP fin elen hcs _ _ _ hlast]
      have hrle : (input0.drop (c * cs)).length ≤ cs := by
        have hdl := List.length_drop cs (input0.drop (c * cs))
        rw [hlast] at hdl
        simp at hdl
        omega
      have htk : (input0.drop (c * cs)).take cs = input0.drop (c * cs) :=
        List.take_of_length_le hrle
      rw [htk]
      have hleaf : hC (input0.drop (c * cs)) NotRoot
          = bruteHash cs hC hP hcs (input0.drop (c * cs)) NotRoot :=
        (bruteHash_leaf (by omega)).symm
      rw [hleaf]
      have hcN : c < countChunks cs input0.length := by
        have hub := le_countChunks_mul cs input0.length hcs
        by_contra hcon
        push_neg at hcon
        have : countChunks cs input0.length * cs ≤ c * cs :=
          Nat.mul_le_mul_right cs hcon
        omega
      have hN : countChunks cs input0.length = c + 1 := by
        have hsub := countChunks_sub_mul (L := input0.length)
          hcs c hcN (by omega)
        have hone : countChunks cs (input0.length - c * cs) = 1 :=
          countChunks_le_cs hcs (by omega)
        omega
      exact finish_general cs hC hP hcs input0 fin c c 1 (le_refl c) hc1
        (le_refl 1) (Nat.one_le_two_pow) hclt hN
    · rw [epoLoop_step cs hC hP fin elen hcs _ _ _ hlast]
      have hgt : cs < (input0.drop (c * cs)).length := by
        rcases Nat.lt_or_ge cs (input0.drop (c * cs)).length with h1 | h1
        · exact h1
        · rw [List.drop_eq_nil_of_le h1] at hlast
          exact absurd rfl hlast
      have hchunk : (⟨hC ((input0.drop (c * cs)).take cs) NotRoot, 1⟩
            : SEntry)
          = ⟨bruteHash cs hC hP hcs
              (getRange input0 (c * cs) (2 ^ 0 * cs)) NotRoot, 2 ^ 0⟩ := by
        have hr : getRange input0 (c * cs) (2 ^ 0 * cs)
            = (input0.drop (c * cs)).take cs := by
          rw [pow_zero, Nat.one_mul]
          rfl
        rw [hr, pow_zero]
        have hlt : ((input0.drop (c * cs)).take cs).length ≤ cs :=
          List.length_take_le cs _
        rw [bruteHash_leaf hlt]
      rw [hchunk]
      have hdg := drain_general cs hC hP hcs input0 c c 0 (le_refl c)
        (by rw [pow_zero]; exact Nat.one_dvd c)
        (by rw [pow_zero]; omega)
      rw [hdg]
      have hdd : (input0.drop (c * cs)).drop cs
          = input0.drop ((c + 1) * cs) := by
        have hddm := drop_drop_mul (l := input0) (c + 1) 1 cs (by omega)
        rw [Nat.add_sub_cancel, Nat.one_mul] at hddm
        exact hddm
      rw [hdd, show c + 2 ^ 0 = c + 1 by rw [pow_zero]]
      exact ih (c + 1) _ (by omega) (by omega) (by omega)

/-- C1: for every input, the root hash returned by the in-memory `encode`
equals the root hash of the brute-force reference that splits at the
largest power of two strictly below the chunk count and applies
`hash_chunk`/`hash_parent` with `Root(L)` at the root only. -/
theorem c1_root_hash (cs hs : Nat)
    (hC hP : List Nat → Finalization → List Nat) (hcs : 0 < cs)
    (input : List Nat) :
    (encode cs hs hC hP hcs input).1
      = bruteHash cs hC hP hcs input (Root input.length) := by
  unfold encode
  dsimp only
  unfold encodePostOrder
  by_cases h : input.length ≤ cs
  · rw [if_pos h]
    exact (bruteHash_leaf h).symm
  · rw [if_neg h]
    have hne : input.drop cs ≠ [] := by
      intro hnil
      have hdl := List.length_drop cs input
      rw [hnil] at hdl
      simp at hdl
      omega
    rw [epoLoop_step cs hC hP (Root input.length) (encodeLen input.length)
      hcs input [] [] hne]
    rw [drainM_one]
    have hstack : [(⟨hC (input.take cs) NotRoot, 1⟩ : SEntry)]
        = idealStack cs hC hP hcs input 1 := by
      rw [idealStack_pos cs hC hP hcs input (c := 1) (by norm_num)]
      rw [show tzPos 1 = 0 from tzPos_odd (by norm_num)]
      rw [pow_zero, Nat.sub_self, Nat.zero_mul, Nat.one_mul, getRange_zero,
        idealStack_zero]
      have hlt : (input.take cs).length ≤ cs := List.length_take_le cs _
      rw [bruteHash_leaf hlt]
    rw [hstack]
    have hd1 : input.drop cs = input.drop (1 * cs) := by
      rw [Nat.one_mul]
    rw [hd1]
    exact epoLoop_hash cs hC hP hcs input (Root input.length)
      (encodeLen input.length) input.length 1 _ (by omega) (le_refl 1)
      (by omega)

/-- Witness for C1 at `CHUNK_SIZE = 2`, constant hash functions, on the
3-byte input `[1, 2, 3]`. -/
theorem c1_root_hash_witness :
    0 < 2 ∧
      (encode 2 1 (fun _ _ => [0]) (fun _ _ => [0]) (Nat.succ_pos 1)
          [1, 2, 3]).1
        = bruteHash 2 (fun _ _ => [0]) (fun _ _ => [0]) (Nat.succ_pos 1)
            [1, 2, 3] (Root 3) :=
  ⟨by decide,
    c1_root_hash 2 1 (fun _ _ => [0]) (fun _ _ => [0]) (Nat.succ_pos 1)
      [1, 2, 3]⟩

/-! Machine-faithful arithmetic for `count_chunks` / `encoded_size`
(encode.rs:11-29): every u64/u128 operation is modelled with its exact
wrap-around modulus so that "no overflow" is a theorem, not an
assumption. -/

/-- `count_chunks` as computed in u64: the sum `full_chunks +
has_partial_chunk` is reduced mod `2^64` exactly where the machine
addition happens. -/
def countChunksU64 (cs L : Nat) : Nat :=
  max 1 ((L / cs + (if L % cs ≠ 0 then 1 else 0)) % 2 ^ 64)

/-- `encoded_subtree_size` as computed in u128 over u64 inputs: the
subtraction `count_chunks - 1` happens in u64, the product and the sum in
u128. -/
def encodedSubtreeSizeU128 (cs hs L : Nat) : Nat :=
  (L % 2 ^ 128
    + (countChunksU64 cs L - 1) % 2 ^ 64 * (2 * hs) % 2 ^ 128) % 2 ^ 128

/-- `encoded_size` as computed in u128. -/
def encodedSizeU128 (cs hs L : Nat) : Nat :=
  (encodedSubtreeSizeU128 cs hs L + HEADER_SIZE) % 2 ^ 128

/-- Ceiling division agrees with the division-plus-partial-bit form. -/
theorem ceil_div_eq {cs L : Nat} (hcs : 0 < cs) :
    (L + cs - 1) / cs = L / cs + (if L % cs ≠ 0 then 1 else 0) := by
  have hdm := Nat.div_add_mod L cs
  obtain ⟨q, hq⟩ : ∃ q, L / cs = q := ⟨_, rfl⟩
  obtain ⟨r, hr⟩ : ∃ r, L % cs = r := ⟨_, rfl⟩
  have hrlt : r < cs := hr ▸ Nat.mod_lt L hcs
  rw [hq, hr] at hdm ⊢
  have hL : L + cs - 1 = cs * q + (r + cs - 1) := by omega
  rw [hL, Nat.mul_add_div hcs]
  by_cases h0 : r = 0
  · rw [h0, if_neg (by simp)]
    rw [Nat.div_eq_of_lt (by omega)]
  · rw [if_pos h0]
    have hsplit : r + cs - 1 = (r - 1) + cs := by omega
    rw [hsplit, Nat.add_div_right _ hcs, Nat.div_eq_of_lt (by omega)]

/-- C8: for every u64 content length `L` (`L < 2^64`), `count_chunks`
equals `max(1, ceil(L / CHUNK_SIZE))`, its u64 arithmetic never wraps
(the partial-chunk bit is added only when `L mod CHUNK_SIZE ≠ 0`), and
`encoded_size`, computed in 128-bit arithmetic, equals
`L + (count_chunks(L) - 1) * PARENT_SIZE + HEADER_SIZE` exactly, with no
u128 reduction ever taking effect. -/
theorem c8_numerics (cs hs L : Nat) (hcs : 0 < cs) (hL : L < 2 ^ 64)
    (hhs : 2 * hs < 2 ^ 64) :
    countChunksU64 cs L = countChunks cs L ∧
    countChunks cs L = max 1 ((L + cs - 1) / cs) ∧
    L / cs + (if L % cs ≠ 0 then 1 else 0) < 2 ^ 64 ∧
    encodedSizeU128 cs hs L = encodedSize cs hs L ∧
    encodedSize cs hs L
      = L + (countChunks cs L - 1) * (2 * hs) + HEADER_SIZE := by
  have hnowrap : L / cs + (if L % cs ≠ 0 then 1 else 0) < 2 ^ 64 := by
    rcases Nat.lt_or_ge cs 2 with h1 | h1
    · have hcs1 : cs = 1 := by omega
      subst hcs1
      rw [Nat.mod_one, if_neg (by simp), Nat.div_one]
      omega
    · have hdd : L / cs ≤ L / 2 := Nat.div_le_div_left h1 (by norm_num)
      have h2 : L / 2 < 2 ^ 63 := by omega
      have : (2:Nat) ^ 64 = 2 ^ 63 * 2 := by rw [pow_succ]
      split_ifs <;> omega
  have hcc : countChunksU64 cs L = countChunks cs L := by
    unfold countChunksU64 countChunks
    rw [Nat.mod_eq_of_lt hnowrap]
  have hceil : countChunks cs L = max 1 ((L + cs - 1) / cs) := by
    unfold countChunks
    rw [ceil_div_eq hcs]
  have hNlt := countChunks_lt_u64 cs L hcs hL
  have hN1 := countChunks_pos cs L
  have hbig : (2:Nat) ^ 128 = 2 ^ 64 * 2 ^ 64 := by
    rw [← pow_add]
  have hprodlt : (countChunks cs L - 1) * (2 * hs) < 2 ^ 64 * 2 ^ 64 := by
    rcases Nat.eq_zero_or_pos (2 * hs) with hz | hz
    · rw [hz, Nat.mul_zero]
      positivity
    · exact Nat.mul_lt_mul_of_lt_of_le (by omega) (by omega) (by omega)
  have hprodle : (countChunks cs L - 1) * (2 * hs)
      ≤ (2 ^ 64 - 1) * (2 ^ 64 - 1) :=
    Nat.mul_le_mul (by omega) (by omega)
  have hsumlt : L + (countChunks cs L - 1) * (2 * hs) + HEADER_SIZE
      < 2 ^ 128 := by
    unfold HEADER_SIZE
    have he : (2:Nat) ^ 128 = (2 ^ 64 - 1) * (2 ^ 64 - 1)
        + (2 ^ 64 + 2 ^ 64 - 1) := by norm_num
    omega
  have hu128 : encodedSizeU128 cs hs L = encodedSize cs hs L := by
    unfold encodedSizeU128 encodedSubtreeSizeU128 encodedSize
      encodedSubtreeSize
    rw [hcc]
    rw [Nat.mod_eq_of_lt (show countChunks cs L - 1 < 2 ^ 64 by omega)]
    rw [Nat.mod_eq_of_lt (show L < 2 ^ 128 by
      have h128 : (2:Nat) ^ 64 < 2 ^ 128 := by norm_num
      omega)]
    rw [Nat.mod_eq_of_lt (show (countChunks cs L - 1) * (2 * hs) < 2 ^ 128 by
      rw [hbig]
      exact hprodlt)]
    rw [Nat.mod_eq_of_lt (show L + (countChunks cs L - 1) * (2 * hs)
        < 2 ^ 128 by unfold HEADER_SIZE at hsumlt; omega)]
    rw [Nat.mod_eq_of_lt (show L + (countChunks cs L - 1) * (2 * hs)
        + HEADER_SIZE < 2 ^ 128 from hsumlt)]
  exact ⟨hcc, hceil, hnowrap, hu128, rfl⟩

/-- Witness for C8 at `CHUNK_SIZE = 4096`, `HASH_SIZE = 32`,
`L = 2^64 - 1` (the extreme u64 value). -/
theorem c8_numerics_witness :
    0 < 4096 ∧ 2 ^ 64 - 1 < 2 ^ 64 ∧ 2 * 32 < 2 ^ 64 ∧
      countChunksU64 4096 (2 ^ 64 - 1) = countChunks 4096 (2 ^ 64 - 1) :=
  ⟨by decide, by decide, by decide,
    (c8_numerics 4096 32 (2 ^ 64 - 1) (by decide) (by decide) (by decide)).1⟩

/-! Model of the incremental `Writer` (encode.rs:252-357).  The inner
`Read + Write + Seek` object is a byte list; the streaming blake2b chunk
state is modelled by the bytes absorbed since the last reset, so
`hash_chunk` of those bytes is the chunk hash the source would
finalize. -/

/-- Embedding of the `Writer` fields (encode.rs:252-258): the inner sink
contents, `chunk_len`, `total_len`, the bytes absorbed by `chunk_state`,
and the `hash::State` subtree stack. -/
structure WriterState where
  sink : List Nat
  chunkLen : Nat
  totalLen : Nat
  chunkBuf : List Nat
  tree : List SEntry
deriving DecidableEq

/-- Embedding of `Writer::new` (encode.rs:261-269). -/
def WriterState.new : WriterState :=
  ⟨[], 0, 0, [], []⟩

/-- The chunk-flush prologue of `Writer::write` (encode.rs:336-344): when
a full chunk is buffered, finalize it `NotRoot`, reset the chunk state,
push the subtree and write out every `merge_parent` payload. -/
def wflush (cs : Nat) (hC hP : List Nat → Finalization → List Nat)
    (ws : WriterState) : WriterState :=
  if ws.chunkLen = cs then
    { sink := ws.sink
        ++ (drainM hP (⟨hC ws.chunkBuf NotRoot, 1⟩ :: ws.tree)).1
      chunkLen := 0
      totalLen := ws.totalLen
      chunkBuf := []
      tree := (drainM hP (⟨hC ws.chunkBuf NotRoot, 1⟩ :: ws.tree)).2 }
  else ws

/-- Embedding of `Writer::write` (encode.rs:331-352); `acc` is the number
of bytes the inner sink chooses to accept (a short write when it is less
than the offered slice). -/
def writeStep (cs : Nat) (hC hP : List Nat → Finalization → List Nat)
    (ws : WriterState) (buf : List Nat) (acc : Nat) : Nat × WriterState :=
  if buf = [] then (0, ws)
  else
    let ws1 := wflush cs hC hP ws
    let written := min acc (min (cs - ws1.chunkLen) buf.length)
    (written,
      { sink := ws1.sink ++ buf.take written
        chunkLen := ws1.chunkLen + written
        totalLen := ws1.totalLen + written
        chunkBuf := ws1.chunkBuf ++ buf.take written
        tree := ws1.tree })

/-- C9: `Writer::write` on an empty buffer returns 0 and changes nothing;
on a non-empty buffer it offers the inner sink at most
`min(CHUNK_SIZE - chunk_len, buf.len())` bytes (with `chunk_len` read
after the full-chunk flush), honors a short inner write by returning the
accepted count, and advances the chunk hash state, `chunk_len` and
`total_len` by exactly that count; the flush itself only happens when a
full chunk is buffered. -/
theorem c9_write_contract (cs : Nat)
    (hC hP : List Nat → Finalization → List Nat) (ws : WriterState)
    (buf : List Nat) (acc : Nat) :
    writeStep cs hC hP ws [] acc = (0, ws) ∧
    (ws.chunkLen ≠ cs → wflush cs hC hP ws = ws) ∧
    (buf ≠ [] →
      (writeStep cs hC hP ws buf acc).1
          ≤ min (cs - (wflush cs hC hP ws).chunkLen) buf.length ∧
      (writeStep cs hC hP ws buf acc).1
          = min acc
              (min (cs - (wflush cs hC hP ws).chunkLen) buf.length) ∧
      (writeStep cs hC hP ws buf acc).2.chunkLen
          = (wflush cs hC hP ws).chunkLen
              + (writeStep cs hC hP ws buf acc).1 ∧
      (writeStep cs hC hP ws buf acc).2.totalLen
          = (wflush cs hC hP ws).totalLen
              + (writeStep cs hC hP ws buf acc).1 ∧
      (writeStep cs hC hP ws buf acc).2.chunkBuf
          = (wflush cs hC hP ws).chunkBuf
              ++ buf.take (writeStep cs hC hP ws buf acc).1 ∧
      (writeStep cs hC hP ws buf acc).2.sink
          = (wflush cs hC hP ws).sink
              ++ buf.take (writeStep cs hC hP ws buf acc).1 ∧
      (writeStep cs hC hP ws buf acc).2.tree
          = (wflush cs hC hP ws).tree) := by
  refine ⟨rfl, ?_, ?_⟩
  · intro h
    unfold wflush
    rw [if_neg h]
  · intro hne
    unfold writeStep
    rw [if_neg hne]
    dsimp only
    refine ⟨?_, rfl, rfl, rfl, rfl, rfl, rfl⟩
    exact Nat.min_le_right _ _

/-- Witness for C9 at `CHUNK_SIZE = 2`, the fresh writer, a 1-byte buffer
and an inner sink accepting a single byte. -/
theorem c9_write_contract_witness :
    ([5] : List Nat) ≠ [] ∧
      (writeStep 2 (fun _ _ => [0]) (fun _ _ => [0]) WriterState.new
          [5] 1).1
        = min 1 (min (2 - (wflush 2 (fun _ _ => [0]) (fun _ _ => [0])
            WriterState.new).chunkLen) ([5] : List Nat).length) :=
  ⟨by decide,
    ((c9_write_contract 2 (fun _ _ => [0]) (fun _ _ => [0])
      WriterState.new [5] 1).2.2 (by decide)).2.1⟩

theorem getRange_append (buf : List Nat) (a k w : Nat) :
    getRange buf a k ++ getRange buf (a + k) w = getRange buf a (k + w) := by
  unfold getRange
  rw [List.take_add]
  congr 1
  rw [List.drop_drop]

/-- Feeding one piece to the writer, retrying until the piece is fully
accepted; the inner sink accepts everything offered (the fully-retried
scenario).  The zero-progress branch is unreachable for reachable writer
states. -/
def writePiece (cs : Nat) (hC hP : List Nat → Finalization → List Nat) :
    List Nat → WriterState → WriterState
  | p, ws =>
    if hp : p = [] then ws
    else
      if h0 : (writeStep cs hC hP ws p p.length).1 = 0 then
        (writeStep cs hC hP ws p p.length).2
      else
        writePiece cs hC hP (p.drop (writeStep cs hC hP ws p p.length).1)
          (writeStep cs hC hP ws p p.length).2
termination_by p => p.length
decreasing_by
  rw [List.length_drop]
  have hlp : 0 < p.length := by
    cases hpp : p
    · exact absurd hpp hp
    · simp [hpp]
  omega

/-- Feeding a sequence of pieces to the writer. -/
def writeAll (cs : Nat) (hC hP : List Nat → Finalization → List Nat)
    (ps : List (List Nat)) (ws : WriterState) : WriterState :=
  ps.foldl (fun w p => writePiece cs hC hP p w) ws

/-- The post-order phase of `Writer::finish` (encode.rs:271-288): the
sink after the `merge_finish` payloads and the length header, together
with the root hash. -/
def writerPostOrder (cs : Nat)
    (hC hP : List Nat → Finalization → List Nat) (ws : WriterState) :
    List Nat × List Nat :=
  if ws.totalLen ≤ cs then
    (ws.sink ++ encodeLen ws.totalLen, hC ws.chunkBuf (Root ws.totalLen))
  else
    (ws.sink
        ++ (finishM hP (Root ws.totalLen)
          (⟨hC ws.chunkBuf NotRoot, 1⟩ :: ws.tree)).1
        ++ encodeLen ws.totalLen,
      (finishM hP (Root ws.totalLen)
        (⟨hC ws.chunkBuf NotRoot, 1⟩ :: ws.tree)).2)

/-- Embedding of `Writer::finish` (encode.rs:271-327): finish the
post-order encoding, then flip the sink in place through seeks, with the
write cursor starting at the end of the stream and the header re-written
at offset 0 on `Done`. -/
def writerFinish (cs hs : Nat)
    (hC hP : List Nat → Finalization → List Nat) (ws : WriterState) :
    List Nat × List Nat :=
  ((flipLoop cs hs (encodeLen ws.totalLen) (FlipperState.new cs ws.totalLen)
      (writerPostOrder cs hC hP ws).1
      ((writerPostOrder cs hC hP ws).1.length - HEADER_SIZE)
      (writerPostOrder cs hC hP ws).1.length).1,
    (writerPostOrder cs hC hP ws).2)

/-- The post-order bytes the stream holds after `c` chunks have been
completed and flushed: each chunk followed by its `merge_parent`
payloads. -/
def poPrefix (cs : Nat) (hC hP : List Nat → Finalization → List Nat)
    (hcs : 0 < cs) (input0 : List Nat) : Nat → List Nat
  | 0 => []
  | c + 1 => poPrefix cs hC hP hcs input0 c ++ getRange input0 (c * cs) cs
      ++ (drainM hP (⟨hC (getRange input0 (c * cs) cs) NotRoot, 1⟩
            :: idealStack cs hC hP hcs input0 c)).1

/-- The writer invariant after `f` bytes of `input0` have been accepted:
`c` chunks are flushed, the partial chunk holds the rest, the stream holds
the post-order prefix plus the partial chunk, and the subtree stack is the
ideal stack. -/
def WInv (cs : Nat) (hC hP : List Nat → Finalization → List Nat)
    (hcs : 0 < cs) (input0 : List Nat) (f : Nat) (ws : WriterState) :
    Prop :=
  ∃ c, ws.totalLen = f ∧ f = c * cs + ws.chunkLen ∧ ws.chunkLen ≤ cs ∧
    (c = 0 ∨ 1 ≤ ws.chunkLen) ∧
    ws.chunkBuf = getRange input0 (c * cs) ws.chunkLen ∧
    ws.tree = idealStack cs hC hP hcs input0 c ∧
    ws.sink = poPrefix cs hC hP hcs input0 c ++ ws.chunkBuf ∧
    f ≤ input0.length

theorem winv_new (cs : Nat) (hC hP : List Nat → Finalization → List Nat)
    (hcs : 0 < cs) (input0 : List Nat) :
    WInv cs hC hP hcs input0 0 WriterState.new := by
  unfold WInv WriterState.new
  exact ⟨0, rfl, by simp, by simp, Or.inl rfl, by simp [getRange],
    by rw [idealStack_zero], by simp [poPrefix], by omega⟩

/-- One fully-accepted `write` call preserves the writer invariant and
makes at least one byte of progress. -/
theorem winv_step (cs : Nat) (hC hP : List Nat → Finalization → List Nat)
    (hcs : 0 < cs) (input0 : List Nat) {f : Nat} {ws : WriterState}
    {p : List Nat} (hinv : WInv cs hC hP hcs input0 f ws) (hp : p ≠ [])
    (hpr : p = getRange input0 f p.length)
    (hbound : f + p.length ≤ input0.length) :
    1 ≤ (writeStep cs hC hP ws p p.length).1 ∧
    (writeStep cs hC hP ws p p.length).1 ≤ p.length ∧
    WInv cs hC hP hcs input0 (f + (writeStep cs hC hP ws p p.length).1)
      (writeStep cs hC hP ws p p.length).2 ∧
    p.drop (writeStep cs hC hP ws p p.length).1
      = getRange input0 (f + (writeStep cs hC hP ws p p.length).1)
          (p.length - (writeStep cs hC hP ws p p.length).1) := by
  obtain ⟨c, htl, hf, hkc, hdis, hcb, htr, hsk, hfl⟩ := hinv
  have hplen : 1 ≤ p.length := by
    cases hpp : p
    · exact absurd hpp hp
    · simp [hpp]
  -- the flushed intermediate state
  have hws1 : ∃ c1, (wflush cs hC hP ws).chunkLen < cs ∧
      (wflush cs hC hP ws).totalLen = f ∧
      f = c1 * cs + (wflush cs hC hP ws).chunkLen ∧
      (wflush cs hC hP ws).chunkBuf
        = getRange input0 (c1 * cs) (wflush cs hC hP ws).chunkLen ∧
      (wflush cs hC hP ws).tree = idealStack cs hC hP hcs input0 c1 ∧
      (wflush cs hC hP ws).sink
        = poPrefix cs hC hP hcs input0 c1
            ++ (wflush cs hC hP ws).chunkBuf := by
    by_cases hcl : ws.chunkLen = cs
    · have hfl1 : wflush cs hC hP ws
          = { sink := ws.sink
                ++ (drainM hP (⟨hC ws.chunkBuf NotRoot, 1⟩ :: ws.tree)).1
              chunkLen := 0
              totalLen := ws.totalLen
              chunkBuf := []
              tree := (drainM hP
                (⟨hC ws.chunkBuf NotRoot, 1⟩ :: ws.tree)).2 } := by
        unfold wflush
        rw [if_pos hcl]
      have hcbf : ws.chunkBuf = getRange input0 (c * cs) cs := by
        rw [hcb, hcl]
      have hchunk : (⟨hC ws.chunkBuf NotRoot, 1⟩ : SEntry)
          = ⟨bruteHash cs hC hP hcs
              (getRange input0 (c * cs) (2 ^ 0 * cs)) NotRoot, 2 ^ 0⟩ := by
        rw [hcbf, pow_zero, Nat.one_mul]
        have hlt : (getRange input0 (c * cs) cs).length ≤ cs :=
          List.length_take_le cs _
        rw [bruteHash_leaf hlt]
      have hsm : (c + 1) * cs = c * cs + cs := by ring
      have hdg := drain_general cs hC hP hcs input0 c c 0 (le_refl c)
        (by rw [pow_zero]; exact Nat.one_dvd c)
        (by rw [pow_zero]; omega)
      have htree : (drainM hP (⟨hC ws.chunkBuf NotRoot, 1⟩ :: ws.tree)).2
          = idealStack cs hC hP hcs input0 (c + 1) := by
        rw [htr, hchunk, hdg, show c + 2 ^ 0 = c + 1 by rw [pow_zero]]
      have hpp1 : poPrefix cs hC hP hcs input0 (c + 1)
          = poPrefix cs hC hP hcs input0 c ++ getRange input0 (c * cs) cs
            ++ (drainM hP (⟨hC (getRange input0 (c * cs) cs) NotRoot, 1⟩
                  :: idealStack cs hC hP hcs input0 c)).1 := rfl
      have hsink : ws.sink
            ++ (drainM hP (⟨hC ws.chunkBuf NotRoot, 1⟩ :: ws.tree)).1
          = poPrefix cs hC hP hcs input0 (c + 1) ++ ([] : List Nat) := by
        rw [hsk, hcbf, htr, hpp1]
        simp [List.append_assoc]
      refine ⟨c + 1, ?_, ?_, ?_, ?_, ?_, ?_⟩ <;> rw [hfl1]
      · show 0 < cs
        omega
      · exact htl
      · show f = (c + 1) * cs + 0
        omega
      · show ([] : List Nat) = getRange input0 ((c + 1) * cs) 0
        rw [getRange]
        simp
      · exact htree
      · show ws.sink
            ++ (drainM hP (⟨hC ws.chunkBuf NotRoot, 1⟩ :: ws.tree)).1
          = poPrefix cs hC hP hcs input0 (c + 1) ++ ([] : List Nat)
        exact hsink
    · have hfl1 : wflush cs hC hP ws = ws := by
        unfold wflush
        rw [if_neg hcl]
      rw [hfl1]
      exact ⟨c, by omega, htl, hf, hcb, htr, hsk⟩
  obtain ⟨c1, hk1, htl1, hf1, hcb1, htr1, hsk1⟩ := hws1
  -- the write itself
  obtain ⟨w, hw⟩ : ∃ w, min p.length
      (min (cs - (wflush cs hC hP ws).chunkLen) p.length) = w := ⟨_, rfl⟩
  have hstep : writeStep cs hC hP ws p p.length
      = (min p.length (min (cs - (wflush cs hC hP ws).chunkLen) p.length),
        { sink := (wflush cs hC hP ws).sink ++ p.take (min p.length
            (min (cs - (wflush cs hC hP ws).chunkLen) p.length))
          chunkLen := (wflush cs hC hP ws).chunkLen + min p.length
            (min (cs - (wflush cs hC hP ws).chunkLen) p.length)
          totalLen := (wflush cs hC hP ws).totalLen + min p.length
            (min (cs - (wflush cs hC hP ws).chunkLen) p.length)
          chunkBuf := (wflush cs hC hP ws).chunkBuf ++ p.take (min p.length
            (min (cs - (wflush cs hC hP ws).chunkLen) p.length))
          tree := (wflush cs hC hP ws).tree }) := by
    unfold writeStep
    rw [if_neg hp]
  rw [hw] at hstep
  rw [hstep]
  have hw1 : 1 ≤ w := by omega
  have hwp : w ≤ p.length := by omega
  have hwk : (wflush cs hC hP ws).chunkLen + w ≤ cs := by omega
  have htake : p.take w = getRange input0 f w := by
    rw [hpr, getRange_take hwp]
  have hdrop : p.drop w = getRange input0 (f + w) (p.length - w) := by
    conv_lhs => rw [hpr]
    rw [getRange_drop]
  refine ⟨hw1, hwp, ⟨c1, ?_, ?_, ?_, ?_, ?_, ?_, ?_, ?_⟩, hdrop⟩
  · show (wflush cs hC hP ws).totalLen + w = f + w
    omega
  · show f + w = c1 * cs + ((wflush cs hC hP ws).chunkLen + w)
    omega
  · show (wflush cs hC hP ws).chunkLen + w ≤ cs
    exact hwk
  · exact Or.inr (by
      show 1 ≤ (wflush cs hC hP ws).chunkLen + w
      omega)
  · show (wflush cs hC hP ws).chunkBuf ++ p.take w
      = getRange input0 (c1 * cs) ((wflush cs hC hP ws).chunkLen + w)
    rw [hcb1, htake, hf1, getRange_append]
  · show (wflush cs hC hP ws).tree = idealStack cs hC hP hcs input0 c1
    exact htr1
  · show (wflush cs hC hP ws).sink ++ p.take w
      = poPrefix cs hC hP hcs input0 c1
        ++ ((wflush cs hC hP ws).chunkBuf ++ p.take w)
    rw [hsk1, List.append_assoc]
  · show f + w ≤ input0.length
    omega

theorem writePiece_nil (cs : Nat)
    (hC hP : List Nat → Finalization → List Nat) (ws : WriterState) :
    writePiece cs hC hP [] ws = ws := by
  rw [writePiece]
  simp

theorem writePiece_step (cs : Nat)
    (hC hP : List Nat → Finalization → List Nat) (ws : WriterState)
    {p : List Nat} (hp : p ≠ [])
    (h0 : (writeStep cs hC hP ws p p.length).1 ≠ 0) :
    writePiece cs hC hP p ws
      = writePiece cs hC hP (p.drop (writeStep cs hC hP ws p p.length).1)
          (writeStep cs hC hP ws p p.length).2 := by
  conv_lhs => rw [writePiece]
  rw [dif_neg hp, dif_neg h0]

/-- Feeding a whole piece that sits at offset `f` of the input preserves
the writer invariant and advances it by the piece length. -/
theorem winv_piece (cs : Nat)
    (hC hP : List Nat → Finalization → List Nat) (hcs : 0 < cs)
    (input0 : List Nat) :
    ∀ n p ws f, p.length ≤ n → WInv cs hC hP hcs input0 f ws →
      p = getRange input0 f p.length → f + p.length ≤ input0.length →
      WInv cs hC hP hcs input0 (f + p.length)
        (writePiece cs hC hP p ws) := by
  intro n
  induction n with
  | zero =>
    intro p ws f hlen hinv _ _
    have hp0 : p = [] := List.length_eq_zero.mp (by omega)
    subst hp0
    rw [writePiece_nil]
    simpa using hinv
  | succ n ih =>
    intro p ws f hlen hinv hpr hbound
    by_cases hp : p = []
    · subst hp
      rw [writePiece_nil]
      simpa using hinv
    · obtain ⟨hw1, hwp, hinv', hdrop⟩ :=
        winv_step cs hC hP hcs input0 hinv hp hpr hbound
      rw [writePiece_step cs hC hP ws hp (by omega)]
      have hlen' : (p.drop (writeStep cs hC hP ws p p.length).1).length
          ≤ n := by
        rw [List.length_drop]
        omega
      have hih := ih _ _ _ hlen' hinv'
        (by rw [List.length_drop]; exact hdrop)
        (by rw [List.length_drop]; omega)
      rw [List.length_drop] at hih
      rw [show f + (writeStep cs hC hP ws p p.length).1
          + (p.length - (writeStep cs hC hP ws p p.length).1)
          = f + p.length by omega] at hih
      exact hih

/-- Feeding a full decomposition of the remaining input drives the writer
invariant to the end of the input. -/
theorem winv_all (cs : Nat)
    (hC hP : List Nat → Finalization → List Nat) (hcs : 0 < cs)
    (input0 : List Nat) :
    ∀ ps ws f, WInv cs hC hP hcs input0 f ws →
      ps.join = input0.drop f →
      WInv cs hC hP hcs input0 input0.length (writeAll cs hC hP ps ws) := by
  intro ps
  induction ps with
  | nil =>
    intro ws f hinv hjoin
    have hfl : f ≤ input0.length := by
      obtain ⟨c, h⟩ := hinv
      exact h.2.2.2.2.2.2.2
    have hdl : (input0.drop f).length = input0.length - f :=
      List.length_drop _ _
    rw [← hjoin] at hdl
    simp at hdl
    have hfeq : f = input0.length := by omega
    rw [← hfeq]
    exact hinv
  | cons p rest ih =>
    intro ws f hinv hjoin
    have hjoin' : p ++ rest.join = input0.drop f := by
      simpa using hjoin
    have hdluniv : (input0.drop f).length = input0.length - f :=
      List.length_drop _ _
    have hlenle : p.length + rest.join.length = input0.length - f := by
      rw [← hdluniv, ← hjoin']
      simp
    have hfl : f ≤ input0.length := by
      obtain ⟨c, h⟩ := hinv
      exact h.2.2.2.2.2.2.2
    have hpr : p = getRange input0 f p.length := by
      unfold getRange
      rw [← hjoin']
      rw [List.take_left]
    have hbound : f + p.length ≤ input0.length := by omega
    have hinv' := winv_piece cs hC hP hcs input0 p.length p ws f (le_refl _)
      hinv hpr hbound
    have hrest : rest.join = input0.drop (f + p.length) := by
      have h1 : (p ++ rest.join).drop p.length = rest.join := by
        rw [List.drop_left]
      rw [hjoin'] at h1
      rw [← h1, List.drop_drop]
    have hwa : writeAll cs hC hP (p :: rest) ws
        = writeAll cs hC hP rest (writePiece cs hC hP p ws) := by
      unfold writeAll
      simp
    rw [hwa]
    exact ih _ _ hinv' hrest

/-- Closed form of the `encode_post_order` loop run from chunk `c`: it
appends the remaining chunks with their drain payloads, the final chunk,
the `merge_finish` payloads and the length header, and returns the
`merge_finish` root. -/
theorem epoLoop_tail (cs : Nat)
    (hC hP : List Nat → Finalization → List Nat) (hcs : 0 < cs)
    (input0 : List Nat) (fin : Finalization) (elen : List Nat) :
    ∀ n c, input0.length - c * cs ≤ n → 1 ≤ c → c * cs < input0.length →
      epoLoop cs hC hP fin elen hcs (input0.drop (c * cs))
          (idealStack cs hC hP hcs input0 c)
          (poPrefix cs hC hP hcs input0 c)
        = (poPrefix cs hC hP hcs input0 (countChunks cs input0.length - 1)
            ++ input0.drop ((countChunks cs input0.length - 1) * cs)
            ++ (finishM hP fin
              (⟨hC (input0.drop
                    ((countChunks cs input0.length - 1) * cs)) NotRoot, 1⟩
                :: idealStack cs hC hP hcs input0
                  (countChunks cs input0.length - 1))).1
            ++ elen,
          (finishM hP fin
            (⟨hC (input0.drop
                  ((countChunks cs input0.length - 1) * cs)) NotRoot, 1⟩
              :: idealStack cs hC hP hcs input0
                (countChunks cs input0.length - 1))).2) := by
  intro n
  induction n with
  | zero =>
    intro c hn hc1 hclt
    omega
  | succ n ih =>
    intro c hn hc1 hclt
    have hrl : (input0.drop (c * cs)).length = input0.length - c * cs :=
      List.length_drop _ _
    have hsm : (c + 1) * cs = c * cs + cs := by ring
    by_cases hlast : (input0.drop (c * cs)).drop cs = []
    · rw [epoLoop_last cs hC hP fin elen hcs _ _ _ hlast]
      have hrle : (input0.drop (c * cs)).length ≤ cs := by
        have hdl := List.length_drop cs (input0.drop (c * cs))
        rw [hlast] at hdl
        simp at hdl
        omega
      have htk : (input0.drop (c * cs)).take cs = input0.drop (c * cs) :=
        List.take_of_length_le hrle
      rw [htk]
      have hcN : c < countChunks cs input0.length := by
        have hub := le_countChunks_mul cs input0.length hcs
        by_contra hcon
        push_neg at hcon
        have : countChunks cs input0.length * cs ≤ c * cs :=
          Nat.mul_le_mul_right cs hcon
        omega
      have hN : countChunks cs input0.length = c + 1 := by
        have hsub := countChunks_sub_mul (L := input0.length)
          hcs c hcN (by omega)
        have hone : countChunks cs (input0.length - c * cs) = 1 :=
          countChunks_le_cs hcs (by omega)
        omega
      rw [hN, Nat.add_sub_cancel]
    · rw [epoLoop_step cs hC hP fin elen hcs _ _ _ hlast]
      have hgt : cs < (input0.drop (c * cs)).length := by
        rcases Nat.lt_or_ge cs (input0.drop (c * cs)).length with h1 | h1
        · exact h1
        · rw [List.drop_eq_nil_of_le h1] at hlast
          exact absurd rfl hlast
      have hgr : getRange input0 (c * cs) cs
          = (input0.drop (c * cs)).take cs := rfl
      have hchunk : (⟨hC ((input0.drop (c * cs)).take cs) NotRoot, 1⟩
            : SEntry)
          = ⟨bruteHash cs hC hP hcs
              (getRange input0 (c * cs) (2 ^ 0 * cs)) NotRoot, 2 ^ 0⟩ := by
        rw [pow_zero, Nat.one_mul, hgr]
        have hlt : ((input0.drop (c * cs)).take cs).length ≤ cs :=
          List.length_take_le cs _
        rw [bruteHash_leaf hlt]
      have hdg := drain_general cs hC hP hcs input0 c c 0 (le_refl c)
        (by rw [pow_zero]; exact Nat.one_dvd c)
        (by rw [pow_zero]; omega)
      have hstacks : (drainM hP
            (⟨hC ((input0.drop (c * cs)).take cs) NotRoot, 1⟩
              :: idealStack cs hC hP hcs input0 c)).2
          = idealStack cs hC hP hcs input0 (c + 1) := by
        rw [hchunk, hdg, show c + 2 ^ 0 = c + 1 by rw [pow_zero]]
      have hacc : poPrefix cs hC hP hcs input0 c
            ++ (input0.drop (c * cs)).take cs
            ++ (drainM hP
              (⟨hC ((input0.drop (c * cs)).take cs) NotRoot, 1⟩
                :: idealStack cs hC hP hcs input0 c)).1
          = poPrefix cs hC hP hcs input0 (c + 1) := by
        have hpp1 : poPrefix cs hC hP hcs input0 (c + 1)
            = poPrefix cs hC hP hcs input0 c
              ++ getRange input0 (c * cs) cs
              ++ (drainM hP
                (⟨hC (getRange input0 (c * cs) cs) NotRoot, 1⟩
                  :: idealStack cs hC hP hcs input0 c)).1 := rfl
        rw [hpp1, hgr]
      have hdd : (input0.drop (c * cs)).drop cs
          = input0.drop ((c + 1) * cs) := by
        have hddm := drop_drop_mul (l := input0) (c + 1) 1 cs (by omega)
        rw [Nat.add_sub_cancel, Nat.one_mul] at hddm
        exact hddm
      rw [hstacks, hacc, hdd]
      exact ih (c + 1) (by omega) (by omega) (by omega)

theorem getRange_all {buf : List Nat} {p n : Nat} (h : buf.length ≤ p + n) :
    getRange buf p n = buf.drop p := by
  unfold getRange
  apply List.take_of_length_le
  rw [List.length_drop]
  omega

/-- Closed form of `encode_post_order` on a multi-chunk input. -/
theorem encodePostOrder_tail (cs : Nat)
    (hC hP : List Nat → Finalization → List Nat) (hcs : 0 < cs)
    (input0 : List Nat) (hgt : cs < input0.length) :
    encodePostOrder cs hC hP hcs input0
      = (poPrefix cs hC hP hcs input0 (countChunks cs input0.length - 1)
          ++ input0.drop ((countChunks cs input0.length - 1) * cs)
          ++ (finishM hP (Root input0.length)
            (⟨hC (input0.drop
                  ((countChunks cs input0.length - 1) * cs)) NotRoot, 1⟩
              :: idealStack cs hC hP hcs input0
                (countChunks cs input0.length - 1))).1
          ++ encodeLen input0.length,
        (finishM hP (Root input0.length)
          (⟨hC (input0.drop
                ((countChunks cs input0.length - 1) * cs)) NotRoot, 1⟩
            :: idealStack cs hC hP hcs input0
              (countChunks cs input0.length - 1))).2) := by
  unfold encodePostOrder
  rw [if_neg (by omega)]
  have hne : input0.drop cs ≠ [] := by
    intro hnil
    have hdl := List.length_drop cs input0
    rw [hnil] at hdl
    simp at hdl
    omega
  rw [epoLoop_step cs hC hP (Root input0.length) (encodeLen input0.length)
    hcs input0 [] [] hne]
  rw [drainM_one]
  have hstack : [(⟨hC (input0.take cs) NotRoot, 1⟩ : SEntry)]
      = idealStack cs hC hP hcs input0 1 := by
    rw [idealStack_pos cs hC hP hcs input0 (c := 1) (by norm_num)]
    rw [show tzPos 1 = 0 from tzPos_odd (by norm_num)]
    rw [pow_zero, Nat.sub_self, Nat.zero_mul, Nat.one_mul, getRange_zero,
      idealStack_zero]
    have hlt : (input0.take cs).length ≤ cs := List.length_take_le cs _
    rw [bruteHash_leaf hlt]
  have hacc : ([] : List Nat) ++ input0.take cs ++ ([] : List Nat)
      = poPrefix cs hC hP hcs input0 1 := by
    have hpp1 : poPrefix cs hC hP hcs input0 1
        = poPrefix cs hC hP hcs input0 0
          ++ getRange input0 (0 * cs) cs
          ++ (drainM hP (⟨hC (getRange input0 (0 * cs) cs) NotRoot, 1⟩
                :: idealStack cs hC hP hcs input0 0)).1 := rfl
    rw [hpp1, idealStack_zero, Nat.zero_mul, getRange_zero]
    rw [show poPrefix cs hC hP hcs input0 0 = [] from rfl]
    rw [drainM_one]
  rw [hstack, hacc]
  have hd1 : input0.drop cs = input0.drop (1 * cs) := by
    rw [Nat.one_mul]
  rw [hd1]
  exact epoLoop_tail cs hC hP hcs input0 (Root input0.length)
    (encodeLen input0.length) input0.length 1 (by omega) (le_refl 1)
    (by omega)

/-- The writer's `finish`-time post-order state equals the in-memory
`encode_post_order` output. -/
theorem writer_po (cs : Nat)
    (hC hP : List Nat → Finalization → List Nat) (hcs : 0 < cs)
    (input0 : List Nat) {ws : WriterState}
    (hinv : WInv cs hC hP hcs input0 input0.length ws) :
    writerPostOrder cs hC hP ws = encodePostOrder cs hC hP hcs input0 := by
  obtain ⟨c, htl, hf, hkc, hdis, hcb, htr, hsk, _⟩ := hinv
  unfold writerPostOrder
  by_cases hle : input0.length ≤ cs
  · rw [if_pos (by omega)]
    have hc0 : c = 0 := by
      rcases hdis with h | h
      · exact h
      · by_contra hcon
        have h1 : 1 ≤ c := by omega
        have h2 : cs ≤ c * cs := by
          calc cs = 1 * cs := (Nat.one_mul cs).symm
            _ ≤ c * cs := Nat.mul_le_mul_right cs h1
        omega
    subst hc0
    have hcbi : ws.chunkBuf = input0 := by
      rw [hcb, Nat.zero_mul]
      have : ws.chunkLen = input0.length := by omega
      rw [this, getRange_zero, List.take_length]
    have hski : ws.sink = input0 := by
      rw [hsk, hcbi]
      rw [show poPrefix cs hC hP hcs input0 0 = [] from rfl]
      simp
    unfold encodePostOrder
    rw [if_pos hle, htl, hski, hcbi]
  · rw [if_neg (by omega)]
    have hc1 : 1 ≤ c := by
      by_contra hcon
      have hc0 : c = 0 := by omega
      rw [hc0] at hf
      omega
    have hk1 : 1 ≤ ws.chunkLen := by
      rcases hdis with h | h
      · omega
      · exact h
    have hclt : c * cs < input0.length := by omega
    have hcN : c < countChunks cs input0.length := by
      have hub := le_countChunks_mul cs input0.length hcs
      by_contra hcon
      push_neg at hcon
      have : countChunks cs input0.length * cs ≤ c * cs :=
        Nat.mul_le_mul_right cs hcon
      omega
    have hN : countChunks cs input0.length = c + 1 := by
      have hsub := countChunks_sub_mul (L := input0.length)
        hcs c hcN (by omega)
      have hone : countChunks cs (input0.length - c * cs) = 1 :=
        countChunks_le_cs hcs (by omega)
      omega
    have hcbd : ws.chunkBuf = input0.drop (c * cs) := by
      rw [hcb]
      exact getRange_all (by omega)
    rw [encodePostOrder_tail cs hC hP hcs input0 (by omega), hN,
      Nat.add_sub_cancel]
    rw [htl, hsk, hcbd, htr]

/-- C3: feeding the input to the incremental `Writer` in any sequence of
nonempty pieces, each fully accepted by the inner sink, and then calling
`finish` leaves the sink byte-identical to the in-memory `encode` output
and returns the same root hash. -/
theorem c3_writer_refinement (cs hs : Nat)
    (hC hP : List Nat → Finalization → List Nat) (hcs : 0 < cs)
    (input : List Nat) (hL : input.length < 2 ^ 64)
    (ps : List (List Nat)) (hjoin : ps.join = input) :
    (writerFinish cs hs hC hP
        (writeAll cs hC hP ps WriterState.new)).1
      = (encode cs hs hC hP hcs input).2 ∧
    (writerFinish cs hs hC hP
        (writeAll cs hC hP ps WriterState.new)).2
      = (encode cs hs hC hP hcs input).1 := by
  have hinv := winv_all cs hC hP hcs input ps WriterState.new 0
    (winv_new cs hC hP hcs input) (by rw [hjoin, List.drop_zero])
  have hpo := writer_po cs hC hP hcs input hinv
  have htl : (writeAll cs hC hP ps WriterState.new).totalLen
      = input.length := by
    obtain ⟨c, h⟩ := hinv
    exact h.1
  -- split the post-order output into body and header
  have hsplit : ∃ body, (encodePostOrder cs hC hP hcs input).1
      = body ++ encodeLen input.length := by
    unfold encodePostOrder
    by_cases hle : input.length ≤ cs
    · rw [if_pos hle]
      exact ⟨input, rfl⟩
    · rw [if_neg hle]
      rw [show (epoLoop cs hC hP (Root input.length)
          (encodeLen input.length) hcs input [] [])
          = (encodePostOrder cs hC hP hcs input) by
        unfold encodePostOrder
        rw [if_neg hle]]
      rw [encodePostOrder_tail cs hC hP hcs input (by omega)]
      exact ⟨_, rfl⟩
  obtain ⟨body, hbody⟩ := hsplit
  have hel : (encodeLen input.length).length = HEADER_SIZE :=
    encodeLen_length input.length
  have hlen : (encodePostOrder cs hC hP hcs input).1.length
      = body.length + HEADER_SIZE := by
    rw [hbody, List.length_append, hel]
  have hheader : getRange (encodePostOrder cs hC hP hcs input).1
      ((encodePostOrder cs hC hP hcs input).1.length - HEADER_SIZE)
      HEADER_SIZE = encodeLen input.length := by
    rw [hbody]
    rw [show (body ++ encodeLen input.length).length - HEADER_SIZE
      = body.length by rw [List.length_append, hel]; omega]
    unfold getRange
    rw [List.drop_left, ← hel, List.take_length]
  have hdec : decodeLen (encodeLen input.length) = input.length :=
    decodeLen_encodeLen hL
  constructor
  · unfold writerFinish
    rw [hpo, htl]
    unfold encode
    dsimp only
    unfold flipInPlace
    rw [hheader, hdec]
  · unfold writerFinish
    rw [hpo]
    unfold encode
    dsimp only

/-- Witness for C3 at `CHUNK_SIZE = 2`, `HASH_SIZE = 1`, constant hash
functions, input `[1, 2, 3]` split into pieces `[1]` and `[2, 3]`. -/
theorem c3_writer_refinement_witness :
    0 < 2 ∧ ([1, 2, 3] : List Nat).length < 2 ^ 64 ∧
      ([[1], [2, 3]] : List (List Nat)).join = [1, 2, 3] ∧
      (writerFinish 2 1 (fun _ _ => [0]) (fun _ _ => [0])
          (writeAll 2 (fun _ _ => [0]) (fun _ _ => [0]) [[1], [2, 3]]
            WriterState.new)).2
        = (encode 2 1 (fun _ _ => [0]) (fun _ _ => [0]) (Nat.succ_pos 1)
            [1, 2, 3]).1 :=
  ⟨by decide, by decide, by decide,
    (c3_writer_refinement 2 1 (fun _ _ => [0]) (fun _ _ => [0])
      (Nat.succ_pos 1) [1, 2, 3] (by decide) [[1], [2, 3]] (by decide)).2⟩

end Bao
